import Mathlib

/-!
Verification of the sensitive-data detection and redaction core of the
file-cleanser repository, as a shallow embedding in Lean.

Texts are modelled as `List Char`.  Python regular expressions (the subset the
repository uses: character classes, literals, alternation, concatenation,
greedy bounded and unbounded repetition, optional groups and the zero-width
word-boundary assertion) are modelled by the `Rx` syntax tree together with a
backtracking matcher `mtch` that returns all candidate match ends in exactly
the priority order a leftmost backtracking engine (such as CPython's `re`)
explores them, so that the head of the list is the match `re.finditer` yields.

Caveats of the embedding, stated once here: character semantics are ASCII
(`\w`, `\d`, `\s`, case folding); the repository's data is ASCII except for a
few literal Devanagari/mojibake keywords, which are carried verbatim and have
no case.  Patterns scanned by `SensitiveDataDetector.detect_in_text` are
compiled with `re.IGNORECASE`; the transcribed syntax trees below therefore
already include both cases wherever the flag affects a class or literal.
-/

namespace Cleanser

/-- A character class: a set of inclusive ranges, possibly negated
(Python `[...]` or `[^...]`). -/
structure CC where
  neg : Bool
  rs : List (Char × Char)
deriving DecidableEq, Repr

def ccMatch (c : CC) (ch : Char) : Bool :=
  let inr := c.rs.any (fun p => decide (p.1 ≤ ch) && decide (ch ≤ p.2))
  if c.neg then !inr else inr

/-- Regular-expression syntax trees for the pattern subset used by the
repository.  `repc` is greedy repetition of a character class with a lower
bound and an optional upper bound; `star` is greedy unbounded repetition of a
general body (iterations that consume nothing are skipped, which agrees with
CPython for the repository's patterns, whose starred bodies cannot match the
empty string); `grp` records the sub-match extent of a capture group. -/
inductive Rx where
  | eps : Rx
  | cls : CC → Rx
  | bnd : Rx
  | cat : Rx → Rx → Rx
  | alt : Rx → Rx → Rx
  | repc : CC → Nat → Option Nat → Rx
  | star : Rx → Rx
  | grp : Rx → Rx
deriving DecidableEq, Repr

/-- ASCII word character, Python `\w` restricted to ASCII. -/
def wordChar (c : Char) : Bool := c.isAlphanum || c == '_'

def wordAt (t : List Char) (i : Nat) : Bool :=
  match t[i]? with
  | some c => wordChar c
  | none => false

/-- Python `\b`: true when exactly one side of position `i` is a word
character (positions outside the text count as non-word). -/
def boundary (t : List Char) (i : Nat) : Bool :=
  (if i = 0 then false else wordAt t (i - 1)) != wordAt t i

/-- Length of the maximal run of characters of class `c` at the front. -/
def runLen (c : CC) : List Char → Nat
  | [] => 0
  | ch :: r => if ccMatch c ch then runLen c r + 1 else 0

/-- `[cap, cap-1, ..., lo]`, the greedy preference order for a counted class
repetition (longest first). -/
def descRange (lo cap : Nat) : List Nat :=
  (List.range (cap + 1 - lo)).map (fun j => cap - j)

/-- All end positions reachable by zero or more body iterations from `i`,
greedy order (more iterations first, each iteration in body priority order);
iterations must consume at least one character and stay inside the text. -/
def starEnds (tlen : Nat) (f : Nat → List Nat) (i : Nat) : List Nat :=
  ((((f i).filter (fun e => decide (i < e) && decide (e ≤ tlen))).attach.map
    (fun e => starEnds tlen f e.1)).flatten) ++ [i]
termination_by tlen + 1 - i
decreasing_by
  have h2 := List.of_mem_filter e.2
  simp at h2
  omega

/-- Effective repetition cap: the maximal class run, further limited by an
explicit upper bound when there is one. -/
def capOf (k : Nat) : Option Nat → Nat
  | some h => min k h
  | none => k

def orG (a b : Option (Nat × Nat)) : Option (Nat × Nat) :=
  match a with
  | some x => some x
  | none => b

/-- The backtracking matcher.  `mtch r t i` is the list of pairs
`(endPos, group)` for every way `r` can match at position `i` of `t`, in
the exact order a backtracking engine tries them; the head is the match
the engine reports. -/
def mtch : Rx → List Char → Nat → List (Nat × Option (Nat × Nat))
  | .eps, _, i => [(i, none)]
  | .cls c, t, i =>
      match t[i]? with
      | some ch => if ccMatch c ch then [(i + 1, none)] else []
      | none => []
  | .bnd, t, i => if boundary t i then [(i, none)] else []
  | .cat a b, t, i =>
      ((mtch a t i).map
        (fun r => (mtch b t r.1).map (fun s => (s.1, orG r.2 s.2)))).flatten
  | .alt a b, t, i => mtch a t i ++ mtch b t i
  | .repc c lo hi, t, i =>
      if lo ≤ capOf (runLen c (t.drop i)) hi then
        (descRange lo (capOf (runLen c (t.drop i)) hi)).map
          (fun j => (i + j, none))
      else []
  | .star r, t, i =>
      (starEnds t.length (fun j => (mtch r t j).map (fun s => s.1)) i).map
        (fun e => (e, none))
  | .grp r, t, i => (mtch r t i).map (fun s => (s.1, some (i, s.1)))

/-- `re.finditer`: scan positions left to right, report the first
(backtracking-preferred) match at each position, resume after each match
(advancing one position past an empty match). -/
def finditer (r : Rx) (t : List Char) (i : Nat) : List (Nat × Nat × Option (Nat × Nat)) :=
  if _h : t.length < i then []
  else
    match (mtch r t i).head? with
    | some s =>
        if he : i < s.1 then (i, s.1, s.2) :: finditer r t s.1
        else (i, s.1, s.2) :: finditer r t (i + 1)
    | none => finditer r t (i + 1)
termination_by t.length + 1 - i
decreasing_by
  all_goals omega

/-! ### Pattern transcription helpers -/

def chs (l : List Char) : CC := ⟨false, l.map (fun c => (c, c))⟩

def one (c : CC) : Rx := .cls c

def chr (c : Char) : Rx := .cls (chs [c])

/-- A single literal character under `re.IGNORECASE` (both cases). -/
def chrI (c : Char) : Rx := .cls (chs [c.toLower, c.toUpper])

def cats : List Rx → Rx
  | [] => .eps
  | [r] => r
  | r :: l => .cat r (cats l)

def alts : List Rx → Rx
  | [] => .eps
  | [r] => r
  | r :: l => .alt r (alts l)

def lit (s : String) : Rx := cats (s.data.map chr)

def litI (s : String) : Rx := cats (s.data.map chrI)

def rep (c : CC) (lo hi : Nat) : Rx := .repc c lo (some hi)

def repN (c : CC) (n : Nat) : Rx := .repc c n (some n)

def rep0 (c : CC) : Rx := .repc c 0 none

def rep1 (c : CC) : Rx := .repc c 1 none

def repMin (c : CC) (lo : Nat) : Rx := .repc c lo none

def opt (r : Rx) : Rx := .alt r .eps

/-- `(?:r){0,n}`, greedy, as a nested chain of optionals (same greedy
preference order: more iterations first). -/
def repUpTo (r : Rx) : Nat → Rx
  | 0 => .eps
  | n + 1 => .alt (.cat r (repUpTo r n)) .eps

/-- `(?:r){lo,hi}`, greedy. -/
def repG (r : Rx) (lo hi : Nat) : Rx :=
  cats (List.replicate lo r ++ [repUpTo r (hi - lo)])

/-- `(?:r)+`, greedy. -/
def plus (r : Rx) : Rx := .cat r (.star r)

/-- Character-class building blocks (ASCII; classes containing letters are
written with both cases where the pattern is evaluated under
`re.IGNORECASE`, which `detect_in_text` applies to every registry pattern). -/
def wsR : List (Char × Char) :=
  [(' ', ' '), ('\t', '\t'), ('\n', '\n'), ('\r', '\r'),
   ('\x0b', '\x0b'), ('\x0c', '\x0c')]

def dC : CC := ⟨false, [('0', '9')]⟩

def wsC : CC := ⟨false, wsR⟩

def nonWsC : CC := ⟨true, wsR⟩

def LC : CC := ⟨false, [('A', 'Z'), ('a', 'z')]⟩

def ANC : CC := ⟨false, [('A', 'Z'), ('a', 'z'), ('0', '9')]⟩

def hexC : CC := ⟨false, [('A', 'F'), ('a', 'f'), ('0', '9')]⟩

def sepC : CC := ⟨false, ('-', '-') :: wsR⟩

def sepDotC : CC := ⟨false, ('-', '-') :: ('.', '.') :: wsR⟩

def colSepC : CC := ⟨false, ('-', '-') :: (':', ':') :: wsR⟩

def colEqC : CC := ⟨false, (':', ':') :: ('=', '=') :: wsR⟩

def kwSepC : CC := ⟨false, (':', ':') :: ('=', '=') :: ('-', '-') :: wsR⟩

def underDashC : CC := ⟨false, [('-', '-'), ('_', '_')]⟩

def nameClsC : CC := ⟨false, ('A', 'Z') :: ('a', 'z') :: wsR⟩

def keyClsC : CC := ⟨false, [('A', 'Z'), ('a', 'z'), ('0', '9'), ('_', '_'), ('-', '-')]⟩

def tokClsC : CC := ⟨false, [('A', 'Z'), ('a', 'z'), ('0', '9'), ('_', '_'), ('-', '-'), ('.', '.')]⟩

def jwtClsC : CC := keyClsC

def emailLocalC : CC :=
  ⟨false, [('A', 'Z'), ('a', 'z'), ('0', '9'), ('.', '.'), ('_', '_'),
           ('%', '%'), ('+', '+'), ('-', '-')]⟩

def emailDomC : CC :=
  ⟨false, [('A', 'Z'), ('a', 'z'), ('0', '9'), ('.', '.'), ('-', '-')]⟩

/-- `[A-Z|a-z]` (the literal pipe the source pattern contains is kept). -/
def tldC : CC := ⟨false, [('A', 'Z'), ('|', '|'), ('a', 'z')]⟩

/-- `[^\s<>"{}|\\^`\[\]]` from the URL patterns. -/
def urlC : CC :=
  ⟨true, wsR ++
    [('<', '<'), ('>', '>'), ('"', '"'),
     (Char.ofNat 0x7b, Char.ofNat 0x7b), (Char.ofNat 0x7d, Char.ofNat 0x7d),
     ('|', '|'), ('\\', '\\'), ('^', '^'),
     (Char.ofNat 96, Char.ofNat 96), ('[', '['), (']', ']')]⟩

def domLabelC : CC := ⟨false, [('a', 'z'), ('A', 'Z'), ('0', '9')]⟩

def domLabelDashC : CC := ⟨false, [('a', 'z'), ('A', 'Z'), ('0', '9'), ('-', '-')]⟩

/-- `[a-km-zA-HJ-NP-Z1-9]` under `re.IGNORECASE`: every letter has some case
variant inside the class, so the folded class is all letters plus `1-9`. -/
def btcC : CC := ⟨false, [('a', 'z'), ('A', 'Z'), ('1', '9')]⟩

/-- `[A-HJ-NPR-Z0-9]` under `re.IGNORECASE`. -/
def vinC : CC :=
  ⟨false, [('A', 'H'), ('J', 'N'), ('P', 'P'), ('R', 'Z'),
           ('a', 'h'), ('j', 'n'), ('p', 'p'), ('r', 'z'), ('0', '9')]⟩

def xStarC : CC := ⟨false, [('X', 'X'), ('x', 'x'), ('*', '*')]⟩

def signC : CC := ⟨false, [('-', '-'), ('+', '+')]⟩

def colDashC : CC := ⟨false, [(':', ':'), ('-', '-')]⟩

def dashSlashC : CC := ⟨false, [('-', '-'), ('/', '/')]⟩

def sixNineC : CC := ⟨false, [('6', '9')]⟩

/-! ### The pattern registry (`Config.SENSITIVE_PATTERNS`), transcribed in
dictionary order.  Capture groups that `detect_in_text` never reads (it uses
the whole-match extent) are transcribed without a `grp` marker; this does not
change match extents or priority. -/

def p_aadhaar_spaced : Rx :=
  cats [.bnd, repN dC 4, rep1 wsC, repN dC 4, rep1 wsC, repN dC 4, .bnd]

def p_aadhaar_compact : Rx := cats [.bnd, repN dC 12, .bnd]

def p_aadhaar_masked : Rx := cats [.bnd, repN xStarC 8, repN dC 4, .bnd]

def p_pan_card : Rx := cats [.bnd, repN LC 5, repN dC 4, one LC, .bnd]

def p_voter_id : Rx := cats [.bnd, repN LC 3, repN dC 7, .bnd]

def p_passport : Rx := cats [.bnd, one LC, repN dC 7, .bnd]

def p_driving_license : Rx := cats [.bnd, repN LC 2, rep dC 13 14, .bnd]

def p_gstin : Rx :=
  cats [.bnd, repN dC 2, repN LC 5, repN dC 4, one LC, one dC,
        one (chs ['Z', 'z']), one ANC, .bnd]

def p_ssn : Rx :=
  cats [.bnd, repN dC 3, rep sepC 0 1, repN dC 2, rep sepC 0 1, repN dC 4, .bnd]

def p_ssn_masked : Rx :=
  cats [.bnd, repN xStarC 3, rep sepC 0 1, repN xStarC 2, rep sepC 0 1,
        repN dC 4, .bnd]

def p_us_passport : Rx := cats [.bnd, rep (chs ['C', 'c']) 0 1, repN dC 9, .bnd]

def p_ein : Rx := cats [.bnd, repN dC 2, rep sepC 0 1, repN dC 7, .bnd]

def p_visa : Rx :=
  cats [.bnd, chr '4', repN dC 3, rep sepC 0 1, repN dC 4, rep sepC 0 1,
        repN dC 4, rep sepC 0 1, repN dC 4, .bnd]

def p_mastercard : Rx :=
  cats [.bnd, chr '5', one (chs ['1', '2', '3', '4', '5']), repN dC 2,
        rep sepC 0 1, repN dC 4, rep sepC 0 1, repN dC 4, rep sepC 0 1,
        repN dC 4, .bnd]

def p_amex : Rx :=
  cats [.bnd, chr '3', one (chs ['4', '7']), repN dC 2, rep sepC 0 1,
        repN dC 6, rep sepC 0 1, repN dC 5, .bnd]

def p_discover : Rx :=
  cats [.bnd, lit "6011", rep sepC 0 1, repN dC 4, rep sepC 0 1, repN dC 4,
        rep sepC 0 1, repN dC 4, .bnd]

def p_rupay : Rx :=
  cats [.bnd, chr '6', repN dC 3, rep sepC 0 1, repN dC 4, rep sepC 0 1,
        repN dC 4, rep sepC 0 1, repN dC 4, .bnd]

def p_credit_card_generic : Rx :=
  cats [.bnd, repN dC 4, rep sepC 0 1, repN dC 4, rep sepC 0 1, repN dC 4,
        rep sepC 0 1, repN dC 4, .bnd]

def p_cvv : Rx := cats [.bnd, rep dC 3 4, .bnd]

/-- `\b[A-Z]{2}\d{2}[A-Z0-9]{4}\d{7}([A-Z0-9]?){0,16}\b`; the trailing
`([A-Z0-9]?){0,16}` is transcribed as `[A-Z0-9]{0,16}`, which has the same
match extents and greedy preference order. -/
def p_iban : Rx :=
  cats [.bnd, repN LC 2, repN dC 2, repN ANC 4, repN dC 7, rep ANC 0 16, .bnd]

def p_swift_code : Rx :=
  cats [.bnd, repN LC 6, repN ANC 2, opt (repN ANC 3), .bnd]

def p_account_number : Rx :=
  cats [.bnd, alts [litI "A/C", litI "ACC", litI "ACCT", litI "ACCOUNT"],
        rep colSepC 0 1, rep dC 8 18, .bnd]

def p_ifsc_code : Rx := cats [.bnd, repN LC 4, chr '0', repN ANC 6, .bnd]

def p_routing_number : Rx := cats [.bnd, repN dC 9, .bnd]

def p_email : Rx :=
  cats [.bnd, rep1 emailLocalC, chr '@', rep1 emailDomC, chr '.',
        repMin tldC 2, .bnd]

def p_email_obfuscated : Rx :=
  cats [.bnd, rep1 emailLocalC, rep0 wsC,
        alts [chr '@', cats [chr '[', litI "at", chr ']'],
              cats [chr '(', litI "at", chr ')']],
        rep0 wsC, rep1 emailDomC, rep0 wsC,
        alts [chr '.', cats [chr '[', litI "dot", chr ']'],
              cats [chr '(', litI "dot", chr ')']],
        rep0 wsC, repMin tldC 2, .bnd]

def p_indian_mobile : Rx :=
  cats [.bnd, opt (cats [chr '+', lit "91", rep sepC 0 1]),
        one sixNineC, repN dC 9, .bnd]

def p_us_phone : Rx :=
  cats [.bnd, opt (cats [chr '+', chr '1', rep sepC 0 1]),
        rep (chs ['(']) 0 1, repN dC 3, rep (chs [')']) 0 1, rep sepC 0 1,
        repN dC 3, rep sepC 0 1, repN dC 4, .bnd]

def p_uk_phone : Rx :=
  cats [.bnd, opt (cats [chr '+', lit "44", rep sepC 0 1]),
        opt (alts [chr '0', lit "(0)"]),
        repN dC 4, rep sepC 0 1, repN dC 6, .bnd]

def p_generic_phone : Rx :=
  cats [.bnd, opt (cats [chr '+', rep dC 1 3, rep sepDotC 0 1]),
        rep (chs ['(']) 0 1, rep dC 2 4, rep (chs [')']) 0 1, rep sepDotC 0 1,
        rep dC 3 4, rep sepDotC 0 1, rep dC 4 6, .bnd]

def p_ipv4 : Rx :=
  cats (.bnd :: List.replicate 3 (cats [rep dC 1 3, chr '.']) ++
        [rep dC 1 3, .bnd])

def p_ipv6 : Rx :=
  cats (.bnd :: List.replicate 7 (cats [rep hexC 1 4, chr ':']) ++
        [rep hexC 1 4, .bnd])

def p_ipv6_compressed : Rx :=
  cats [.bnd, repG (cats [rep hexC 1 4, chr ':']) 1 7, chr ':', .bnd]

def p_mac_address : Rx :=
  cats (.bnd :: List.replicate 5 (cats [repN hexC 2, one colDashC]) ++
        [repN hexC 2, .bnd])

def p_subnet_mask : Rx :=
  cats (.bnd :: List.replicate 3 (cats [rep dC 1 3, chr '.']) ++
        [rep dC 1 3, chr '/', rep dC 1 2, .bnd])

def p_date_dmy : Rx :=
  cats [.bnd, rep dC 1 2, one dashSlashC, rep dC 1 2, one dashSlashC,
        repN dC 4, .bnd]

def p_date_mdy : Rx := p_date_dmy

def p_date_ymd : Rx :=
  cats [.bnd, repN dC 4, one dashSlashC, rep dC 1 2, one dashSlashC,
        rep dC 1 2, .bnd]

def p_date_iso : Rx :=
  cats [.bnd, repN dC 4, chr '-', repN dC 2, chr '-', repN dC 2, .bnd]

def p_date_with_time : Rx :=
  cats [.bnd, repN dC 4, chr '-', repN dC 2, chr '-', repN dC 2, rep1 wsC,
        repN dC 2, chr ':', repN dC 2, chr ':', repN dC 2, .bnd]

def p_url_http : Rx :=
  cats [litI "http", opt (chrI 's'), lit "://", rep1 urlC]

def p_url_ftp : Rx := cats [litI "ftp", lit "://", rep1 urlC]

def p_domain : Rx :=
  cats [.bnd,
        plus (cats [one domLabelC,
                    opt (cats [rep domLabelDashC 0 61, one domLabelC]),
                    chr '.']),
        repMin LC 2, .bnd]

def p_password_field : Rx :=
  cats [alts [litI "password", litI "passwd", litI "pwd"],
        rep1 colEqC, rep1 nonWsC]

def p_api_key : Rx :=
  cats [alts [cats [litI "api", rep underDashC 0 1, litI "key"], litI "apikey"],
        rep1 colEqC, repMin keyClsC 16]

def p_secret_key : Rx :=
  cats [alts [cats [litI "secret", rep underDashC 0 1, litI "key"],
              litI "secretkey"],
        rep1 colEqC, repMin keyClsC 16]

def p_token : Rx :=
  cats [alts [litI "token", litI "bearer"], rep1 colEqC, repMin tokClsC 16]

def p_jwt : Rx :=
  cats [.bnd, litI "eyJ", rep0 jwtClsC, chr '.', litI "eyJ", rep0 jwtClsC,
        chr '.', rep0 jwtClsC, .bnd]

def p_private_key : Rx :=
  cats [lit "-----", litI "BEGIN ",
        opt (alts [litI "RSA ", litI "EC ", litI "DSA "]),
        litI "PRIVATE KEY", lit "-----"]

def p_medicare : Rx :=
  cats [.bnd, repN dC 4, rep sepC 0 1, repN dC 4, rep sepC 0 1, repN dC 4,
        rep sepC 0 1, one LC, .bnd]

def p_medical_record : Rx :=
  cats [.bnd, alts [litI "MRN", litI "MR",
                    cats [litI "MEDICAL", rep1 wsC, litI "RECORD"]],
        rep colSepC 0 1, rep dC 6 10, .bnd]

def p_zipcode_us : Rx :=
  cats [.bnd, repN dC 5, opt (cats [chr '-', repN dC 4]), .bnd]

def p_postal_code_uk : Rx :=
  cats [.bnd, rep LC 1 2, rep dC 1 2, rep LC 0 1, rep wsC 0 1, one dC,
        repN LC 2, .bnd]

def p_pincode_india : Rx := cats [.bnd, repN dC 6, .bnd]

def p_fingerprint_id : Rx :=
  cats [.bnd, litI "FP", rep underDashC 0 1, rep dC 8 12, .bnd]

def p_iris_id : Rx :=
  cats [.bnd, litI "IRIS", rep underDashC 0 1, rep dC 8 12, .bnd]

def p_bitcoin_address : Rx :=
  cats [.bnd, one (chs ['1', '3']), rep btcC 25 34, .bnd]

def p_ethereum_address : Rx := cats [.bnd, litI "0x", repN hexC 40, .bnd]

def p_vin : Rx := cats [.bnd, repN vinC 17, .bnd]

def p_license_plate : Rx :=
  cats [.bnd, repN LC 2, rep sepC 0 1, repN dC 2, rep sepC 0 1, rep LC 1 2,
        rep sepC 0 1, repN dC 4, .bnd]

def p_tax_id : Rx := cats [.bnd, repN dC 2, rep sepC 0 1, repN dC 7, .bnd]

def p_gps_coordinates : Rx :=
  cats [.bnd, rep signC 0 1, rep dC 1 3, chr '.', rep1 dC, chr ',', rep0 wsC,
        rep signC 0 1, rep dC 1 3, chr '.', rep1 dC, .bnd]

def p_name_after_keyword : Rx :=
  cats [alts [litI "name", litI "naam", lit "नाम"], rep1 kwSepC,
        rep nameClsC 2 50]

def p_father_name : Rx :=
  cats [alts [litI "father", lit "पिता"], rep1 kwSepC, rep nameClsC 2 50]

def p_mother_name : Rx :=
  cats [alts [litI "mother", lit "माता"], rep1 kwSepC, rep nameClsC 2 50]

/-- `\b([A-Z][a-z]+(?:\s+[A-Z][a-z]+)*)\b` under `re.IGNORECASE`; both
classes fold to `[A-Za-z]`. -/
def p_name_standalone : Rx :=
  cats [.bnd, one LC, rep1 LC,
        .star (cats [rep1 wsC, one LC, rep1 LC]), .bnd]

def p_license_number_generic : Rx :=
  cats [.bnd, rep LC 2 5, rep dC 3 10, rep LC 0 3, .bnd]

def p_license_number_india : Rx :=
  cats [.bnd, repN LC 2, repN dC 2, rep LC 0 2, rep dC 4 7, .bnd]

def p_license_number_us : Rx := cats [.bnd, rep ANC 1 7, .bnd]

def p_employee_id : Rx :=
  cats [.bnd, alts [litI "EMP", litI "EMPLOYEE", litI "STAFF"],
        rep underDashC 0 1, rep dC 4 8, .bnd]

def p_student_id : Rx :=
  cats [.bnd, alts [litI "STU", litI "STUDENT", litI "ROLL"],
        rep underDashC 0 1, rep dC 4 8, .bnd]

def p_badge_number : Rx :=
  cats [.bnd, alts [litI "BADGE", litI "ID"], rep underDashC 0 1,
        rep dC 4 8, .bnd]

/-! ### Extra patterns added in `SensitiveDataDetector.__init__`.
The keys `aadhaar_compact` and `voter_id` already exist in the config
registry and are overwritten with identical expressions, so they keep their
original dictionary position; the remaining keys are appended in order. -/

def p_aadhaar_number : Rx := p_aadhaar_spaced

def p_date_dob : Rx :=
  cats [.bnd, repN dC 2, one dashSlashC, repN dC 2, one dashSlashC,
        repN dC 4, .bnd]

def p_date_indian : Rx := p_date_dmy

def p_name_field : Rx :=
  cats [litI "Name", rep0 wsC, one colDashC, rep0 wsC, rep nameClsC 2 30]

def p_gender_field : Rx :=
  cats [litI "Gender", rep0 wsC, one colDashC, rep0 wsC,
        alts [litI "MALE", litI "FEMALE", litI "M", litI "F"]]

def p_pan_number : Rx := p_pan_card

def p_indian_phone : Rx := cats [.bnd, one sixNineC, repN dC 9, .bnd]

def p_phone_with_code : Rx :=
  cats [chr '+', lit "91", rep sepC 0 1, one sixNineC, repN dC 9, .bnd]

def p_pincode : Rx := cats [.bnd, repN dC 6, .bnd]

def p_government_doc : Rx :=
  alts [cats [litI "GOVERNMENT", rep1 wsC, litI "OF", rep1 wsC, litI "INDIA"],
        cats [lit "‡§≠‡§æ‡§∞‡§§", rep1 wsC, lit "‡§∏‡§∞‡§ï‡§æ‡§∞"]]

/-- `self.patterns` of `SensitiveDataDetector`, in dictionary iteration
order. -/
def detectorPatterns : List (String × Rx) :=
  [("aadhaar_spaced", p_aadhaar_spaced),
   ("aadhaar_compact", p_aadhaar_compact),
   ("aadhaar_masked", p_aadhaar_masked),
   ("pan_card", p_pan_card),
   ("voter_id", p_voter_id),
   ("passport", p_passport),
   ("driving_license", p_driving_license),
   ("gstin", p_gstin),
   ("ssn", p_ssn),
   ("ssn_masked", p_ssn_masked),
   ("us_passport", p_us_passport),
   ("ein", p_ein),
   ("visa", p_visa),
   ("mastercard", p_mastercard),
   ("amex", p_amex),
   ("discover", p_discover),
   ("rupay", p_rupay),
   ("credit_card_generic", p_credit_card_generic),
   ("cvv", p_cvv),
   ("iban", p_iban),
   ("swift_code", p_swift_code),
   ("account_number", p_account_number),
   ("ifsc_code", p_ifsc_code),
   ("routing_number", p_routing_number),
   ("email", p_email),
   ("email_obfuscated", p_email_obfuscated),
   ("indian_mobile", p_indian_mobile),
   ("us_phone", p_us_phone),
   ("uk_phone", p_uk_phone),
   ("generic_phone", p_generic_phone),
   ("ipv4", p_ipv4),
   ("ipv6", p_ipv6),
   ("ipv6_compressed", p_ipv6_compressed),
   ("mac_address", p_mac_address),
   ("subnet_mask", p_subnet_mask),
   ("date_dmy", p_date_dmy),
   ("date_mdy", p_date_mdy),
   ("date_ymd", p_date_ymd),
   ("date_iso", p_date_iso),
   ("date_with_time", p_date_with_time),
   ("url_http", p_url_http),
   ("url_ftp", p_url_ftp),
   ("domain", p_domain),
   ("password_field", p_password_field),
   ("api_key", p_api_key),
   ("secret_key", p_secret_key),
   ("token", p_token),
   ("jwt", p_jwt),
   ("private_key", p_private_key),
   ("medicare", p_medicare),
   ("medical_record", p_medical_record),
   ("zipcode_us", p_zipcode_us),
   ("postal_code_uk", p_postal_code_uk),
   ("pincode_india", p_pincode_india),
   ("fingerprint_id", p_fingerprint_id),
   ("iris_id", p_iris_id),
   ("bitcoin_address", p_bitcoin_address),
   ("ethereum_address", p_ethereum_address),
   ("vin", p_vin),
   ("license_plate", p_license_plate),
   ("tax_id", p_tax_id),
   ("gps_coordinates", p_gps_coordinates),
   ("name_after_keyword", p_name_after_keyword),
   ("father_name", p_father_name),
   ("mother_name", p_mother_name),
   ("name_standalone", p_name_standalone),
   ("license_number_generic", p_license_number_generic),
   ("license_number_india", p_license_number_india),
   ("license_number_us", p_license_number_us),
   ("employee_id", p_employee_id),
   ("student_id", p_student_id),
   ("badge_number", p_badge_number),
   ("aadhaar_number", p_aadhaar_number),
   ("date_dob", p_date_dob),
   ("date_indian", p_date_indian),
   ("name_field", p_name_field),
   ("gender_field", p_gender_field),
   ("pan_number", p_pan_number),
   ("indian_phone", p_indian_phone),
   ("phone_with_code", p_phone_with_code),
   ("pincode", p_pincode),
   ("government_doc", p_government_doc)]

/-! ### Fuzzy detector patterns (`_fuzzy_detection`); the number and date
patterns are compiled without flags, the name pattern with `re.IGNORECASE`. -/

def p_fuzzy_num1 : Rx := p_aadhaar_spaced

def p_fuzzy_num2 : Rx :=
  cats [.bnd, repN dC 4, rep wsC 0 1, repN dC 4, rep wsC 0 1, repN dC 4, .bnd]

def p_fuzzy_num3 : Rx := cats [.bnd, repN dC 12, .bnd]

def p_fuzzy_date1 : Rx := p_date_dmy

def p_fuzzy_date2 : Rx := p_date_ymd

/-- `(?:name|naam)\s*[:\-]?\s*([a-zA-Z\s]{2,25})` with `re.IGNORECASE`;
the capture group is recorded because the code reads `start(1)`/`end(1)`. -/
def p_fuzzy_name : Rx :=
  cats [alts [litI "name", litI "naam"], rep0 wsC, rep colDashC 0 1, rep0 wsC,
        .grp (rep nameClsC 2 25)]

/-! ### Detection pipeline (`SensitiveDataDetector`) -/

/-- One detection result dictionary.  The Python dict key `end` is the field
`stop` here (`end` is reserved in Lean); `confidence` is one of the exact
binary-free decimals 1.0, 0.8, 0.7, 0.6, represented exactly in `ℚ`. -/
structure Span where
  type : String
  text : String
  start : Nat
  stop : Nat
  confidence : ℚ
deriving DecidableEq, Repr

/-- Python slice `t[s:e]` (indices clamp). -/
def slice (t : List Char) (s e : Nat) : List Char := (t.drop s).take (e - s)

/-- Python `str.strip()` (ASCII whitespace). -/
def pyStrip (l : List Char) : List Char :=
  ((l.dropWhile Char.isWhitespace).reverse.dropWhile Char.isWhitespace).reverse

/-- Python `str.isdigit()` restricted to ASCII digits. -/
def pyIsDigit (l : List Char) : Bool := !l.isEmpty && l.all Char.isDigit

def mkSpan (name : String) (t : List Char) (s e : Nat) (conf : ℚ) : Span :=
  ⟨name, String.mk (slice t s e), s, e, conf⟩

def fm (f : α → List β) : List α → List β
  | [] => []
  | a :: l => f a ++ fm f l

/-- The registry sweep of `detect_in_text`: one confidence-1.0 span per
`finditer` match of every pattern, in dictionary order. -/
def registryCands (t : List Char) : List Span :=
  fm (fun p => (finditer p.2 t 0).map (fun m => mkSpan p.1 t m.1 m.2.1 1))
    detectorPatterns

/-- `_fuzzy_detection`. -/
def fuzzyCands (t : List Char) : List Span :=
  fm (fun r => (finditer r t 0).map
        (fun m => mkSpan "suspected_aadhaar" t m.1 m.2.1 (4 / 5)))
    [p_fuzzy_num1, p_fuzzy_num2, p_fuzzy_num3] ++
  fm (fun r => (finditer r t 0).map
        (fun m => mkSpan "suspected_date" t m.1 m.2.1 (7 / 10)))
    [p_fuzzy_date1, p_fuzzy_date2] ++
  fm (fun m =>
        match m.2.2 with
        | some g =>
            if 1 < (pyStrip (slice t g.1 g.2)).length &&
                !pyIsDigit (pyStrip (slice t g.1 g.2)) then
              [⟨"suspected_name", String.mk (pyStrip (slice t g.1 g.2)),
                g.1, g.2, 3 / 5⟩]
            else []
        | none => [])
    (finditer p_fuzzy_name t 0)

def overlapB (m ex : Span) : Bool :=
  decide (m.start < ex.stop) && decide (ex.start < m.stop)

/-- Stable insertion (ties keep earlier elements first), ascending start. -/
def insAsc (x : Span) : List Span → List Span
  | [] => [x]
  | y :: l => if y.start ≤ x.start then y :: insAsc x l else x :: y :: l

/-- Stable sort by start offset, ascending — the effect of
`matches.sort(key=lambda x: x['start'])`. -/
def sortStartAsc (l : List Span) : List Span :=
  l.foldl (fun acc x => insAsc x acc) []

/-- One iteration of the `_remove_overlapping_matches` accumulation loop:
find the first already-accepted span that overlaps the candidate (the inner
`for`/`break`); drop the candidate, unless its confidence strictly exceeds
the accepted span's, in which case that span is removed (`list.remove`, first
equal element) and the candidate appended. -/
def dedupStep (acc : List Span) (m : Span) : List Span :=
  match acc.find? (fun ex => overlapB m ex) with
  | none => acc ++ [m]
  | some ex =>
      if ex.confidence < m.confidence then (acc.erase ex) ++ [m] else acc

def removeOverlappingMatches (ms : List Span) : List Span :=
  (sortStartAsc ms).foldl dedupStep []

/-- `SensitiveDataDetector.detect_in_text`. -/
def detectInText (t : List Char) : List Span :=
  removeOverlappingMatches (registryCands t ++ fuzzyCands t)

/-! ### Text redaction (`redact_text`) -/

/-- Python `str.upper()` (ASCII). -/
def pyUpper (s : String) : String := String.mk (s.data.map Char.toUpper)

/-- `match['type'].upper().replace('_', ' ')` framed in brackets. -/
def placeholder (ty : String) : List Char :=
  '[' :: ((pyUpper ty).data.map (fun c => if c = '_' then ' ' else c)) ++
    (" REDACTED]".data)

/-- One replacement step: `red[:start] + replacement + red[end:]`. -/
def redactOne (t : List Char) (m : Span) : List Char :=
  t.take m.start ++ placeholder m.type ++ t.drop m.stop

/-- Stable insertion, descending start (ties keep earlier elements first). -/
def insDesc (x : Span) : List Span → List Span
  | [] => [x]
  | y :: l => if x.start ≤ y.start then y :: insDesc x l else x :: y :: l

/-- The effect of `matches.sort(key=lambda x: x['start'], reverse=True)`. -/
def sortStartDesc (l : List Span) : List Span :=
  l.foldl (fun acc x => insDesc x acc) []

/-- `SensitiveDataDetector.redact_text` — the returned string. -/
def redactText (t : List Char) (ms : List Span) : List Char :=
  match ms with
  | [] => t
  | _ => (sortStartDesc ms).foldl redactOne t

/-- `redact_text` including its observable effect on the caller's list:
the function sorts `matches` in place (descending start) before folding, so
the second component is the state of the argument list after the call. -/
def redactTextRun (t : List Char) (ms : List Span) : List Char × List Span :=
  match ms with
  | [] => (t, ms)
  | _ => let sorted := sortStartDesc ms
         (sorted.foldl redactOne t, sorted)

/-! ### Text cleaner (`TextCleaner.clean_text`), one definition per
substitution of `cleaning_patterns` plus the three helper methods, applied in
source order.  Each substitution is implemented as the left-to-right,
non-overlapping scan `re.sub` performs for that particular pattern. -/

/-- Python `\s` (ASCII). -/
def pySpace (c : Char) : Bool :=
  c = ' ' || c = '\t' || c = '\n' || c = '\r' || c = '\x0b' || c = '\x0c'

def wordOpt : Option Char → Bool
  | some c => wordChar c
  | none => false

theorem lengthDropWhileLe (p : α → Bool) (l : List α) :
    (l.dropWhile p).length ≤ l.length := by
  induction l with
  | nil => simp
  | cons a l ih =>
      by_cases h : p a <;> simp [List.dropWhile, h] <;> omega

/-- `re.sub(r'\s+', ' ', _)`: each maximal whitespace run becomes one
space.  Encoded as a scan with a flag recording whether the scanner is
inside a whitespace run whose first character has already been emitted. -/
def subWsM : Bool → List Char → List Char
  | _, [] => []
  | skip, c :: r =>
      if pySpace c then
        if skip then subWsM true r else ' ' :: subWsM true r
      else c :: subWsM false r

def subWs (l : List Char) : List Char := subWsM false l

def allowChar (c : Char) : Bool :=
  wordChar c || pySpace c ||
    ['.', ',', ';', ':', '!', '?', '(', ')', '-'].contains c

/-- `re.sub(r'[^\w\s.,;:!?()-]', '', _)`. -/
def subAllow (l : List Char) : List Char := l.filter allowChar

/-- `re.sub(r'\b<c>\b', <d>, _)` for a single word character `c`: replace
each occurrence of `c` that has a word boundary on both sides. -/
def subLone (c d : Char) : Option Char → List Char → List Char
  | _, [] => []
  | prev, a :: r =>
      (if a = c && !wordOpt prev && !wordOpt r.head? then d else a) ::
        subLone c d (some a) r

def punct5 (c : Char) : Bool := ['.', ',', ';', ':', '!', '?'].contains c

/-- `re.sub(r'\s*([.,;:!?])\s*', r'\1 ', _)`: greedy `\s*`, one punctuation
character, trailing whitespace consumed, replaced by the punctuation
character plus one space.  Scan with a flag recording "inside the whitespace
tail of a rewritten occurrence": whitespace before a punctuation character
is deleted (detected by looking past the current whitespace run), the
punctuation character is emitted with a single following space, and the
whitespace after it is consumed. -/
def subPunctM : Bool → List Char → List Char
  | _, [] => []
  | skip, c :: r =>
      if punct5 c then c :: ' ' :: subPunctM true r
      else if pySpace c then
        if skip then subPunctM true r
        else
          match r.dropWhile pySpace with
          | p :: _ =>
              if punct5 p then subPunctM true r else c :: subPunctM false r
          | [] => c :: subPunctM false r
      else c :: subPunctM false r

def subPunct (l : List Char) : List Char := subPunctM false l

def paren6 (c : Char) : Bool :=
  ['(', ')', Char.ofNat 0x7b, Char.ofNat 0x7d].contains c

/-- `re.sub(r'\s*([(){}])\s*', r' \1', _)`, by the same flagged scan as
`subPunctM` with the replacement shape ` \1`. -/
def subParM : Bool → List Char → List Char
  | _, [] => []
  | skip, c :: r =>
      if paren6 c then ' ' :: c :: subParM true r
      else if pySpace c then
        if skip then subParM true r
        else
          match r.dropWhile pySpace with
          | p :: _ =>
              if paren6 p then subParM true r else c :: subParM false r
          | [] => c :: subParM false r
      else c :: subParM false r

def subParen (l : List Char) : List Char := subParM false l

def lowAZ (c : Char) : Bool := decide ('a' ≤ c) && decide (c ≤ 'z')

/-- `re.sub(r'([a-z,])\n([a-z])', r'\1 \2', _)`. -/
def subFixNl : List Char → List Char
  | a :: b :: c :: r =>
      if (lowAZ a || a = ',') && b = '\n' && lowAZ c then
        a :: ' ' :: c :: subFixNl r
      else a :: subFixNl (b :: c :: r)
  | l => l

/-- Index (from the front) of the last element satisfying `p`, if any. -/
def lastIdx (p : α → Bool) (l : List α) : Option Nat :=
  l.foldl (fun acc x =>
    match acc with
    | (i, best) => (i + 1, if p x then some i else best)) (0, none) |>.2

/-- `re.sub(r'\n\s*\n', '\n\n', _)`: after a newline, greedy `\s*`
backtracks to the last newline inside the whitespace run, so a newline
followed by a whitespace run containing another newline becomes exactly
two newlines, and the scan resumes after the last newline of the run.
Flagged scan: `true` while consuming the run up to that last newline. -/
def subNlM : Bool → List Char → List Char
  | _, [] => []
  | false, c :: r =>
      if c = '\n' && (r.takeWhile pySpace).contains '\n' then
        '\n' :: '\n' :: subNlM true r
      else c :: subNlM false r
  | true, c :: r =>
      if c = '\n' && !((r.takeWhile pySpace).contains '\n') then
        subNlM false r
      else subNlM true r

def subNlNl (l : List Char) : List Char := subNlM false l

def fixLineBreaks (l : List Char) : List Char := subNlNl (subFixNl l)

def sentP (c : Char) : Bool := ['.', '!', '?'].contains c

/-- `re.split(r'([.!?]+)', _)` keeping the delimiters, as CPython returns
it: alternating text and delimiter pieces, empty pieces included.  Scan
with a flag: `false` while extending a text piece, `true` while extending
a delimiter run. -/
def sentSp : Bool → List Char → List (List Char)
  | false, [] => [[]]
  | false, c :: r =>
      if sentP c then
        [] ::
          (match sentSp true r with
           | d :: rest => (c :: d) :: rest
           | [] => [[c]])
      else
        match sentSp false r with
        | t :: rest => (c :: t) :: rest
        | [] => [[c]]
  | true, [] => [[], []]
  | true, c :: r =>
      if sentP c then
        match sentSp true r with
        | d :: rest => (c :: d) :: rest
        | [] => [[c]]
      else
        [] ::
          (match sentSp false r with
           | t :: rest => (c :: t) :: rest
           | [] => [[c]])

def sentSplit (l : List Char) : List (List Char) := sentSp false l

/-- Python `str.isupper()` (ASCII): at least one cased character and no
lowercase one. -/
def pyIsUpper (l : List Char) : Bool :=
  l.any Char.isAlpha && !(l.any Char.isLower)

def pyLower (l : List Char) : List Char := l.map Char.toLower

/-- Python `str.capitalize()`. -/
def pyCapitalize (l : List Char) : List Char :=
  match l with
  | [] => []
  | c :: r => Char.toUpper c :: r.map Char.toLower

/-- `TextCleaner._standardize_casing`. -/
def standardizeCasing (l : List Char) : List Char :=
  ((sentSplit l).map (fun s =>
    if !(pyStrip s).isEmpty && pyIsUpper s && decide (10 < s.length) then
      pyCapitalize (pyLower s)
    else s)).flatten

def upAZ (c : Char) : Bool := decide ('A' ≤ c) && decide (c ≤ 'Z')

/-- `re.sub(r'\b[A-Z]{1}\s[A-Z]{1}\s[A-Z]{1}\b', ' ', _)`. -/
def subCaps (prev : Option Char) : List Char → List Char
  | a :: s1 :: b :: s2 :: c :: r =>
      if upAZ a && pySpace s1 && upAZ b && pySpace s2 && upAZ c &&
         !wordOpt prev && !wordOpt r.head? then
        ' ' :: subCaps (some c) r
      else a :: subCaps (some a) (s1 :: b :: s2 :: c :: r)
  | [] => []
  | a :: r => a :: subCaps (some a) r

/-- `re.sub(r'[|\\/<>]', ' ', _)`. -/
def subSlash (l : List Char) : List Char :=
  l.map (fun c => if ['|', '\\', '/', '<', '>'].contains c then ' ' else c)

def spaceOpt : Option Char → Bool
  | some c => pySpace c
  | none => false

/-- `re.sub(r'\b\w{1}\b\s+', ' ', _)`: an isolated single word character
followed by whitespace, together with that whitespace run, becomes one
space.  Flagged scan: `true` while consuming the whitespace run of a
rewritten occurrence. -/
def subSg : Bool → Option Char → List Char → List Char
  | _, _, [] => []
  | skip, prev, c :: r =>
      if skip && pySpace c then subSg true prev r
      else if wordChar c && !wordOpt prev && spaceOpt r.head? then
        ' ' :: subSg true (some ' ') r
      else c :: subSg false (some c) r

def subSingle (prev : Option Char) (l : List Char) : List Char :=
  subSg false prev l

def removeArtifacts (l : List Char) : List Char :=
  subSingle none (subSlash (subCaps none l))

/-- Python `str.split()`: split on whitespace runs, no empty tokens.
Scan with a flag: `false` between tokens (consuming whitespace), `true`
inside a token (extending the head piece). -/
def pySp : Bool → List Char → List (List Char)
  | false, [] => []
  | false, c :: r =>
      if pySpace c then pySp false r
      else
        match pySp true r with
        | t :: rest => (c :: t) :: rest
        | [] => [[c]]
  | true, [] => [[]]
  | true, c :: r =>
      if pySpace c then [] :: pySp false r
      else
        match pySp true r with
        | t :: rest => (c :: t) :: rest
        | [] => [[c]]

def pySplit (l : List Char) : List (List Char) := pySp false l

/-- `' '.join(tokens)`. -/
def joinSp : List (List Char) → List Char
  | [] => []
  | [t] => t
  | t :: ts => t ++ ' ' :: joinSp ts

/-- `TextCleaner.clean_text`. -/
def cleanText (t : List Char) : List Char :=
  if t.isEmpty then []
  else
    pyStrip (joinSp (pySplit (removeArtifacts (standardizeCasing (fixLineBreaks
      (subParen (subPunct (subLone '0' 'O' none (subLone 'l' 'I' none
        (subAllow (subWs t)))))))))))

/-! ### CSV processing (`UniversalFileProcessor._process_csv_file`).
The header row read by `next(reader, None)` is written back verbatim and is
never scanned; every data cell is replaced by the fixed placeholder exactly
when `detect_in_text` finds at least one match in it. -/

def processCell (c : String) : String :=
  match detectInText c.data with
  | [] => c
  | _ :: _ => "[REDACTED]"

def processCsvRows (rows : List (List String)) : List (List String) :=
  match rows with
  | [] => []
  | hdr :: data => hdr :: data.map (fun row => row.map processCell)

/-! ### JSON processing (`UniversalFileProcessor._redact_json_recursive`). -/

inductive Jsn where
  | obj : List (String × Jsn) → Jsn
  | arr : List Jsn → Jsn
  | str : String → Jsn
  | num : ℚ → Jsn
  | bool : Bool → Jsn
  | null : Jsn
deriving Repr

mutual

/-- `_redact_json_recursive`: returns the redacted value and the list of
matches annotated with their structural path. -/
def redactJson : Jsn → String → Jsn × List (Span × String)
  | .obj fs, path =>
      let r := redactJsonFields fs path
      (.obj r.1, r.2)
  | .arr its, path =>
      let r := redactJsonItems its path 0
      (.arr r.1, r.2)
  | .str s, path =>
      match detectInText s.data with
      | [] => (.str s, [])
      | ms => (.str "[REDACTED]", ms.map (fun m => (m, path)))
  | .num q, _ => (.num q, [])
  | .bool b, _ => (.bool b, [])
  | .null, _ => (.null, [])

def redactJsonFields : List (String × Jsn) → String → List (String × Jsn) × List (Span × String)
  | [], _ => ([], [])
  | (k, v) :: fs, path =>
      let np := if path = "" then k else path ++ "." ++ k
      let rv := redactJson v np
      let rest := redactJsonFields fs path
      ((k, rv.1) :: rest.1, rv.2 ++ rest.2)

def redactJsonItems : List Jsn → String → Nat → List Jsn × List (Span × String)
  | [], _, _ => ([], [])
  | v :: its, path, i =>
      let rv := redactJson v (path ++ "[" ++ toString i ++ "]")
      let rest := redactJsonItems its path (i + 1)
      (rv.1 :: rest.1, rv.2 ++ rest.2)

end

/-! ### Image redaction (`ImageRedactor.redact_image`).
The pixel buffer is a rectangular grid of abstract pixels; `cv2` transforms
(Gaussian/motion blur) are external collaborators, modelled by a function
argument that either produces a transformed patch or fails (`none`, standing
for a raised exception, which `_blur_region` catches and answers with the
blackout fallback).  NumPy slice reads and slice assignment clamp to the
array bounds; assignment of a wrongly-shaped patch raises, which the same
`try`/`except` turns into blackout. -/

abbrev Grid := List (List Nat)

/-- Apply `f` to every element, passing its index (starting at `j`). -/
def mapIdxFrom (f : Nat → α → α) : Nat → List α → List α
  | _, [] => []
  | j, r :: rs => f j r :: mapIdxFrom f (j + 1) rs

def gridW (g : Grid) : Nat := ((g : List (List Nat)).head?.map List.length).getD 0

def gridH (g : Grid) : Nat := (g : List (List Nat)).length

/-- NumPy `image[y:y+h, x:x+w]` (read). -/
def subgrid (g : Grid) (x y w h : Nat) : Grid :=
  (((g : List (List Nat)).drop y).take h).map (fun row => (row.drop x).take w)

/-- NumPy `roi.size`. -/
def gridSize (g : Grid) : Nat := ((g : List (List Nat)).map List.length).sum

def sameShape : Grid → Grid → Bool
  | [], [] => true
  | r :: rs, q :: qs => decide (r.length = q.length) && sameShape rs qs
  | _, _ => false

def overwriteRow (row : List Nat) (x : Nat) (prow : List Nat) : List Nat :=
  mapIdxFrom (fun i a =>
    if x ≤ i ∧ i < x + prow.length then prow.getD (i - x) a else a) 0 row

/-- NumPy `image[y:y+h, x:x+w] = patch` for a patch of exactly the slice's
shape. -/
def writeRegion (g : Grid) (x y : Nat) (patch : Grid) : Grid :=
  mapIdxFrom (fun j row =>
    if j < y then row
    else
      match (patch : List (List Nat))[j - y]? with
      | some prow => overwriteRow row x prow
      | none => row) 0 g

/-- `image[y:y+h, x:x+w] = [0,0,0]` (blackout; a pixel is `0`). -/
def blackoutRegion (g : Grid) (x y w h : Nat) : Grid :=
  mapIdxFrom (fun j row =>
    if y ≤ j ∧ j < y + h then
      mapIdxFrom (fun i a => if x ≤ i ∧ i < x + w then 0 else a) 0 row
    else row) 0 g

/-- `ImageRedactor._blur_region`: copy out the ROI, return unchanged when it
is empty, otherwise blur and write back; any failure of the transform or of
the write-back falls back to blacking out the same region. -/
def blurRegion (blurFn : Grid → Option Grid) (g : Grid) (x y w h : Nat) : Grid :=
  if gridSize (subgrid g x y w h) = 0 then g
  else
    match blurFn (subgrid g x y w h) with
    | some blurred =>
        if sameShape blurred (subgrid g x y w h) then writeRegion g x y blurred
        else blackoutRegion g x y w h
    | none => blackoutRegion g x y w h

/-- An OCR box as `redact_image` reads it (`box['x']` … `box['h']`;
Python integers, so possibly negative after upstream arithmetic). -/
structure Box where
  x : Int
  y : Int
  w : Int
  h : Int
deriving DecidableEq, Repr

structure Rect where
  xs : Int
  ys : Int
  xe : Int
  ye : Int
deriving DecidableEq, Repr

/-- The clipped rectangle `redact_image` computes for a box: 8 further
pixels of padding on every side, clamped to the image bounds. -/
def clipBox (g : Grid) (b : Box) : Rect :=
  ⟨max 0 (b.x - 8), max 0 (b.y - 8),
   min (gridW g : Int) (b.x + b.w + 8), min (gridH g : Int) (b.y + b.h + 8)⟩

/-- The per-box body of the `redact_image` loop: clip, skip boxes whose
clipped rectangle is empty, otherwise blur (with blackout fallback) or
blackout according to the redaction mode. -/
def processBox (mode : String) (blurFn : Grid → Option Grid) (g : Grid)
    (b : Box) : Grid :=
  if (clipBox g b).xs < (clipBox g b).xe ∧ (clipBox g b).ys < (clipBox g b).ye
  then
    if mode = "blur" then
      blurRegion blurFn g (clipBox g b).xs.toNat (clipBox g b).ys.toNat
        ((clipBox g b).xe - (clipBox g b).xs).toNat
        ((clipBox g b).ye - (clipBox g b).ys).toNat
    else
      blackoutRegion g (clipBox g b).xs.toNat (clipBox g b).ys.toNat
        ((clipBox g b).xe - (clipBox g b).xs).toNat
        ((clipBox g b).ye - (clipBox g b).ys).toNat
  else g

/-- `ImageRedactor.redact_image` on a decoded buffer. -/
def redactImage (mode : String) (blurFn : Grid → Option Grid) (g : Grid)
    (boxes : List Box) : Grid :=
  boxes.foldl (processBox mode blurFn) g

/-! ## Lemmas about the overlap-deduplication scan -/

/-- The non-overlap relation the specification states for returned spans:
one ends at or before the other starts. -/
def NoOv (a b : Span) : Prop := ¬(a.start < b.stop ∧ b.start < a.stop)

theorem noOv_symm {a b : Span} (h : NoOv a b) : NoOv b a := by
  unfold NoOv at h ⊢
  omega

theorem overlapB_false_iff {m ex : Span} : overlapB m ex = false ↔ NoOv ex m := by
  unfold overlapB NoOv
  constructor
  · intro h hc
    simp at h
    omega
  · intro h
    simp
    omega

theorem insAsc_perm (x : Span) (l : List Span) : (insAsc x l).Perm (x :: l) := by
  induction l with
  | nil => exact List.Perm.refl _
  | cons y ys ih =>
      unfold insAsc
      by_cases h : y.start ≤ x.start
      · simp only [h, if_pos]
        exact (List.Perm.cons y ih).trans (List.Perm.swap x y ys)
      · simp [h]

theorem sortStartAsc_perm (l : List Span) : (sortStartAsc l).Perm l := by
  suffices h : ∀ acc, (l.foldl (fun acc x => insAsc x acc) acc).Perm (acc ++ l) by
    simpa using h []
  induction l with
  | nil =>
      intro acc
      simp
  | cons x xs ih =>
      intro acc
      simp only [List.foldl_cons]
      refine (ih (insAsc x acc)).trans ?_
      refine ((insAsc_perm x acc).append_right xs).trans ?_
      exact (@List.perm_middle _ x acc xs).symm


theorem insAsc_sorted (x : Span) (l : List Span)
    (h : l.Pairwise (fun a b => a.start ≤ b.start)) :
    (insAsc x l).Pairwise (fun a b => a.start ≤ b.start) := by
  induction l with
  | nil => simp [insAsc]
  | cons y ys ih =>
      unfold insAsc
      rcases List.pairwise_cons.1 h with ⟨hy, hys⟩
      by_cases hc : y.start ≤ x.start
      · simp only [hc, if_pos]
        refine List.pairwise_cons.2 ⟨?_, ih hys⟩
        intro b hb
        rcases List.mem_cons.1 ((insAsc_perm x ys).mem_iff.1 hb) with hbx | hbm
        · subst hbx
          exact hc
        · exact hy b hbm
      · simp only [hc, if_neg, not_false_iff]
        refine List.pairwise_cons.2 ⟨?_, h⟩
        intro b hb
        rcases List.mem_cons.1 hb with hb1 | hb1
        · subst hb1
          omega
        · have := hy b hb1
          omega

theorem sortStartAsc_sorted (l : List Span) :
    (sortStartAsc l).Pairwise (fun a b => a.start ≤ b.start) := by
  suffices hgen : ∀ acc, acc.Pairwise (fun a b => a.start ≤ b.start) →
      (l.foldl (fun acc x => insAsc x acc) acc).Pairwise
        (fun a b => a.start ≤ b.start) by
    exact hgen [] (List.Pairwise.nil)
  induction l with
  | nil =>
      intro acc hacc
      simpa using hacc
  | cons x xs ih =>
      intro acc hacc
      simp only [List.foldl_cons]
      exact ih (insAsc x acc) (insAsc_sorted x acc hacc)

/-- In a `Pairwise R` list, a value that remains after erasing one of its
occurrences must be related to itself. -/
theorem pairwise_mem_erase_self {R : Span → Span → Prop} {l : List Span}
    {a : Span} (hp : l.Pairwise R) (hm : a ∈ l.erase a) : R a a := by
  induction l with
  | nil => simp [List.erase] at hm
  | cons x xs ih =>
      rcases List.pairwise_cons.1 hp with ⟨hx, hxs⟩
      by_cases he : x = a
      · subst he
        rw [List.erase_cons_head] at hm
        exact hx _ hm
      · have hbeq : ¬(x == a) := by simpa using he
        rw [List.erase_cons_tail hbeq] at hm
        rcases List.mem_cons.1 hm with hm1 | hm1
        · exact absurd hm1.symm he
        · exact ih hxs hm1

theorem noOv_of_overlapB_false {m a : Span} (h : overlapB m a = false) :
    NoOv a m := by
  unfold overlapB at h
  unfold NoOv
  simp at h
  omega

/-- The single accumulation step keeps the accepted list free of overlaps:
a candidate can overlap at most one accepted span (accepted spans start no
later than the candidate and do not overlap each other), and an eviction
replaces exactly that span. -/
theorem dedupStep_pairwise {acc : List Span} {m : Span}
    (hpw : acc.Pairwise NoOv)
    (hwf : ∀ a ∈ acc, a.start < a.stop) (hmwf : m.start < m.stop)
    (hle : ∀ a ∈ acc, a.start ≤ m.start) :
    (dedupStep acc m).Pairwise NoOv ∧
      (∀ a ∈ dedupStep acc m, a.start < a.stop) ∧
      (∀ a ∈ dedupStep acc m, a ∈ acc ∨ a = m) := by
  have hsymm : ∀ a b : Span, NoOv a b → NoOv b a := fun a b => noOv_symm
  unfold dedupStep
  cases hf : acc.find? (fun ex => overlapB m ex) with
  | none =>
      have hnone : ∀ ex ∈ acc, overlapB m ex = false := by
        intro ex hex
        have := List.find?_eq_none.1 hf ex hex
        simpa using this
      refine ⟨?_, ?_, ?_⟩
      · rw [List.pairwise_append]
        refine ⟨hpw, by simp, ?_⟩
        intro a ha b hb
        have hb1 : b = m := by simpa using hb
        subst hb1
        exact noOv_of_overlapB_false (hnone a ha)
      · intro a ha
        rcases List.mem_append.1 ha with h1 | h1
        · exact hwf a h1
        · have : a = m := by simpa using h1
          subst this
          exact hmwf
      · intro a ha
        rcases List.mem_append.1 ha with h1 | h1
        · exact Or.inl h1
        · have : a = m := by simpa using h1
          exact Or.inr this
  | some ex =>
      have hexmem : ex ∈ acc := List.mem_of_find?_eq_some hf
      have hexov : m.start < ex.stop ∧ ex.start < m.stop := by
        have := List.find?_some hf
        unfold overlapB at this
        simpa using this
      by_cases hc : ex.confidence < m.confidence
      · simp only [hc, if_pos]
        have herase_sub : ∀ a ∈ acc.erase ex, a ∈ acc := by
          intro a ha
          exact List.mem_of_mem_erase ha
        have hnoov_m : ∀ a ∈ acc.erase ex, NoOv a m := by
          intro a ha
          by_cases hae : a = ex
          · subst hae
            have h1 := pairwise_mem_erase_self hpw ha
            have h2 := hwf a (herase_sub a ha)
            unfold NoOv at h1
            omega
          · by_contra hov
            unfold NoOv at hov
            push_neg at hov
            have hpair : NoOv a ex := by
              have hforall := List.Pairwise.forall hsymm hpw
              exact hforall (herase_sub a ha) hexmem hae
            have h1 := hle a (herase_sub a ha)
            have h2 := hle ex hexmem
            unfold NoOv at hpair
            omega
        refine ⟨?_, ?_, ?_⟩
        · rw [List.pairwise_append]
          refine ⟨hpw.sublist (List.erase_sublist ex acc), by simp, ?_⟩
          intro a ha b hb
          have hb1 : b = m := by simpa using hb
          subst hb1
          exact hnoov_m a ha
        · intro a ha
          rcases List.mem_append.1 ha with h1 | h1
          · exact hwf a (herase_sub a h1)
          · have : a = m := by simpa using h1
            subst this
            exact hmwf
        · intro a ha
          rcases List.mem_append.1 ha with h1 | h1
          · exact Or.inl (herase_sub a h1)
          · have : a = m := by simpa using h1
            exact Or.inr this
      · simp only [hc, if_neg, not_false_iff]
        exact ⟨hpw, hwf, fun a ha => Or.inl ha⟩

/-! ## Engine lemmas: match ends move forward, and strictly so for
patterns that cannot match the empty string -/

theorem starEnds_ge_fuel (tlen : Nat) (f : Nat → List Nat) :
    ∀ (n i : Nat), tlen + 1 - i ≤ n → ∀ e ∈ starEnds tlen f i, i ≤ e := by
  intro n
  induction n with
  | zero =>
      intro i hn e he
      rw [starEnds] at he
      rcases List.mem_append.1 he with h1 | h1
      · rcases List.mem_flatten.1 h1 with ⟨sub, hsub, hesub⟩
        rcases List.mem_map.1 hsub with ⟨x, hx, hxeq⟩
        have hxf := List.of_mem_filter x.2
        simp at hxf
        omega
      · have : e = i := by simpa using h1
        omega
  | succ n ih =>
      intro i hn e he
      rw [starEnds] at he
      rcases List.mem_append.1 he with h1 | h1
      · rcases List.mem_flatten.1 h1 with ⟨sub, hsub, hesub⟩
        rcases List.mem_map.1 hsub with ⟨x, hx, hxeq⟩
        have hxf := List.of_mem_filter x.2
        simp at hxf
        have hrec : x.1 ≤ e := by
          refine ih x.1 (by omega) e ?_
          rw [← hxeq] at hesub
          exact hesub
        omega
      · have : e = i := by simpa using h1
        omega

theorem starEnds_ge (tlen : Nat) (f : Nat → List Nat) (i : Nat) :
    ∀ e ∈ starEnds tlen f i, i ≤ e :=
  starEnds_ge_fuel tlen f (tlen + 1 - i) i (Nat.le_refl _)

theorem descRange_mem {lo cap j : Nat} (hlc : lo ≤ cap)
    (hj : j ∈ descRange lo cap) : lo ≤ j ∧ j ≤ cap := by
  unfold descRange at hj
  rcases List.mem_map.1 hj with ⟨x, hx, hxe⟩
  have := List.mem_range.1 hx
  omega

theorem capOf_le (k : Nat) (hi : Option Nat) : capOf k hi ≤ k := by
  cases hi <;> simp [capOf]

/-- Every result of a class repetition: `lo ≤ j ≤ cap` characters
consumed. -/
theorem mtch_repc_elim {c : CC} {lo : Nat} {hi : Option Nat} {t : List Char}
    {i : Nat} {s : Nat × Option (Nat × Nat)}
    (hs : s ∈ mtch (.repc c lo hi) t i) :
    ∃ j, lo ≤ j ∧ j ≤ capOf (runLen c (t.drop i)) hi ∧ s = (i + j, none) := by
  unfold mtch at hs
  split at hs
  · rename_i hg
    rcases List.mem_map.1 hs with ⟨j, hj, hje⟩
    have hm := descRange_mem hg hj
    exact ⟨j, hm.1, hm.2, hje.symm⟩
  · simp at hs

theorem mem_mtch_ge {r : Rx} {t : List Char} :
    ∀ {i : Nat}, ∀ s ∈ mtch r t i, i ≤ s.1 := by
  induction r with
  | eps =>
      intro i s hs
      have : s = (i, none) := by simpa [mtch] using hs
      simp [this]
  | cls c =>
      intro i s hs
      unfold mtch at hs
      cases hg : t[i]? with
      | some ch =>
          rw [hg] at hs
          by_cases hm : ccMatch c ch
          · simp [hm] at hs
            simp [hs]
          · simp [hm] at hs
      | none =>
          rw [hg] at hs
          simp at hs
  | bnd =>
      intro i s hs
      unfold mtch at hs
      by_cases hb : boundary t i
      · simp [hb] at hs
        simp [hs]
      · simp [hb] at hs
  | cat a b iha ihb =>
      intro i s hs
      unfold mtch at hs
      rcases List.mem_flatten.1 hs with ⟨sub, hsub, hssub⟩
      rcases List.mem_map.1 hsub with ⟨r1, hr1, hr1eq⟩
      rw [← hr1eq] at hssub
      rcases List.mem_map.1 hssub with ⟨s2, hs2, hs2eq⟩
      have h1 := iha r1 hr1
      have h2 := ihb s2 hs2
      have : s.1 = s2.1 := by rw [← hs2eq]
      omega
  | alt a b iha ihb =>
      intro i s hs
      unfold mtch at hs
      rcases List.mem_append.1 hs with h1 | h1
      · exact iha s h1
      · exact ihb s h1
  | repc c lo hi =>
      intro i s hs
      rcases mtch_repc_elim hs with ⟨j, hj1, hj2, hje⟩
      rw [hje]
      omega
  | star r ihr =>
      intro i s hs
      unfold mtch at hs
      rcases List.mem_map.1 hs with ⟨e, he, hee⟩
      have := starEnds_ge t.length (fun j => (mtch r t j).map (fun s => s.1)) i e he
      have : s.1 = e := by rw [← hee]
      omega
  | grp r ihr =>
      intro i s hs
      unfold mtch at hs
      rcases List.mem_map.1 hs with ⟨s2, hs2, hs2e⟩
      have := ihr s2 hs2
      have : s.1 = s2.1 := by rw [← hs2e]
      omega

/-- Patterns that cannot match the empty string. -/
def nonNull : Rx → Bool
  | .eps => false
  | .cls _ => true
  | .bnd => false
  | .cat a b => nonNull a || nonNull b
  | .alt a b => nonNull a && nonNull b
  | .repc _ lo _ => decide (1 ≤ lo)
  | .star _ => false
  | .grp r => nonNull r

theorem mem_mtch_gt {r : Rx} (hr : nonNull r = true) {t : List Char} :
    ∀ {i : Nat}, ∀ s ∈ mtch r t i, i < s.1 := by
  induction r with
  | eps => simp [nonNull] at hr
  | cls c =>
      intro i s hs
      unfold mtch at hs
      cases hg : t[i]? with
      | some ch =>
          rw [hg] at hs
          by_cases hm : ccMatch c ch
          · simp [hm] at hs
            simp [hs]
          · simp [hm] at hs
      | none =>
          rw [hg] at hs
          simp at hs
  | bnd => simp [nonNull] at hr
  | cat a b iha ihb =>
      intro i s hs
      unfold mtch at hs
      rcases List.mem_flatten.1 hs with ⟨sub, hsub, hssub⟩
      rcases List.mem_map.1 hsub with ⟨r1, hr1, hr1eq⟩
      rw [← hr1eq] at hssub
      rcases List.mem_map.1 hssub with ⟨s2, hs2, hs2eq⟩
      have hs1 : s.1 = s2.1 := by rw [← hs2eq]
      unfold nonNull at hr
      rcases Bool.or_eq_true_iff.1 hr with h | h
      · have h1 := iha h r1 hr1
        have h2 := mem_mtch_ge s2 hs2
        omega
      · have h1 := mem_mtch_ge r1 hr1
        have h2 := ihb h s2 hs2
        omega
  | alt a b iha ihb =>
      intro i s hs
      unfold mtch at hs
      unfold nonNull at hr
      rcases Bool.and_eq_true_iff.1 hr with ⟨h1, h2⟩
      rcases List.mem_append.1 hs with hm | hm
      · exact iha h1 s hm
      · exact ihb h2 s hm
  | repc c lo hi =>
      intro i s hs
      unfold nonNull at hr
      have hlo : 1 ≤ lo := by simpa using hr
      rcases mtch_repc_elim hs with ⟨j, hj1, hj2, hje⟩
      rw [hje]
      omega
  | star r ihr => simp [nonNull] at hr
  | grp r ihr =>
      intro i s hs
      unfold mtch at hs
      rcases List.mem_map.1 hs with ⟨s2, hs2, hs2e⟩
      unfold nonNull at hr
      have := ihr hr s2 hs2
      have : s.1 = s2.1 := by rw [← hs2e]
      omega

/-- Patterns whose capture groups wrap sub-patterns that cannot match the
empty string. -/
def groupsOk : Rx → Bool
  | .eps => true
  | .cls _ => true
  | .bnd => true
  | .cat a b => groupsOk a && groupsOk b
  | .alt a b => groupsOk a && groupsOk b
  | .repc _ _ _ => true
  | .star r => groupsOk r
  | .grp r => nonNull r && groupsOk r

theorem mem_mtch_group_wf {r : Rx} (hr : groupsOk r = true) {t : List Char} :
    ∀ {i : Nat}, ∀ s ∈ mtch r t i, ∀ g, s.2 = some g → g.1 < g.2 := by
  induction r with
  | eps =>
      intro i s hs g hg
      have : s = (i, none) := by simpa [mtch] using hs
      rw [this] at hg
      simp at hg
  | cls c =>
      intro i s hs g hg
      unfold mtch at hs
      cases hget : t[i]? with
      | some ch =>
          rw [hget] at hs
          by_cases hm : ccMatch c ch
          · simp [hm] at hs
            rw [hs] at hg
            simp at hg
          · simp [hm] at hs
      | none =>
          rw [hget] at hs
          simp at hs
  | bnd =>
      intro i s hs g hg
      unfold mtch at hs
      by_cases hb : boundary t i
      · simp [hb] at hs
        rw [hs] at hg
        simp at hg
      · simp [hb] at hs
  | cat a b iha ihb =>
      intro i s hs g hg
      unfold mtch at hs
      rcases List.mem_flatten.1 hs with ⟨sub, hsub, hssub⟩
      rcases List.mem_map.1 hsub with ⟨r1, hr1, hr1eq⟩
      rw [← hr1eq] at hssub
      rcases List.mem_map.1 hssub with ⟨s2, hs2, hs2eq⟩
      unfold groupsOk at hr
      rcases Bool.and_eq_true_iff.1 hr with ⟨ha, hb2⟩
      have hsnd : s.2 = orG r1.2 s2.2 := by rw [← hs2eq]
      rw [hsnd] at hg
      unfold orG at hg
      cases hc : r1.2 with
      | some x =>
          rw [hc] at hg
          have : g = x := by simpa using hg.symm
          subst this
          exact iha ha r1 hr1 g hc
      | none =>
          rw [hc] at hg
          exact ihb hb2 s2 hs2 g hg
  | alt a b iha ihb =>
      intro i s hs g hg
      unfold mtch at hs
      unfold groupsOk at hr
      rcases Bool.and_eq_true_iff.1 hr with ⟨h1, h2⟩
      rcases List.mem_append.1 hs with hm | hm
      · exact iha h1 s hm g hg
      · exact ihb h2 s hm g hg
  | repc c lo hi =>
      intro i s hs g hg
      rcases mtch_repc_elim hs with ⟨j, hj1, hj2, hje⟩
      rw [hje] at hg
      simp at hg
  | star r ihr =>
      intro i s hs g hg
      unfold mtch at hs
      rcases List.mem_map.1 hs with ⟨e, he, hee⟩
      have : s.2 = none := by rw [← hee]
      rw [this] at hg
      simp at hg
  | grp r ihr =>
      intro i s hs g hg
      unfold mtch at hs
      rcases List.mem_map.1 hs with ⟨s2, hs2, hs2e⟩
      unfold groupsOk at hr
      rcases Bool.and_eq_true_iff.1 hr with ⟨h1, h2⟩
      have hsnd : s.2 = some (i, s2.1) := by rw [← hs2e]
      rw [hsnd] at hg
      have : g = (i, s2.1) := by simpa using hg.symm
      subst this
      exact mem_mtch_gt h1 s2 hs2

/-! ## What `finditer` emits -/

theorem finditer_mem_fuel (r : Rx) (t : List Char) :
    ∀ (n j : Nat), t.length + 1 - j ≤ n →
      ∀ x ∈ finditer r t j, (mtch r t x.1).head? = some (x.2.1, x.2.2) := by
  intro n
  induction n with
  | zero =>
      intro j hn x hx
      rw [finditer] at hx
      have hj : t.length < j := by omega
      simp [hj] at hx
  | succ n ih =>
      intro j hn x hx
      rw [finditer] at hx
      by_cases hj : t.length < j
      · simp [hj] at hx
      · simp only [hj, dite_false, dif_neg, not_false_iff] at hx
        cases hh : (mtch r t j).head? with
        | some s =>
            rw [hh] at hx
            by_cases he : j < s.1
            · simp only [he, dite_true, dif_pos] at hx
              rcases List.mem_cons.1 hx with h1 | h1
              · subst h1
                simpa using hh
              · exact ih s.1 (by omega) x h1
            · simp only [he, dite_false, dif_neg, not_false_iff] at hx
              rcases List.mem_cons.1 hx with h1 | h1
              · subst h1
                simpa using hh
              · exact ih (j + 1) (by omega) x h1
        | none =>
            rw [hh] at hx
            exact ih (j + 1) (by omega) x hx

theorem finditer_mem {r : Rx} {t : List Char} {j : Nat} :
    ∀ x ∈ finditer r t j, (mtch r t x.1).head? = some (x.2.1, x.2.2) :=
  finditer_mem_fuel r t (t.length + 1 - j) j (Nat.le_refl _)

theorem finditer_wf {r : Rx} (hr : nonNull r = true) {t : List Char} {j : Nat} :
    ∀ x ∈ finditer r t j, x.1 < x.2.1 := by
  intro x hx
  have hh := finditer_mem x hx
  have hmem : (x.2.1, x.2.2) ∈ mtch r t x.1 := List.mem_of_mem_head? (by rw [hh]; rfl)
  have := mem_mtch_gt hr _ hmem
  simpa using this

theorem mem_fm {f : α → List β} {l : List α} :
    ∀ b ∈ fm f l, ∃ a ∈ l, b ∈ f a := by
  induction l with
  | nil => simp [fm]
  | cons a as ih =>
      intro b hb
      unfold fm at hb
      rcases List.mem_append.1 hb with h1 | h1
      · exact ⟨a, List.mem_cons_self a as, h1⟩
      · rcases ih b h1 with ⟨a2, ha2, hba2⟩
        exact ⟨a2, List.mem_cons_of_mem a ha2, hba2⟩

theorem allPatternsNonNull :
    detectorPatterns.all (fun p => nonNull p.2) = true := by decide

theorem fuzzyNumPatternsNonNull :
    [p_fuzzy_num1, p_fuzzy_num2, p_fuzzy_num3].all nonNull = true := by decide

theorem fuzzyDatePatternsNonNull :
    [p_fuzzy_date1, p_fuzzy_date2].all nonNull = true := by decide

theorem fuzzyNameGroupsOk : groupsOk p_fuzzy_name = true := by decide

theorem registryCands_wf (t : List Char) :
    ∀ m ∈ registryCands t, m.start < m.stop := by
  intro m hm
  rcases mem_fm m hm with ⟨p, hp, hmp⟩
  rcases List.mem_map.1 hmp with ⟨x, hx, hxe⟩
  have hnn : nonNull p.2 = true := by
    have := List.all_eq_true.1 allPatternsNonNull p hp
    simpa using this
  have := finditer_wf hnn x hx
  rw [← hxe]
  simpa [mkSpan] using this

theorem fuzzyCands_wf (t : List Char) :
    ∀ m ∈ fuzzyCands t, m.start < m.stop := by
  intro m hm
  unfold fuzzyCands at hm
  rcases List.mem_append.1 hm with h1 | h1
  · rcases List.mem_append.1 h1 with h2 | h2
    · rcases mem_fm m h2 with ⟨p, hp, hmp⟩
      rcases List.mem_map.1 hmp with ⟨x, hx, hxe⟩
      have hnn : nonNull p = true := by
        have := List.all_eq_true.1 fuzzyNumPatternsNonNull p hp
        simpa using this
      have := finditer_wf hnn x hx
      rw [← hxe]
      simpa [mkSpan] using this
    · rcases mem_fm m h2 with ⟨p, hp, hmp⟩
      rcases List.mem_map.1 hmp with ⟨x, hx, hxe⟩
      have hnn : nonNull p = true := by
        have := List.all_eq_true.1 fuzzyDatePatternsNonNull p hp
        simpa using this
      have := finditer_wf hnn x hx
      rw [← hxe]
      simpa [mkSpan] using this
  · rcases mem_fm m h1 with ⟨x, hx, hmx⟩
    cases hg : x.2.2 with
    | none =>
        rw [hg] at hmx
        simp at hmx
    | some g =>
        rw [hg] at hmx
        have hh := finditer_mem x hx
        have hmem : (x.2.1, x.2.2) ∈ mtch p_fuzzy_name t x.1 :=
          List.mem_of_mem_head? (by rw [hh]; rfl)
        have hwf := mem_mtch_group_wf fuzzyNameGroupsOk _ hmem g (by simpa using hg)
        have hmeq : (1 < (pyStrip (slice t g.1 g.2)).length ∧
            pyIsDigit (pyStrip (slice t g.1 g.2)) = false) ∧
            m = ⟨"suspected_name", String.mk (pyStrip (slice t g.1 g.2)),
              g.1, g.2, 3 / 5⟩ := by simpa using hmx
        rw [hmeq.2]
        exact hwf

/-! ## The deduplication fold keeps its accumulator overlap-free -/

theorem dedup_foldl_invariant :
    ∀ (l acc : List Span),
      l.Pairwise (fun a b => a.start ≤ b.start) →
      (∀ a ∈ acc, ∀ b ∈ l, a.start ≤ b.start) →
      acc.Pairwise NoOv →
      (∀ a ∈ acc, a.start < a.stop) →
      (∀ b ∈ l, b.start < b.stop) →
      (l.foldl dedupStep acc).Pairwise NoOv ∧
        (∀ a ∈ l.foldl dedupStep acc, a.start < a.stop) := by
  intro l
  induction l with
  | nil =>
      intro acc _ _ hpw hwf _
      exact ⟨hpw, hwf⟩
  | cons m rest ih =>
      intro acc hsort hle hpw hwf hlwf
      rcases List.pairwise_cons.1 hsort with ⟨hm, hrest⟩
      have hmle : ∀ a ∈ acc, a.start ≤ m.start := fun a ha =>
        hle a ha m (List.mem_cons_self m rest)
      have hmwf : m.start < m.stop := hlwf m (List.mem_cons_self m rest)
      rcases dedupStep_pairwise hpw hwf hmwf hmle with ⟨hpw2, hwf2, hsub2⟩
      simp only [List.foldl_cons]
      refine ih (dedupStep acc m) hrest ?_ hpw2 hwf2 ?_
      · intro a ha b hb
        rcases hsub2 a ha with h1 | h1
        · exact hle a h1 b (List.mem_cons_of_mem m hb)
        · subst h1
          exact hm b hb
      · intro b hb
        exact hlwf b (List.mem_cons_of_mem m hb)

theorem removeOverlapping_props {ms : List Span}
    (hwf : ∀ m ∈ ms, m.start < m.stop) :
    (removeOverlappingMatches ms).Pairwise NoOv ∧
      (∀ a ∈ removeOverlappingMatches ms, a.start < a.stop) := by
  unfold removeOverlappingMatches
  refine dedup_foldl_invariant (sortStartAsc ms) [] (sortStartAsc_sorted ms)
    (by simp) List.Pairwise.nil (by simp) ?_
  intro b hb
  exact hwf b ((sortStartAsc_perm ms).mem_iff.1 hb)

/-! ## Claim C1 -/

/-- C1: for every input text, every span returned by
`SensitiveDataDetector.detect_in_text` has `start < end`, and no two
distinct spans in the returned list overlap (each pair satisfies
`a.start ≥ b.end ∨ b.start ≥ a.end`). -/
theorem C1_detect_wellformed_nonoverlapping (t : List Char) :
    (∀ m ∈ detectInText t, m.start < m.stop) ∧
      (detectInText t).Pairwise NoOv := by
  have hwf : ∀ m ∈ registryCands t ++ fuzzyCands t, m.start < m.stop := by
    intro m hm
    rcases List.mem_append.1 hm with h | h
    · exact registryCands_wf t m h
    · exact fuzzyCands_wf t m h
  have hp := removeOverlapping_props hwf
  exact ⟨hp.2, hp.1⟩

/-- C1 applied at a concrete input. -/
theorem C1_detect_wellformed_nonoverlapping_witness :
    (∀ m ∈ detectInText ("x 123 y".data), m.start < m.stop) ∧
      (detectInText ("x 123 y".data)).Pairwise NoOv :=
  C1_detect_wellformed_nonoverlapping ("x 123 y".data)

/-! ## Claim C2 -/

/-- C2: overlap deduplication processes candidates in ascending start order
(`removeOverlappingMatches` folds over `sortStartAsc`); a candidate that
overlaps an accepted span is dropped unless its confidence strictly exceeds
the accepted span's, in which case the latter is evicted.  In particular,
for any two overlapping spans with confidences 0.6 and 1.0, in either input
order, only the 1.0-confidence span survives. -/
theorem C2_overlap_dedup (s t : Span)
    (hov : s.start < t.stop ∧ t.start < s.stop)
    (hs : s.confidence = 6 / 10) (ht : t.confidence = 1) :
    removeOverlappingMatches [s, t] = [t] ∧
      removeOverlappingMatches [t, s] = [t] := by
  have hconf : s.confidence < t.confidence := by
    rw [hs, ht]
    norm_num
  have hnconf : ¬ t.confidence < s.confidence := by
    rw [hs, ht]
    norm_num
  have hovst : overlapB t s = true := by
    unfold overlapB
    rw [decide_eq_true hov.2, decide_eq_true hov.1]
    rfl
  have hovts : overlapB s t = true := by
    unfold overlapB
    rw [decide_eq_true hov.1, decide_eq_true hov.2]
    rfl
  have hcase : ∀ l : List Span, l = [s, t] ∨ l = [t, s] →
      l.foldl dedupStep [] = [t] := by
    intro l hl
    rcases hl with hl | hl <;> subst hl
    · show dedupStep (dedupStep [] s) t = [t]
      have h1 : dedupStep [] s = [s] := by
        unfold dedupStep
        simp
      rw [h1]
      unfold dedupStep
      have hfind : [s].find? (fun ex => overlapB t ex) = some s := by
        simp [List.find?, hovst]
      rw [hfind]
      simp only [hconf, if_pos]
      rw [List.erase_cons_head]
      rfl
    · show dedupStep (dedupStep [] t) s = [t]
      have h1 : dedupStep [] t = [t] := by
        unfold dedupStep
        simp
      rw [h1]
      unfold dedupStep
      have hfind : [t].find? (fun ex => overlapB s ex) = some t := by
        simp [List.find?, hovts]
      rw [hfind]
      simp only [hnconf, if_neg, not_false_iff]
  constructor
  · unfold removeOverlappingMatches
    refine hcase _ ?_
    by_cases hst : s.start ≤ t.start
    · left
      simp [sortStartAsc, insAsc, hst]
    · right
      simp [sortStartAsc, insAsc, hst]
  · unfold removeOverlappingMatches
    refine hcase _ ?_
    by_cases hts : t.start ≤ s.start
    · right
      simp [sortStartAsc, insAsc, hts]
    · left
      simp [sortStartAsc, insAsc, hts]

/-- C2 applied to two concrete overlapping spans. -/
theorem C2_overlap_dedup_witness :
    removeOverlappingMatches
        [⟨"suspected_name", "ab", 0, 5, 6 / 10⟩, ⟨"cvv", "123", 3, 8, 1⟩] =
      [⟨"cvv", "123", 3, 8, 1⟩] ∧
    removeOverlappingMatches
        [⟨"cvv", "123", 3, 8, 1⟩, ⟨"suspected_name", "ab", 0, 5, 6 / 10⟩] =
      [⟨"cvv", "123", 3, 8, 1⟩] :=
  C2_overlap_dedup ⟨"suspected_name", "ab", 0, 5, 6 / 10⟩ ⟨"cvv", "123", 3, 8, 1⟩
    (by constructor <;> norm_num) rfl rfl

/-! ## Claim C8 -/

/-- C8 (refuting purity): `redact_text` sorts its `matches` argument in
place (descending start offset), so the caller's list is reordered by the
call: with two spans given in ascending start order, the list observed
after the call (second component of `redactTextRun`) is the reversal of the
input, not the input. -/
theorem C8_redact_text_mutates_input :
    (redactTextRun ("ab cd".data)
        [⟨"cvv", "ab", 0, 2, 1⟩, ⟨"cvv", "cd", 3, 5, 1⟩]).2 =
      [⟨"cvv", "cd", 3, 5, 1⟩, ⟨"cvv", "ab", 0, 2, 1⟩] ∧
    [⟨"cvv", "cd", 3, 5, 1⟩, ⟨"cvv", "ab", 0, 2, 1⟩] ≠
      ([⟨"cvv", "ab", 0, 2, 1⟩, ⟨"cvv", "cd", 3, 5, 1⟩] : List Span) := by
  constructor
  · rfl
  · decide

/-! ## Claim C3 -/

/-- Number of positions at which `pat` occurs in `l`. -/
def occCount (pat l : List Char) : Nat :=
  ((List.range (l.length + 1)).filter (fun i => pat.isPrefixOf (l.drop i))).length

/-- C3 is refuted on the code: the matched text of a redacted span can
still appear verbatim in the output (another occurrence of the same text),
and a placeholder can appear more often than once per retained span (when
the input text already contains it). -/
theorem C3_redact_text_cex :
    redactText ("707 707".data) [⟨"cvv", "707", 0, 3, 1⟩] =
        ("[CVV REDACTED] 707".data) ∧
      ("707".data).IsInfix
        (redactText ("707 707".data) [⟨"cvv", "707", 0, 3, 1⟩]) ∧
      redactText ("x [CVV REDACTED]".data) [⟨"cvv", "x", 0, 1, 1⟩] =
        ("[CVV REDACTED] [CVV REDACTED]".data) ∧
      occCount ("[CVV REDACTED]".data)
        (redactText ("x [CVV REDACTED]".data) [⟨"cvv", "x", 0, 1, 1⟩]) = 2 := by
  refine ⟨by decide, ?_, by decide, by decide⟩
  refine ⟨"[CVV REDACTED] ".data, [], ?_⟩
  decide

theorem insDesc_perm (x : Span) (l : List Span) : (insDesc x l).Perm (x :: l) := by
  induction l with
  | nil => exact List.Perm.refl _
  | cons y ys ih =>
      unfold insDesc
      by_cases h : x.start ≤ y.start
      · simp only [h, if_pos]
        exact (List.Perm.cons y ih).trans (List.Perm.swap x y ys)
      · simp [h]

theorem sortStartDesc_perm (l : List Span) : (sortStartDesc l).Perm l := by
  suffices h : ∀ acc, (l.foldl (fun acc x => insDesc x acc) acc).Perm (acc ++ l) by
    simpa using h []
  induction l with
  | nil =>
      intro acc
      simp
  | cons x xs ih =>
      intro acc
      simp only [List.foldl_cons]
      refine (ih (insDesc x acc)).trans ?_
      refine ((insDesc_perm x acc).append_right xs).trans ?_
      exact (@List.perm_middle _ x acc xs).symm

theorem insDesc_sorted (x : Span) (l : List Span)
    (h : l.Pairwise (fun a b => b.start ≤ a.start)) :
    (insDesc x l).Pairwise (fun a b => b.start ≤ a.start) := by
  induction l with
  | nil => simp [insDesc]
  | cons y ys ih =>
      unfold insDesc
      rcases List.pairwise_cons.1 h with ⟨hy, hys⟩
      by_cases hc : x.start ≤ y.start
      · simp only [hc, if_pos]
        refine List.pairwise_cons.2 ⟨?_, ih hys⟩
        intro b hb
        rcases List.mem_cons.1 ((insDesc_perm x ys).mem_iff.1 hb) with hbx | hbm
        · subst hbx
          exact hc
        · exact hy b hbm
      · simp only [hc, if_neg, not_false_iff]
        refine List.pairwise_cons.2 ⟨?_, h⟩
        intro b hb
        rcases List.mem_cons.1 hb with hb1 | hb1
        · subst hb1
          omega
        · have := hy b hb1
          omega

theorem sortStartDesc_sorted (l : List Span) :
    (sortStartDesc l).Pairwise (fun a b => b.start ≤ a.start) := by
  suffices hgen : ∀ acc, acc.Pairwise (fun a b => b.start ≤ a.start) →
      (l.foldl (fun acc x => insDesc x acc) acc).Pairwise
        (fun a b => b.start ≤ a.start) by
    exact hgen [] (List.Pairwise.nil)
  induction l with
  | nil =>
      intro acc hacc
      simpa using hacc
  | cons x xs ih =>
      intro acc hacc
      simp only [List.foldl_cons]
      exact ih (insDesc x acc) (insDesc_sorted x acc hacc)

/-- The splice form of a redaction: text up to each span, its placeholder,
and so on, for an ascending, non-overlapping span list. -/
def spliceFrom (k : Nat) (t : List Char) : List Span → List Char
  | [] => t.drop k
  | m :: rest =>
      (t.drop k).take (m.start - k) ++ placeholder m.type ++
        spliceFrom m.stop t rest

/-- Redacting right-to-left only rewrites the prefix the spans live in. -/
theorem foldl_redact_append :
    ∀ (l : List Span) (A B : List Char),
      l.Pairwise (fun a b => b.start ≤ a.start) →
      l.Pairwise NoOv →
      (∀ m ∈ l, m.start < m.stop) →
      (∀ m ∈ l, m.stop ≤ A.length) →
      l.foldl redactOne (A ++ B) = l.foldl redactOne A ++ B := by
  intro l
  induction l with
  | nil =>
      intro A B _ _ _ _
      simp
  | cons m rest ih =>
      intro A B hsort hpw hwf hbound
      rcases List.pairwise_cons.1 hsort with ⟨hms, hsort2⟩
      rcases List.pairwise_cons.1 hpw with ⟨hmo, hpw2⟩
      have hmwf := hwf m (List.mem_cons_self m rest)
      have hmb := hbound m (List.mem_cons_self m rest)
      have hstep : redactOne (A ++ B) m = redactOne A m ++ B := by
        unfold redactOne
        rw [List.take_append_of_le_length (by omega),
            List.drop_append_of_le_length hmb]
        simp
      have hrest_le : ∀ a ∈ rest, a.stop ≤ m.start := by
        intro a ha
        have h1 := hms a ha
        have h2 := hmo a ha
        have h3 := hwf a (List.mem_cons_of_mem m ha)
        unfold NoOv at h2
        omega
      have hlenA : m.start ≤ (redactOne A m).length := by
        unfold redactOne
        have : (A.take m.start).length = m.start :=
          List.length_take_of_le (by omega)
        simp
        omega
      simp only [List.foldl_cons]
      rw [hstep]
      refine ih (redactOne A m) B hsort2 hpw2
        (fun a ha => hwf a (List.mem_cons_of_mem m ha))
        (fun a ha => le_trans (hrest_le a ha) hlenA)

/-- Peeling the last (leftmost) span off a splice. -/
theorem spliceFrom_append_last :
    ∀ (rs : List Span) (k : Nat) (t : List Char) (m : Span),
      (∀ r ∈ rs, r.start < r.stop ∧ r.stop ≤ m.start) →
      spliceFrom k t (rs ++ [m]) =
        spliceFrom k (t.take m.start) rs ++ placeholder m.type ++
          t.drop m.stop := by
  intro rs
  induction rs with
  | nil =>
      intro k t m _
      simp only [List.nil_append, spliceFrom]
      rw [List.drop_take]
  | cons r rs2 ih =>
      intro k t m hb
      have hr := hb r (List.mem_cons_self r rs2)
      have hcons : (r :: rs2) ++ [m] = r :: (rs2 ++ [m]) := rfl
      rw [hcons]
      simp only [spliceFrom]
      rw [ih r.stop t m (fun a ha => hb a (List.mem_cons_of_mem r ha))]
      rw [List.drop_take, List.take_take]
      have hmin : min (r.start - k) (m.start - k) = r.start - k := by omega
      rw [hmin]
      simp

/-- Folding `redactOne` over a descending, non-overlapping, in-bounds span
list produces the ascending splice. -/
theorem foldl_redact_splice :
    ∀ (l : List Span) (t : List Char),
      l.Pairwise (fun a b => b.start ≤ a.start) →
      l.Pairwise NoOv →
      (∀ m ∈ l, m.start < m.stop ∧ m.stop ≤ t.length) →
      l.foldl redactOne t = spliceFrom 0 t l.reverse := by
  intro l
  induction l with
  | nil =>
      intro t _ _ _
      simp [spliceFrom]
  | cons m rest ih =>
      intro t hsort hpw hwf
      rcases List.pairwise_cons.1 hsort with ⟨hms, hsort2⟩
      rcases List.pairwise_cons.1 hpw with ⟨hmo, hpw2⟩
      have hmwf := hwf m (List.mem_cons_self m rest)
      have hrest_le : ∀ a ∈ rest, a.stop ≤ m.start := by
        intro a ha
        have h1 := hms a ha
        have h2 := hmo a ha
        have h3 := (hwf a (List.mem_cons_of_mem m ha)).1
        unfold NoOv at h2
        omega
      have hosplit : redactOne t m =
          t.take m.start ++ (placeholder m.type ++ t.drop m.stop) := by
        unfold redactOne
        simp
      have hlen : (t.take m.start).length = m.start :=
        List.length_take_of_le (by omega)
      simp only [List.foldl_cons]
      rw [hosplit]
      rw [foldl_redact_append rest (t.take m.start)
            (placeholder m.type ++ t.drop m.stop) hsort2 hpw2
            (fun a ha => (hwf a (List.mem_cons_of_mem m ha)).1)
            (fun a ha => by rw [hlen]; exact hrest_le a ha)]
      rw [ih (t.take m.start) hsort2 hpw2 ?_]
      · rw [List.reverse_cons]
        rw [spliceFrom_append_last rest.reverse 0 t m ?_]
        · simp
        · intro r hr
          have hrm : r ∈ rest := List.mem_reverse.1 hr
          exact ⟨(hwf r (List.mem_cons_of_mem m hrm)).1, hrest_le r hrm⟩
      · intro a ha
        refine ⟨(hwf a (List.mem_cons_of_mem m ha)).1, ?_⟩
        rw [hlen]
        exact hrest_le a ha

theorem placeholder_infix_splice :
    ∀ (rs : List Span) (k : Nat) (t : List Char) (m : Span), m ∈ rs →
      (placeholder m.type).IsInfix (spliceFrom k t rs) := by
  intro rs
  induction rs with
  | nil => simp
  | cons r rs2 ih =>
      intro k t m hm
      unfold spliceFrom
      rcases List.mem_cons.1 hm with h1 | h1
      · subst h1
        exact ⟨(t.drop k).take (m.start - k), spliceFrom m.stop t rs2, by simp⟩
      · have := ih r.stop t m h1
        rcases this with ⟨pre, post, hps⟩
        exact ⟨(t.drop k).take (r.start - k) ++ placeholder r.type ++ pre, post,
          by rw [← hps]; simp⟩

/-- C3, amended: `redact_text` applies the spans in descending start order,
and for pairwise non-overlapping, in-bounds spans the output is the input
text with each span's region replaced by its placeholder (the ascending
splice).  Each retained span's placeholder therefore occurs in the output
and its matched region is replaced at its position — but the matched text
may still occur verbatim elsewhere in the output (see the counterexample),
and a placeholder may occur more often than once per span. -/
theorem C3_redact_splice (t : List Char) (ms : List Span)
    (hpw : ms.Pairwise NoOv)
    (hwf : ∀ m ∈ ms, m.start < m.stop ∧ m.stop ≤ t.length) :
    redactText t ms = spliceFrom 0 t (sortStartDesc ms).reverse ∧
      ∀ m ∈ ms, (placeholder m.type).IsInfix (redactText t ms) := by
  have hsymm : Symmetric NoOv := fun a b => noOv_symm
  have hperm := sortStartDesc_perm ms
  have hpw2 : (sortStartDesc ms).Pairwise NoOv :=
    (hperm.pairwise_iff (fun h => noOv_symm h)).2 hpw
  have hwf2 : ∀ m ∈ sortStartDesc ms, m.start < m.stop ∧ m.stop ≤ t.length :=
    fun m hm => hwf m (hperm.mem_iff.1 hm)
  have hred : redactText t ms = (sortStartDesc ms).foldl redactOne t := by
    cases ms with
    | nil => rfl
    | cons m0 rest0 => rfl
  have hmain : redactText t ms = spliceFrom 0 t (sortStartDesc ms).reverse := by
    rw [hred]
    exact foldl_redact_splice (sortStartDesc ms) t
      (sortStartDesc_sorted ms) hpw2 hwf2
  refine ⟨hmain, ?_⟩
  intro m hm
  rw [hmain]
  refine placeholder_infix_splice _ 0 t m ?_
  rw [List.mem_reverse]
  exact hperm.mem_iff.2 hm

/-- C3's amended statement at a concrete input. -/
theorem C3_redact_splice_witness :
    ([⟨"cvv", "707", 5, 8, 1⟩] : List Span).Pairwise NoOv ∧
      (∀ m ∈ ([⟨"cvv", "707", 5, 8, 1⟩] : List Span),
        m.start < m.stop ∧ m.stop ≤ ("call 707 now".data).length) ∧
      (redactText ("call 707 now".data) [⟨"cvv", "707", 5, 8, 1⟩] =
          spliceFrom 0 ("call 707 now".data)
            (sortStartDesc [⟨"cvv", "707", 5, 8, 1⟩]).reverse ∧
        ∀ m ∈ ([⟨"cvv", "707", 5, 8, 1⟩] : List Span),
          (placeholder m.type).IsInfix
            (redactText ("call 707 now".data) [⟨"cvv", "707", 5, 8, 1⟩])) :=
  ⟨by simp [NoOv], by decide,
    C3_redact_splice ("call 707 now".data) [⟨"cvv", "707", 5, 8, 1⟩]
      (by simp [NoOv]) (by decide)⟩

/-! ## Image-redaction lemmas and claims C7 / C10 -/

/-- Pixel read with out-of-bounds = `none`. -/
def pix (g : Grid) (j i : Nat) : Option Nat :=
  ((g : List (List Nat))[j]?).bind (fun row => row[i]?)

theorem length_mapIdxFrom (f : Nat → α → α) :
    ∀ (j : Nat) (l : List α), (mapIdxFrom f j l).length = l.length := by
  intro j l
  induction l generalizing j with
  | nil => rfl
  | cons r rs ih => simp [mapIdxFrom, ih]

theorem getElem?_mapIdxFrom (f : Nat → α → α) :
    ∀ (j : Nat) (l : List α) (i : Nat),
      (mapIdxFrom f j l)[i]? = (l[i]?).map (f (j + i)) := by
  intro j l
  induction l generalizing j with
  | nil =>
      intro i
      simp [mapIdxFrom]
  | cons r rs ih =>
      intro i
      cases i with
      | zero => simp [mapIdxFrom]
      | succ n =>
          simp only [mapIdxFrom, List.getElem?_cons_succ]
          rw [ih (j + 1) n]
          have : j + 1 + n = j + (n + 1) := by omega
          rw [this]

theorem rowLens_mapIdxFrom {f : Nat → List Nat → List Nat}
    (hf : ∀ j r, (f j r).length = r.length) :
    ∀ (j : Nat) (l : List (List Nat)),
      (mapIdxFrom f j l).map List.length = l.map List.length := by
  intro j l
  induction l generalizing j with
  | nil => rfl
  | cons r rs ih => simp [mapIdxFrom, hf, ih]

theorem length_overwriteRow (row : List Nat) (x : Nat) (prow : List Nat) :
    (overwriteRow row x prow).length = row.length :=
  length_mapIdxFrom _ 0 row

theorem rowLens_writeRegion (g : Grid) (x y : Nat) (patch : Grid) :
    (writeRegion g x y patch).map List.length =
      (g : List (List Nat)).map List.length := by
  refine rowLens_mapIdxFrom ?_ 0 g
  intro j r
  by_cases hj : j < y
  · simp [hj]
  · simp only [hj, if_neg, not_false_iff]
    cases hp : (patch : List (List Nat))[j - y]? with
    | some prow => simp [length_overwriteRow]
    | none => simp

theorem rowLens_blackoutRegion (g : Grid) (x y w h : Nat) :
    (blackoutRegion g x y w h).map List.length =
      (g : List (List Nat)).map List.length := by
  refine rowLens_mapIdxFrom ?_ 0 g
  intro j r
  by_cases hj : y ≤ j ∧ j < y + h
  · simp [hj, length_mapIdxFrom]
  · simp [hj]

theorem rowLens_blurRegion (blurFn : Grid → Option Grid) (g : Grid)
    (x y w h : Nat) :
    (blurRegion blurFn g x y w h).map List.length =
      (g : List (List Nat)).map List.length := by
  unfold blurRegion
  split
  · rfl
  · cases hb : blurFn (subgrid g x y w h) with
    | some blurred =>
        simp only
        split
        · exact rowLens_writeRegion g x y blurred
        · exact rowLens_blackoutRegion g x y w h
    | none => exact rowLens_blackoutRegion g x y w h

theorem rowLens_processBox (mode : String) (blurFn : Grid → Option Grid)
    (g : Grid) (b : Box) :
    (processBox mode blurFn g b).map List.length =
      (g : List (List Nat)).map List.length := by
  unfold processBox
  split
  · split
    · exact rowLens_blurRegion _ _ _ _ _ _
    · exact rowLens_blackoutRegion _ _ _ _ _
  · rfl

theorem gridH_of_rowLens {a b : Grid}
    (h : (a : List (List Nat)).map List.length = (b : List (List Nat)).map List.length) :
    gridH a = gridH b := by
  unfold gridH
  have := congrArg List.length h
  simpa using this

theorem gridW_of_rowLens {a b : Grid}
    (h : (a : List (List Nat)).map List.length = (b : List (List Nat)).map List.length) :
    gridW a = gridW b := by
  unfold gridW
  cases ha : (a : List (List Nat)) with
  | nil =>
      cases hb : (b : List (List Nat)) with
      | nil => rfl
      | cons rb rsb =>
          rw [ha, hb] at h
          simp at h
  | cons ra rsa =>
      cases hb : (b : List (List Nat)) with
      | nil =>
          rw [ha, hb] at h
          simp at h
      | cons rb rsb =>
          rw [ha, hb] at h
          simp at h
          simp [ha, hb, h.1]

theorem clipBox_of_rowLens {a b : Grid} (bx : Box)
    (h : (a : List (List Nat)).map List.length = (b : List (List Nat)).map List.length) :
    clipBox a bx = clipBox b bx := by
  unfold clipBox
  rw [gridW_of_rowLens h, gridH_of_rowLens h]

theorem rowLens_redactImage (mode : String) (blurFn : Grid → Option Grid) :
    ∀ (boxes : List Box) (g : Grid),
      (redactImage mode blurFn g boxes).map List.length =
        (g : List (List Nat)).map List.length := by
  intro boxes
  induction boxes with
  | nil =>
      intro g
      rfl
  | cons b bs ih =>
      intro g
      unfold redactImage
      simp only [List.foldl_cons]
      have h1 := ih (processBox mode blurFn g b)
      unfold redactImage at h1
      rw [h1]
      exact rowLens_processBox mode blurFn g b

/-- C7: a region that is empty after clipping is skipped: the per-box step
leaves the buffer untouched, the remaining regions are still processed
(dropping the degenerate box from the list does not change the result), and
a degenerate direct call of the blur helper is a no-op as well. -/
theorem C7_zero_area_region_noop (mode : String) (blurFn : Grid → Option Grid)
    (g : Grid) (pre post : List Box) (b : Box)
    (hz : ¬((clipBox g b).xs < (clipBox g b).xe ∧
            (clipBox g b).ys < (clipBox g b).ye)) :
    processBox mode blurFn g b = g ∧
      redactImage mode blurFn g (pre ++ b :: post) =
        redactImage mode blurFn g (pre ++ post) ∧
      ∀ (x y h : Nat), blurRegion blurFn g x y 0 h = g := by
  have hskip : ∀ g2 : Grid,
      (g2 : List (List Nat)).map List.length =
        (g : List (List Nat)).map List.length →
      processBox mode blurFn g2 b = g2 := by
    intro g2 hlens
    unfold processBox
    rw [clipBox_of_rowLens b hlens]
    simp [hz]
  refine ⟨hskip g rfl, ?_, ?_⟩
  · unfold redactImage
    rw [List.foldl_append, List.foldl_append]
    simp only [List.foldl_cons]
    rw [hskip (List.foldl (processBox mode blurFn) g pre) ?_]
    have hl := rowLens_redactImage mode blurFn pre g
    unfold redactImage at hl
    exact hl
  · intro x y h
    unfold blurRegion
    have hsz : gridSize (subgrid g x y 0 h) = 0 := by
      unfold gridSize subgrid
      induction ((g : List (List Nat)).drop y).take h with
      | nil => rfl
      | cons r rs ih => simpa using ih
    simp [hsz]

/-- C7 at a concrete degenerate region (a box left of the visible area, so
that its clipped rectangle is empty). -/
theorem C7_zero_area_region_noop_witness :
    processBox "blur" some [[1, 2], [3, 4]] ⟨-100, 0, 1, 1⟩ = [[1, 2], [3, 4]] ∧
      redactImage "blur" some [[1, 2], [3, 4]]
          ([⟨0, 0, 1, 1⟩] ++ ⟨-100, 0, 1, 1⟩ :: [⟨1, 1, 1, 1⟩]) =
        redactImage "blur" some [[1, 2], [3, 4]] ([⟨0, 0, 1, 1⟩] ++ [⟨1, 1, 1, 1⟩]) ∧
      ∀ (x y h : Nat), blurRegion some [[1, 2], [3, 4]] x y 0 h = [[1, 2], [3, 4]] :=
  C7_zero_area_region_noop "blur" some [[1, 2], [3, 4]] [⟨0, 0, 1, 1⟩]
    [⟨1, 1, 1, 1⟩] ⟨-100, 0, 1, 1⟩ (by decide)

theorem sameShape_elim :
    ∀ (a b : Grid), sameShape a b = true →
      a.length = b.length ∧
        ∀ (k : Nat), ((a : List (List Nat))[k]?).map List.length =
          ((b : List (List Nat))[k]?).map List.length := by
  intro a
  induction a with
  | nil =>
      intro b h
      cases b with
      | nil => simp
      | cons q qs => simp [sameShape] at h
  | cons r rs ih =>
      intro b h
      cases b with
      | nil => simp [sameShape] at h
      | cons q qs =>
          unfold sameShape at h
          rcases Bool.and_eq_true_iff.1 h with ⟨h1, h2⟩
          rcases ih qs h2 with ⟨hl, hk⟩
          refine ⟨by simpa using hl, ?_⟩
          intro k
          cases k with
          | zero => simpa using h1
          | succ n => simpa using hk n

theorem pix_mapIdxFrom (f : Nat → List Nat → List Nat) (g : Grid) (j i : Nat) :
    pix (mapIdxFrom f 0 g) j i = ((g : List (List Nat))[j]?).bind
      (fun row => (f j row)[i]?) := by
  unfold pix
  rw [getElem?_mapIdxFrom f 0 g j]
  cases hg : (g : List (List Nat))[j]? with
  | none => rfl
  | some row => simp

theorem pix_blackoutRegion_frame {g : Grid} {x y w h j i : Nat}
    (hne : pix (blackoutRegion g x y w h) j i ≠ pix g j i) :
    x ≤ i ∧ i < x + w ∧ y ≤ j ∧ j < y + h := by
  unfold blackoutRegion at hne
  rw [pix_mapIdxFrom] at hne
  unfold pix at hne
  cases hg : (g : List (List Nat))[j]? with
  | none => simp [hg] at hne
  | some row =>
      rw [hg] at hne
      simp only [Option.some_bind] at hne
      by_cases hj : y ≤ j ∧ j < y + h
      · simp only [hj, and_self, if_true, if_pos] at hne
        rw [getElem?_mapIdxFrom] at hne
        cases hr : row[i]? with
        | none => simp [hr] at hne
        | some a =>
            rw [hr] at hne
            simp only [Option.map_some'] at hne
            by_cases hi : x ≤ i ∧ i < x + w
            · exact ⟨hi.1, hi.2, hj.1, hj.2⟩
            · simp [hi] at hne
      · simp [hj] at hne

theorem pix_writeRegion_frame {g : Grid} {x y : Nat} {patch : Grid}
    {j i : Nat}
    (hne : pix (writeRegion g x y patch) j i ≠ pix g j i) :
    y ≤ j ∧ ∃ prow, (patch : List (List Nat))[j - y]? = some prow ∧
      x ≤ i ∧ i < x + prow.length ∧ j - y < patch.length := by
  unfold writeRegion at hne
  rw [pix_mapIdxFrom] at hne
  unfold pix at hne
  cases hg : (g : List (List Nat))[j]? with
  | none => simp [hg] at hne
  | some row =>
      rw [hg] at hne
      simp only [Option.some_bind] at hne
      by_cases hj : j < y
      · simp [hj] at hne
      · simp only [hj, if_neg, not_false_iff, if_false] at hne
        cases hp : (patch : List (List Nat))[j - y]? with
        | none => simp [hp] at hne
        | some prow =>
            rw [hp] at hne
            unfold overwriteRow at hne
            rw [getElem?_mapIdxFrom] at hne
            cases hr : row[i]? with
            | none => simp [hr] at hne
            | some a =>
                rw [hr] at hne
                simp only [Option.map_some'] at hne
                by_cases hi : x ≤ i ∧ i < x + prow.length
                · exact ⟨by omega, prow, rfl, hi.1, hi.2,
                    (List.getElem?_eq_some_iff.1 hp).1⟩
                · simp [hi] at hne

theorem subgrid_row_bounds {g : Grid} {x y w h k : Nat} {row : List Nat}
    (hr : ((subgrid g x y w h : Grid) : List (List Nat))[k]? = some row) :
    row.length ≤ w ∧ (subgrid g x y w h : Grid).length ≤ h := by
  unfold subgrid at hr ⊢
  constructor
  · rw [List.getElem?_map] at hr
    cases hq : (((g : List (List Nat)).drop y).take h)[k]? with
    | none =>
        rw [hq] at hr
        simp at hr
    | some r =>
        rw [hq] at hr
        simp only [Option.map_some', Option.some.injEq] at hr
        rw [← hr]
        simp only [List.length_take]
        omega
  · simp only [List.length_map, List.length_take]
    omega

theorem pix_blurRegion_frame {blurFn : Grid → Option Grid} {g : Grid}
    {x y w h j i : Nat}
    (hne : pix (blurRegion blurFn g x y w h) j i ≠ pix g j i) :
    x ≤ i ∧ i < x + w ∧ y ≤ j ∧ j < y + h := by
  unfold blurRegion at hne
  split at hne
  · simp at hne
  · cases hb : blurFn (subgrid g x y w h) with
    | some blurred =>
        rw [hb] at hne
        simp only at hne
        split at hne
        · rename_i hshape
          rcases pix_writeRegion_frame hne with ⟨hyj, prow, hp, hxi, hiw, hjlt⟩
          rcases sameShape_elim blurred (subgrid g x y w h) hshape with ⟨hlen, hk⟩
          have hrow := hk (j - y)
          rw [hp] at hrow
          cases hq : ((subgrid g x y w h : Grid) : List (List Nat))[j - y]? with
          | none =>
              rw [hq] at hrow
              simp at hrow
          | some qrow =>
              rw [hq] at hrow
              simp at hrow
              rcases subgrid_row_bounds hq with ⟨hqw, hgh⟩
              have hjh : j - y < h := by omega
              exact ⟨hxi, by omega, hyj, by omega⟩
        · exact pix_blackoutRegion_frame hne
    | none =>
        rw [hb] at hne
        exact pix_blackoutRegion_frame hne

theorem pix_processBox_frame {mode : String} {blurFn : Grid → Option Grid}
    {g : Grid} {b : Box} {j i : Nat}
    (hne : pix (processBox mode blurFn g b) j i ≠ pix g j i) :
    (clipBox g b).xs < (clipBox g b).xe ∧
      (clipBox g b).ys < (clipBox g b).ye ∧
      (clipBox g b).xs.toNat ≤ i ∧ ((i : Int) < (clipBox g b).xe) ∧
      (clipBox g b).ys.toNat ≤ j ∧ ((j : Int) < (clipBox g b).ye) := by
  unfold processBox at hne
  split at hne
  · rename_i hpos
    have hxs : (0 : Int) ≤ (clipBox g b).xs := by
      unfold clipBox
      simp
    have hys : (0 : Int) ≤ (clipBox g b).ys := by
      unfold clipBox
      simp
    split at hne
    · have := pix_blurRegion_frame hne
      refine ⟨hpos.1, hpos.2, this.1, ?_, this.2.2.1, ?_⟩ <;> omega
    · have := pix_blackoutRegion_frame hne
      refine ⟨hpos.1, hpos.2, this.1, ?_, this.2.2.1, ?_⟩ <;> omega
  · simp at hne

/-- C10: `redact_image` expands each region by a fixed 8-pixel padding,
clips it to the image bounds, skips regions that are empty after clipping,
and consequently only rewrites pixels inside some box's clipped rectangle,
which itself lies inside the image; row count and row lengths of the buffer
are preserved. -/
theorem C10_redact_image_in_bounds (mode : String)
    (blurFn : Grid → Option Grid) (boxes : List Box) (g : Grid) :
    (redactImage mode blurFn g boxes).map List.length =
        (g : List (List Nat)).map List.length ∧
      ∀ j i, pix (redactImage mode blurFn g boxes) j i ≠ pix g j i →
        ∃ b ∈ boxes,
          (clipBox g b).xs < (clipBox g b).xe ∧
          (clipBox g b).ys < (clipBox g b).ye ∧
          (clipBox g b).xs.toNat ≤ i ∧ ((i : Int) < (clipBox g b).xe) ∧
          (clipBox g b).ys.toNat ≤ j ∧ ((j : Int) < (clipBox g b).ye) ∧
          (clipBox g b).xe ≤ (gridW g : Int) ∧
          (clipBox g b).ye ≤ (gridH g : Int) := by
  refine ⟨rowLens_redactImage mode blurFn boxes g, ?_⟩
  induction boxes generalizing g with
  | nil =>
      intro j i hne
      exact absurd rfl hne
  | cons b bs ih =>
      intro j i hne
      have hstep : redactImage mode blurFn g (b :: bs) =
          redactImage mode blurFn (processBox mode blurFn g b) bs := rfl
      rw [hstep] at hne
      by_cases hmid : pix (redactImage mode blurFn
          (processBox mode blurFn g b) bs) j i =
          pix (processBox mode blurFn g b) j i
      · rw [hmid] at hne
        have hfr := pix_processBox_frame hne
        refine ⟨b, List.mem_cons_self b bs, hfr.1, hfr.2.1, hfr.2.2.1,
          hfr.2.2.2.1, hfr.2.2.2.2.1, hfr.2.2.2.2.2, ?_, ?_⟩
        · unfold clipBox
          simp
        · unfold clipBox
          simp
      · rcases ih (processBox mode blurFn g b) j i hmid with
          ⟨b2, hb2, hrest⟩
        have hcl : clipBox (processBox mode blurFn g b) b2 = clipBox g b2 :=
          clipBox_of_rowLens b2 (rowLens_processBox mode blurFn g b)
        have hW : gridW (processBox mode blurFn g b) = gridW g :=
          gridW_of_rowLens (rowLens_processBox mode blurFn g b)
        have hH : gridH (processBox mode blurFn g b) = gridH g :=
          gridH_of_rowLens (rowLens_processBox mode blurFn g b)
        rw [hcl, hW, hH] at hrest
        exact ⟨b2, List.mem_cons_of_mem b hb2, hrest⟩

/-- C10 applied at a concrete buffer and box list. -/
theorem C10_redact_image_in_bounds_witness :
    (redactImage "blur" some [[1, 2], [3, 4]] [⟨0, 0, 1, 1⟩]).map List.length =
        ([[1, 2], [3, 4]] : Grid).map List.length ∧
      ∀ j i, pix (redactImage "blur" some [[1, 2], [3, 4]] [⟨0, 0, 1, 1⟩]) j i ≠
          pix [[1, 2], [3, 4]] j i →
        ∃ b ∈ [(⟨0, 0, 1, 1⟩ : Box)],
          (clipBox [[1, 2], [3, 4]] b).xs < (clipBox [[1, 2], [3, 4]] b).xe ∧
          (clipBox [[1, 2], [3, 4]] b).ys < (clipBox [[1, 2], [3, 4]] b).ye ∧
          (clipBox [[1, 2], [3, 4]] b).xs.toNat ≤ i ∧
          ((i : Int) < (clipBox [[1, 2], [3, 4]] b).xe) ∧
          (clipBox [[1, 2], [3, 4]] b).ys.toNat ≤ j ∧
          ((j : Int) < (clipBox [[1, 2], [3, 4]] b).ye) ∧
          (clipBox [[1, 2], [3, 4]] b).xe ≤ (gridW [[1, 2], [3, 4]] : Int) ∧
          (clipBox [[1, 2], [3, 4]] b).ye ≤ (gridH [[1, 2], [3, 4]] : Int) :=
  C10_redact_image_in_bounds "blur" some [⟨0, 0, 1, 1⟩] [[1, 2], [3, 4]]

/-! ### Non-emptiness of detection: one regex hit makes `detect_in_text`
return a non-empty list, which is what drives cell and leaf redaction. -/

theorem finditer_head_mem {r : Rx} {t : List Char}
    {s : Nat × Option (Nat × Nat)} (h : (mtch r t 0).head? = some s) :
    (0, s.1, s.2) ∈ finditer r t 0 := by
  rw [finditer]
  rw [dif_neg (by omega)]
  rw [h]
  show (0, s.1, s.2) ∈
    if h : 0 < s.1 then (0, s.1, s.2) :: finditer r t s.1
    else (0, s.1, s.2) :: finditer r t (0 + 1)
  split
  · exact List.mem_cons_self _ _
  · exact List.mem_cons_self _ _

theorem mem_fm_of {f : α → List β} {l : List α} {a : α} {b : β}
    (ha : a ∈ l) (hb : b ∈ f a) : b ∈ fm f l := by
  induction l with
  | nil => cases ha
  | cons x xs ih =>
      unfold fm
      rcases List.mem_cons.1 ha with h1 | h1
      · subst h1
        exact List.mem_append.2 (Or.inl hb)
      · exact List.mem_append.2 (Or.inr (ih h1))

theorem dedupStep_ne_nil (acc : List Span) (m : Span) : dedupStep acc m ≠ [] := by
  unfold dedupStep
  cases hf : acc.find? (fun ex => overlapB m ex) with
  | none => simp
  | some ex =>
      have hne : acc ≠ [] := List.ne_nil_of_mem (List.mem_of_find?_eq_some hf)
      show (if ex.confidence < m.confidence then acc.erase ex ++ [m] else acc) ≠ []
      split
      · simp
      · exact hne

theorem foldl_dedupStep_ne_nil :
    ∀ (l acc : List Span), l ≠ [] ∨ acc ≠ [] → l.foldl dedupStep acc ≠ [] := by
  intro l
  induction l with
  | nil =>
      intro acc h
      rcases h with h | h
      · exact absurd rfl h
      · simpa using h
  | cons x xs ih =>
      intro acc _
      exact ih (dedupStep acc x) (Or.inr (dedupStep_ne_nil acc x))

theorem removeOverlapping_ne_nil {ms : List Span} (h : ms ≠ []) :
    removeOverlappingMatches ms ≠ [] := by
  unfold removeOverlappingMatches
  refine foldl_dedupStep_ne_nil _ _ (Or.inl ?_)
  intro hs
  have hp := sortStartAsc_perm ms
  rw [hs] at hp
  exact h (List.Perm.nil_eq hp).symm

theorem detect_ne_nil_of_pattern {name : String} {r : Rx} {t : List Char}
    {s : Nat × Option (Nat × Nat)} (k : Nat)
    (hk : detectorPatterns[k]? = some (name, r))
    (hm : (mtch r t 0).head? = some s) :
    detectInText t ≠ [] := by
  have hp : (name, r) ∈ detectorPatterns := List.getElem?_mem hk
  have hx : (0, s.1, s.2) ∈ finditer r t 0 := finditer_head_mem hm
  have hc : mkSpan name t 0 s.1 1 ∈ registryCands t :=
    mem_fm_of hp (List.mem_map.2 ⟨(0, s.1, s.2), hx, rfl⟩)
  unfold detectInText
  exact removeOverlapping_ne_nil
    (List.ne_nil_of_mem (List.mem_append.2 (Or.inl hc)))

theorem processCell_redacted {c : String} (h : detectInText c.data ≠ []) :
    processCell c = "[REDACTED]" := by
  unfold processCell
  cases hd : detectInText c.data with
  | nil => exact absurd hd h
  | cons m ms => rfl

theorem detect_PaulSmith_ne_nil : detectInText "Paul Smith".data ≠ [] :=
  detect_ne_nil_of_pattern 68 rfl
    (show (mtch p_license_number_us "Paul Smith".data 0).head? =
      some (4, none) by decide)

theorem detect_card_ne_nil : detectInText "4111111111111111".data ≠ [] :=
  detect_ne_nil_of_pattern 12 rfl
    (show (mtch p_visa "4111111111111111".data 0).head? =
      some (16, none) by decide)

theorem detect_ok_ne_nil : detectInText "ok".data ≠ [] :=
  detect_ne_nil_of_pattern 68 rfl
    (show (mtch p_license_number_us "ok".data 0).head? =
      some (2, none) by decide)

theorem csvRow_redacted (hdr : List String) :
    processCsvRows [hdr, ["Paul Smith", "4111111111111111", "ok"]] =
      [hdr, ["[REDACTED]", "[REDACTED]", "[REDACTED]"]] := by
  unfold processCsvRows
  simp only [List.map_cons, List.map_nil]
  rw [processCell_redacted detect_PaulSmith_ne_nil,
    processCell_redacted detect_card_ne_nil,
    processCell_redacted detect_ok_ne_nil]

/-- C4 counterexample: on the CSV file with header `["name","card","note"]`
and data row `["Paul Smith", "4111111111111111", "ok"]`, CSV processing does
NOT leave the cells `"Paul Smith"` and `"ok"` unchanged: every cell of the
data row — including `"ok"`, which the one-to-seven-character
`license_number_us` registry pattern matches under `re.IGNORECASE` — is
replaced by the placeholder, which differs from `"ok"`. -/
theorem C4_csv_ok_cell_redacted_cex :
    processCsvRows
        [["name", "card", "note"], ["Paul Smith", "4111111111111111", "ok"]] =
      [["name", "card", "note"], ["[REDACTED]", "[REDACTED]", "[REDACTED]"]] ∧
      ("[REDACTED]" : String) ≠ "ok" :=
  ⟨csvRow_redacted _, by decide⟩

/-- C4 (amended): for the data row
`["Paul Smith", "4111111111111111", "ok"]`, CSV processing writes the header
row back verbatim (it is never scanned), and replaces ALL THREE data cells —
not only the card number — with the fixed placeholder, because every cell of
this row matches some registry pattern under `re.IGNORECASE`. -/
theorem C4_csv_header_kept_cells_redacted (hdr : List String) :
    processCsvRows [hdr, ["Paul Smith", "4111111111111111", "ok"]] =
      [hdr, ["[REDACTED]", "[REDACTED]", "[REDACTED]"]] :=
  csvRow_redacted hdr

theorem detect_email_ne_nil : detectInText "a@b.com".data ≠ [] :=
  detect_ne_nil_of_pattern 24 rfl
    (show (mtch p_email "a@b.com".data 0).head? = some (7, none) by decide)

/-- C5: on the JSON document with fields `email = "a@b.com"` and `id = 5`,
recursive JSON redaction yields `email = "[REDACTED]"` and `id = 5`; in
general every string leaf in which `detect_in_text` finds at least one span
is replaced wholesale by the fixed placeholder (never substring-redacted),
and every non-string leaf (number, boolean, null) passes through
unchanged. -/
theorem C5_json_leaf_redaction :
    (redactJson (Jsn.obj [("email", Jsn.str "a@b.com"), ("id", Jsn.num 5)])
        "").1 =
      Jsn.obj [("email", Jsn.str "[REDACTED]"), ("id", Jsn.num 5)] ∧
    (∀ (s p : String), detectInText s.data ≠ [] →
      (redactJson (Jsn.str s) p).1 = Jsn.str "[REDACTED]") ∧
    (∀ (q : ℚ) (p : String), (redactJson (Jsn.num q) p).1 = Jsn.num q) ∧
    (∀ (b : Bool) (p : String), (redactJson (Jsn.bool b) p).1 = Jsn.bool b) ∧
    (∀ (p : String), (redactJson Jsn.null p).1 = Jsn.null) := by
  have hstr : ∀ (s p : String), detectInText s.data ≠ [] →
      (redactJson (Jsn.str s) p).1 = Jsn.str "[REDACTED]" := by
    intro s p h
    unfold redactJson
    cases hd : detectInText s.data with
    | nil => exact absurd hd h
    | cons m ms => rfl
  refine ⟨?_, hstr, fun q p => rfl, fun b p => rfl, fun p => rfl⟩
  cases hd : detectInText "a@b.com".data with
  | nil => exact absurd hd detect_email_ne_nil
  | cons m ms => simp [redactJson, redactJsonFields, hd]

/-- C5 applied at the two leaves of the document, with the non-empty
detection on the email leaf discharged by the registry email pattern. -/
theorem C5_json_leaf_redaction_witness :
    (redactJson (Jsn.str "a@b.com") "email").1 = Jsn.str "[REDACTED]" ∧
    (redactJson (Jsn.num 5) "id").1 = Jsn.num 5 :=
  ⟨C5_json_leaf_redaction.2.1 "a@b.com" "email" detect_email_ne_nil,
   C5_json_leaf_redaction.2.2.1 5 "id"⟩

/-! ### Simple-word texts: the fragment on which the cleaner is the
identity.  A simple token is a word of length at least two over lowercase
ASCII letters and digits; a simple text is a nonempty list of simple tokens
joined by single spaces. -/

def simpleChar (c : Char) : Bool := lowAZ c || c.isDigit

def simpleTok (t : List Char) : Bool :=
  decide (2 ≤ t.length) && t.all simpleChar

theorem charEqToNat (c d : Char) : (c = d) ↔ c.toNat = d.toNat := by
  constructor
  · intro h
    rw [h]
  · intro h
    exact Char.ext (UInt32.ext h)

theorem simpleChar_bounds {c : Char} (h : simpleChar c = true) :
    ((97 : Nat) ≤ c.toNat ∧ c.toNat ≤ 122) ∨
      ((48 : Nat) ≤ c.toNat ∧ c.toNat ≤ 57) := by
  unfold simpleChar lowAZ at h
  simp [Char.isDigit] at h
  rcases h with ⟨h1, h2⟩ | ⟨h1, h2⟩
  · exact Or.inl ⟨h1, h2⟩
  · exact Or.inr ⟨h1, h2⟩

theorem simpleChar_word {c : Char} (h : simpleChar c = true) :
    wordChar c = true := by
  rcases simpleChar_bounds h with ⟨h1, h2⟩ | ⟨h1, h2⟩
  · have hl : c.isLower = true := by
      simp [Char.isLower]
      exact ⟨h1, h2⟩
    simp [wordChar, Char.isAlphanum, Char.isAlpha, hl]
  · have hd : c.isDigit = true := by
      simp [Char.isDigit]
      exact ⟨h1, h2⟩
    simp [wordChar, Char.isAlphanum, hd]

theorem wordChar_bounds {c : Char} (h : wordChar c = true) :
    ((48 : Nat) ≤ c.toNat ∧ c.toNat ≤ 57) ∨
      ((65 : Nat) ≤ c.toNat ∧ c.toNat ≤ 90) ∨
      ((97 : Nat) ≤ c.toNat ∧ c.toNat ≤ 122) ∨ c.toNat = 95 := by
  simp [wordChar, Char.isAlphanum, Char.isAlpha, Char.isUpper, Char.isLower,
    Char.isDigit, charEqToNat] at h
  rcases h with ((⟨h1, h2⟩ | ⟨h1, h2⟩) | ⟨h1, h2⟩) | h1
  · exact Or.inr (Or.inl ⟨h1, h2⟩)
  · exact Or.inr (Or.inr (Or.inl ⟨h1, h2⟩))
  · exact Or.inl ⟨h1, h2⟩
  · exact Or.inr (Or.inr (Or.inr h1))

theorem wordChar_not_space {c : Char} (h : wordChar c = true) :
    pySpace c = false := by
  have hb := wordChar_bounds h
  simp [pySpace, charEqToNat]
  omega

theorem simpleChar_not_space {c : Char} (h : simpleChar c = true) :
    pySpace c = false := wordChar_not_space (simpleChar_word h)

theorem simpleChar_allow {c : Char} (h : simpleChar c = true) :
    allowChar c = true := by
  simp [allowChar, simpleChar_word h]

theorem simpleChar_not_punct5 {c : Char} (h : simpleChar c = true) :
    punct5 c = false := by
  have hb := simpleChar_bounds h
  simp [punct5, charEqToNat]
  omega

theorem simpleChar_not_paren6 {c : Char} (h : simpleChar c = true) :
    paren6 c = false := by
  have hb := simpleChar_bounds h
  simp [paren6, charEqToNat, Char.ofNat]
  omega

theorem simpleChar_not_sentP {c : Char} (h : simpleChar c = true) :
    sentP c = false := by
  have hb := simpleChar_bounds h
  simp [sentP, charEqToNat]
  omega

theorem simpleChar_not_upAZ {c : Char} (h : simpleChar c = true) :
    upAZ c = false := by
  have hb := simpleChar_bounds h
  simp [upAZ]
  intro h1
  have h2 : (65 : Nat) ≤ c.toNat := h1
  show (90 : Nat) < c.toNat
  omega

theorem simpleChar_not_nl {c : Char} (h : simpleChar c = true) :
    (c = '\n') = False := by
  have hb := simpleChar_bounds h
  simp [charEqToNat]
  omega

theorem simpleChar_not_slash {c : Char} (h : simpleChar c = true) :
    (['|', '\\', '/', '<', '>'].contains c) = false := by
  have hb := simpleChar_bounds h
  simp [List.contains, charEqToNat]
  omega

theorem simpleChar_lower_of_alpha {c : Char} (h : simpleChar c = true)
    (ha : c.isAlpha = true) : c.isLower = true := by
  rcases simpleChar_bounds h with ⟨h1, h2⟩ | ⟨h1, h2⟩
  · simp [Char.isLower]
    exact ⟨h1, h2⟩
  · exfalso
    simp [Char.isAlpha, Char.isUpper, Char.isLower] at ha
    rcases ha with ⟨h3, h4⟩ | ⟨h3, h4⟩
    · have g1 : (65 : Nat) ≤ c.toNat := h3
      have g2 : c.toNat ≤ 90 := h4
      omega
    · have g1 : (97 : Nat) ≤ c.toNat := h3
      omega

theorem space_not_alpha : (' ' : Char).isAlpha = false := by decide

theorem simpleChar_not_upper {c : Char} (h : simpleChar c = true) :
    c.isUpper = false := by
  have hb := simpleChar_bounds h
  simp [Char.isUpper]
  intro h1
  have h2 : (65 : Nat) ≤ c.toNat := h1
  show (90 : Nat) < c.toNat
  omega

/-! ### Stage identity lemmas on simple texts. -/

theorem joinSp_cons (t : List Char) {ts : List (List Char)} (h : ts ≠ []) :
    joinSp (t :: ts) = t ++ ' ' :: joinSp ts := by
  cases ts with
  | nil => exact absurd rfl h
  | cons u us => rfl

theorem joinSp_ne_nil {t : List Char} (ts : List (List Char)) (h : t ≠ []) :
    joinSp (t :: ts) ≠ [] := by
  cases ts with
  | nil => exact h
  | cons u us =>
      rw [joinSp_cons t (by simp)]
      cases t with
      | nil => exact absurd rfl h
      | cons c r => simp

theorem joinSp_head {t : List Char} (ts : List (List Char)) (h : t ≠ []) :
    (joinSp (t :: ts)).head? = t.head? := by
  cases ts with
  | nil => rfl
  | cons u us =>
      rw [joinSp_cons t (by simp)]
      cases t with
      | nil => exact absurd rfl h
      | cons c r => rfl

theorem joinSp_mem {ts : List (List Char)} {p : Char → Bool}
    (h : ∀ t ∈ ts, ∀ x ∈ t, p x = true) :
    ∀ x ∈ joinSp ts, p x = true ∨ x = ' ' := by
  induction ts with
  | nil => simp [joinSp]
  | cons t ts ih =>
      intro x hx
      cases ts with
      | nil => exact Or.inl (h t (by simp) x hx)
      | cons u us =>
          rw [joinSp_cons t (by simp)] at hx
          rcases List.mem_append.1 hx with h1 | h1
          · exact Or.inl (h t (by simp) x h1)
          · rcases List.mem_cons.1 h1 with h2 | h2
            · exact Or.inr h2
            · exact ih (fun v hv => h v (by simp [hv])) x h2

theorem getLastQ_cons_ne {α : Type _} (a : α) {l : List α} (h : l ≠ []) :
    (a :: l).getLast? = l.getLast? := by
  cases hl : l.getLast? with
  | none => exact absurd (List.getLast?_eq_none_iff.1 hl) h
  | some y =>
      rw [List.getLast?_cons, hl]
      simp

theorem joinSp_getLast_mem {ts : List (List Char)}
    (hne : ∀ t ∈ ts, t ≠ []) :
    ∀ x, (joinSp ts).getLast? = some x → ∃ t ∈ ts, x ∈ t := by
  induction ts with
  | nil => simp [joinSp]
  | cons t ts ih =>
      intro x hx
      cases ts with
      | nil =>
          exact ⟨t, by simp, List.mem_of_mem_getLast? hx⟩
      | cons u us =>
          have hJne : joinSp (u :: us) ≠ [] := joinSp_ne_nil us (hne u (by simp))
          rw [joinSp_cons t (by simp)] at hx
          rw [List.getLast?_append] at hx
          rw [getLastQ_cons_ne ' ' hJne] at hx
          cases hl : (joinSp (u :: us)).getLast? with
          | none => exact absurd (List.getLast?_eq_none_iff.1 hl) hJne
          | some y =>
              rw [hl] at hx
              simp at hx
              rcases ih (fun v hv => hne v (by simp [hv])) y hl with ⟨v, hv1, hv2⟩
              exact ⟨v, by simp [hv1], hx ▸ hv2⟩

theorem subWsM_tok {t : List Char} (h : ∀ x ∈ t, pySpace x = false) :
    ∀ r : List Char, subWsM false (t ++ r) = t ++ subWsM false r := by
  induction t with
  | nil => intro r; rfl
  | cons a t' ih =>
      intro r
      have ha := h a (by simp)
      simp only [List.cons_append, subWsM, ha, Bool.false_eq_true, if_false,
        List.append_eq]
      rw [ih (fun x hx => h x (by simp [hx])) r]

theorem subWsM_true_head {l : List Char}
    (h : ∀ x, l.head? = some x → pySpace x = false) :
    subWsM true l = subWsM false l := by
  cases l with
  | nil => rfl
  | cons a r => simp [subWsM, h a rfl]

theorem subWsM_join {ts : List (List Char)}
    (h : ∀ t ∈ ts, t ≠ [] ∧ ∀ x ∈ t, pySpace x = false) :
    subWsM false (joinSp ts) = joinSp ts := by
  induction ts with
  | nil => rfl
  | cons t ts ih =>
      rcases h t (by simp) with ⟨hne, hns⟩
      cases ts with
      | nil =>
          have := subWsM_tok hns []
          simpa [joinSp, subWsM] using this
      | cons u us =>
          rw [joinSp_cons t (by simp)]
          rw [subWsM_tok hns]
          have hsp : pySpace ' ' = true := by decide
          have hJ : subWsM true (joinSp (u :: us)) = joinSp (u :: us) := by
            rw [subWsM_true_head]
            · exact ih (fun v hv => h v (by simp [hv]))
            · intro x hx
              rw [joinSp_head us (h u (by simp)).1] at hx
              exact (h u (by simp)).2 x (List.mem_of_mem_head? hx)
          simp only [subWsM, hsp, if_true, Bool.false_eq_true, if_false]
          rw [hJ]

theorem subLone_run {c d : Char} :
    ∀ (u : List Char) (prev : Option Char) (rest : List Char),
      (∀ x ∈ u, wordChar x = true) → wordOpt prev = true →
      ∃ p', wordOpt p' = true ∧
        subLone c d prev (u ++ rest) = u ++ subLone c d p' rest := by
  intro u
  induction u with
  | nil => exact fun prev rest _ hp => ⟨prev, hp, rfl⟩
  | cons a u' ih =>
      intro prev rest hw hp
      rcases ih (some a) rest (fun x hx => hw x (by simp [hx]))
        (hw a (by simp)) with ⟨p', hp', heq⟩
      refine ⟨p', hp', ?_⟩
      simp only [List.cons_append, subLone, hp, Bool.not_true,
        Bool.and_false, Bool.false_and, Bool.false_eq_true, if_false,
        List.append_eq]
      rw [heq]

theorem subLone_tok {c d : Char} {t : List Char}
    (hw : ∀ x ∈ t, wordChar x = true) (h2 : 2 ≤ t.length)
    (prev : Option Char) (rest : List Char) :
    ∃ p', wordOpt p' = true ∧
      subLone c d prev (t ++ rest) = t ++ subLone c d p' rest := by
  rcases t with _ | ⟨a, _ | ⟨b, t''⟩⟩
  · simp at h2
  · simp at h2
  · have hb : wordChar b = true := hw b (by simp)
    rcases subLone_run (b :: t'') (some a) rest
      (fun x hx => hw x (by simp [hx])) (hw a (by simp)) with ⟨p', hp', heq⟩
    refine ⟨p', hp', ?_⟩
    have hcond : (decide (a = c) && !wordOpt prev &&
        !wordOpt ((b :: (t'' ++ rest)).head?)) = false := by
      simp [wordOpt, hb]
    have step : subLone c d prev ((a :: b :: t'') ++ rest) =
        (if (decide (a = c) && !wordOpt prev &&
            !wordOpt ((b :: (t'' ++ rest)).head?)) = true
         then d else a) :: subLone c d (some a) ((b :: t'') ++ rest) := rfl
    rw [step, hcond]
    simp only [Bool.false_eq_true, if_false]
    rw [heq]
    rfl

theorem subLone_sp {c d : Char} (hc : wordChar c = true) (p : Option Char)
    (z : List Char) :
    subLone c d p (' ' :: z) = ' ' :: subLone c d (some ' ') z := by
  have hb := wordChar_bounds hc
  have hsc : (' ' = c) = False := by
    simp [charEqToNat]
    omega
  simp [subLone, hsc]

theorem subLone_join {c d : Char} (hc : wordChar c = true)
    {ts : List (List Char)}
    (h : ∀ t ∈ ts, (∀ x ∈ t, wordChar x = true) ∧ 2 ≤ t.length) :
    ∀ prev, subLone c d prev (joinSp ts) = joinSp ts := by
  induction ts with
  | nil => intro prev; rfl
  | cons t ts ih =>
      intro prev
      rcases h t (by simp) with ⟨hw, h2⟩
      cases ts with
      | nil =>
          rcases subLone_tok hw h2 prev [] with ⟨p', _, heq⟩
          simpa [joinSp, subLone] using heq
      | cons u us =>
          rw [joinSp_cons t (by simp)]
          rcases subLone_tok hw h2 prev (' ' :: joinSp (u :: us)) with
            ⟨p', _, heq⟩
          rw [heq, subLone_sp hc p' (joinSp (u :: us))]
          rw [ih (fun v hv => h v (by simp [hv])) (some ' ')]

theorem subAllow_id {l : List Char} (h : ∀ x ∈ l, allowChar x = true) :
    subAllow l = l := List.filter_eq_self.2 h

theorem subPunctM_id {l : List Char} (h : ∀ x ∈ l, punct5 x = false) :
    subPunctM false l = l := by
  induction l with
  | nil => rfl
  | cons a r ih =>
      have ha := h a (by simp)
      have ihr := ih (fun x hx => h x (by simp [hx]))
      by_cases hs : pySpace a = true
      · cases hd : r.dropWhile pySpace with
        | nil => simp [subPunctM, ha, hs, hd, ihr]
        | cons p pr =>
            have hp : punct5 p = false := by
              refine h p (List.mem_cons_of_mem a ?_)
              refine (List.dropWhile_suffix pySpace).subset ?_
              rw [hd]
              simp
            simp [subPunctM, ha, hs, hd, hp, ihr]
      · simp [subPunctM, ha, (by simpa using hs : pySpace a = false), ihr]

theorem subParM_id {l : List Char} (h : ∀ x ∈ l, paren6 x = false) :
    subParM false l = l := by
  induction l with
  | nil => rfl
  | cons a r ih =>
      have ha := h a (by simp)
      have ihr := ih (fun x hx => h x (by simp [hx]))
      by_cases hs : pySpace a = true
      · cases hd : r.dropWhile pySpace with
        | nil => simp [subParM, ha, hs, hd, ihr]
        | cons p pr =>
            have hp : paren6 p = false := by
              refine h p (List.mem_cons_of_mem a ?_)
              refine (List.dropWhile_suffix pySpace).subset ?_
              rw [hd]
              simp
            simp [subParM, ha, hs, hd, hp, ihr]
      · simp [subParM, ha, (by simpa using hs : pySpace a = false), ihr]

theorem subFixNl_id {l : List Char} (h : ∀ x ∈ l, (x = '\n') = False) :
    subFixNl l = l := by
  induction l with
  | nil => rfl
  | cons a t ih =>
      rcases t with _ | ⟨b, _ | ⟨c3, r⟩⟩
      · rfl
      · rfl
      · have hb := h b (by simp)
        have iht := ih (fun x hx => h x (by simp [hx]))
        simp [subFixNl, hb, iht]

theorem subNlM_id {l : List Char} (h : ∀ x ∈ l, (x = '\n') = False) :
    subNlM false l = l := by
  induction l with
  | nil => rfl
  | cons a r ih =>
      have ha := h a (by simp)
      have ihr := ih (fun x hx => h x (by simp [hx]))
      simp [subNlM, ha, ihr]

theorem sentSp_id {l : List Char} (h : ∀ x ∈ l, sentP x = false) :
    sentSp false l = [l] := by
  induction l with
  | nil => rfl
  | cons a r ih =>
      have ha := h a (by simp)
      have ihr := ih (fun x hx => h x (by simp [hx]))
      simp [sentSp, ha, ihr]

theorem pyIsUpper_false {l : List Char}
    (h : ∀ x ∈ l, simpleChar x = true ∨ x = ' ') : pyIsUpper l = false := by
  unfold pyIsUpper
  cases ha : l.any Char.isAlpha with
  | false => simp [ha]
  | true =>
      rcases List.any_eq_true.1 ha with ⟨x, hx, hal⟩
      have hxs : simpleChar x = true := by
        rcases h x hx with h1 | h1
        · exact h1
        · rw [h1] at hal
          exact absurd hal (by rw [space_not_alpha]; simp)
      have hlow : l.any Char.isLower = true :=
        List.any_eq_true.2 ⟨x, hx, simpleChar_lower_of_alpha hxs hal⟩
      simp [ha, hlow]

theorem standardizeCasing_id {l : List Char}
    (hsent : ∀ x ∈ l, sentP x = false)
    (hcase : pyIsUpper l = false) : standardizeCasing l = l := by
  unfold standardizeCasing
  rw [show sentSplit l = [l] from sentSp_id hsent]
  simp [hcase]

theorem subCaps_id {l : List Char} (h : ∀ x ∈ l, upAZ x = false) :
    ∀ prev, subCaps prev l = l := by
  induction l with
  | nil => intro prev; rfl
  | cons a t ih =>
      intro prev
      have ha := h a (by simp)
      have iht := ih (fun x hx => h x (by simp [hx]))
      rcases t with _ | ⟨x1, _ | ⟨x2, _ | ⟨x3, _ | ⟨x4, r4⟩⟩⟩⟩
      · rfl
      · simp [subCaps, iht]
      · simp [subCaps, iht]
      · simp [subCaps, iht]
      · simp [subCaps, ha, iht]

theorem subSlash_id {l : List Char}
    (h : ∀ x ∈ l, (['|', '\\', '/', '<', '>'].contains x) = false) :
    subSlash l = l := by
  unfold subSlash
  induction l with
  | nil => rfl
  | cons a r ih =>
      have ha := h a (by simp)
      have ihr := ih (fun x hx => h x (by simp [hx]))
      simp only [List.map_cons]
      rw [ihr, if_neg (by simpa using ha)]

theorem subSg_run :
    ∀ (u : List Char) (prev : Option Char) (rest : List Char),
      (∀ x ∈ u, wordChar x = true) → wordOpt prev = true →
      ∃ p', wordOpt p' = true ∧
        subSg false prev (u ++ rest) = u ++ subSg false p' rest := by
  intro u
  induction u with
  | nil => exact fun prev rest _ hp => ⟨prev, hp, rfl⟩
  | cons a u' ih =>
      intro prev rest hw hp
      rcases ih (some a) rest (fun x hx => hw x (by simp [hx]))
        (hw a (by simp)) with ⟨p', hp', heq⟩
      refine ⟨p', hp', ?_⟩
      simp only [List.cons_append, subSg, hp, Bool.not_true, Bool.and_false,
        Bool.false_and, Bool.false_eq_true, if_false, List.append_eq]
      rw [heq]

theorem subSg_tok {t : List Char} (hw : ∀ x ∈ t, wordChar x = true)
    (h2 : 2 ≤ t.length) (prev : Option Char) (rest : List Char) :
    ∃ p', wordOpt p' = true ∧
      subSg false prev (t ++ rest) = t ++ subSg false p' rest := by
  rcases t with _ | ⟨a, _ | ⟨b, t''⟩⟩
  · simp at h2
  · simp at h2
  · have hb : wordChar b = true := hw b (by simp)
    have hbs : pySpace b = false := wordChar_not_space hb
    rcases subSg_run (b :: t'') (some a) rest
      (fun x hx => hw x (by simp [hx])) (hw a (by simp)) with ⟨p', hp', heq⟩
    refine ⟨p', hp', ?_⟩
    have hcond : (wordChar a && !wordOpt prev &&
        spaceOpt ((b :: (t'' ++ rest)).head?)) = false := by
      simp [spaceOpt, hbs]
    have step : subSg false prev ((a :: b :: t'') ++ rest) =
        (if (false && pySpace a) = true then subSg true prev ((b :: t'') ++ rest)
         else if (wordChar a && !wordOpt prev &&
             spaceOpt ((b :: (t'' ++ rest)).head?)) = true then
           ' ' :: subSg true (some ' ') ((b :: t'') ++ rest)
         else a :: subSg false (some a) ((b :: t'') ++ rest)) := rfl
    rw [step]
    simp only [Bool.false_and, Bool.false_eq_true, if_false, hcond]
    rw [heq]
    rfl

theorem subSg_sp (p : Option Char) (z : List Char) :
    subSg false p (' ' :: z) = ' ' :: subSg false (some ' ') z := by
  have hw : wordChar ' ' = false := by decide
  have step : subSg false p (' ' :: z) =
      (if (false && pySpace ' ') = true then subSg true p z
       else if (wordChar ' ' && !wordOpt p && spaceOpt z.head?) = true then
         ' ' :: subSg true (some ' ') z
       else ' ' :: subSg false (some ' ') z) := rfl
  rw [step]
  simp [hw]

theorem subSg_join {ts : List (List Char)}
    (h : ∀ t ∈ ts, (∀ x ∈ t, wordChar x = true) ∧ 2 ≤ t.length) :
    ∀ prev, subSg false prev (joinSp ts) = joinSp ts := by
  induction ts with
  | nil => intro prev; rfl
  | cons t ts ih =>
      intro prev
      rcases h t (by simp) with ⟨hw, h2⟩
      cases ts with
      | nil =>
          rcases subSg_tok hw h2 prev [] with ⟨p', _, heq⟩
          simpa [joinSp, subSg] using heq
      | cons u us =>
          rw [joinSp_cons t (by simp)]
          rcases subSg_tok hw h2 prev (' ' :: joinSp (u :: us)) with
            ⟨p', _, heq⟩
          rw [heq, subSg_sp p' (joinSp (u :: us))]
          rw [ih (fun v hv => h v (by simp [hv])) (some ' ')]

theorem pySp_true_ne_nil : ∀ l : List Char, pySp true l ≠ [] := by
  intro l
  induction l with
  | nil => simp [pySp]
  | cons a r ih =>
      by_cases hs : pySpace a = true
      · simp [pySp, hs]
      · have hs' : pySpace a = false := by simpa using hs
        cases hx : pySp true r with
        | nil => exact absurd hx ih
        | cons u us => simp [pySp, hs', hx]

theorem pySp_true_tok {t : List Char} (h : ∀ x ∈ t, pySpace x = false) :
    ∀ rest, pySp true (t ++ rest) =
      (match pySp true rest with
       | u :: us => (t ++ u) :: us
       | [] => [t]) := by
  induction t with
  | nil =>
      intro rest
      cases hx : pySp true rest with
      | nil => exact absurd hx (pySp_true_ne_nil rest)
      | cons u us => simp [hx]
  | cons a t' ih =>
      intro rest
      have ha := h a (by simp)
      have iht := ih (fun x hx => h x (by simp [hx])) rest
      cases hx : pySp true rest with
      | nil =>
          have iht' : pySp true (t' ++ rest) = [t'] := by rw [iht, hx]
          simp [pySp, ha, iht']
      | cons u us =>
          have iht' : pySp true (t' ++ rest) = (t' ++ u) :: us := by
            rw [iht, hx]
          simp [pySp, ha, iht']

theorem pySplit_join {ts : List (List Char)}
    (h : ∀ t ∈ ts, t ≠ [] ∧ ∀ x ∈ t, pySpace x = false) :
    pySplit (joinSp ts) = ts := by
  induction ts with
  | nil => rfl
  | cons t ts ih =>
      rcases h t (by simp) with ⟨hne, hns⟩
      rcases t with _ | ⟨c, t'⟩
      · exact absurd rfl hne
      · have hc := hns c (by simp)
        cases ts with
        | nil =>
            show pySp false (joinSp [c :: t']) = [c :: t']
            have htok := @pySp_true_tok t' (fun x hx => hns x (by simp [hx])) []
            have htok' : pySp true t' = [t'] := by
              have h2 := htok
              rw [show pySp true ([] : List Char) = [[]] from rfl] at h2
              simpa using h2
            simp [joinSp, pySp, hc, htok']
        | cons u us =>
            rw [joinSp_cons _ (by simp)]
            have hrest : pySp false (joinSp (u :: us)) = u :: us :=
              ih (fun v hv => h v (by simp [hv]))
            have hspc : pySpace ' ' = true := by decide
            have hsp : pySp true (' ' :: joinSp (u :: us)) = [] :: u :: us := by
              simp [pySp, hspc, hrest]
            have htok := @pySp_true_tok t' (fun x hx => hns x (by simp [hx]))
              (' ' :: joinSp (u :: us))
            have htok' : pySp true (t' ++ (' ' :: joinSp (u :: us))) =
                t' :: u :: us := by
              rw [htok, hsp]
              simp
            show pySp false ((c :: t') ++ (' ' :: joinSp (u :: us))) =
              (c :: t') :: u :: us
            simp [pySp, hc, htok']

theorem simpleChar_not_ws {c : Char} (h : simpleChar c = true) :
    c.isWhitespace = false := by
  have hb := simpleChar_bounds h
  simp [Char.isWhitespace, charEqToNat]
  omega

theorem pyStrip_id {l : List Char}
    (h1 : ∀ x, l.head? = some x → x.isWhitespace = false)
    (h2 : ∀ x, l.getLast? = some x → x.isWhitespace = false) :
    pyStrip l = l := by
  unfold pyStrip
  have d1 : l.dropWhile Char.isWhitespace = l := by
    cases l with
    | nil => rfl
    | cons a r => rw [List.dropWhile_cons, if_neg (by simp [h1 a rfl])]
  rw [d1]
  have d2 : l.reverse.dropWhile Char.isWhitespace = l.reverse := by
    cases hr : l.reverse with
    | nil => rfl
    | cons a r =>
        have hlast : l.getLast? = some a := by
          rw [← List.head?_reverse, hr]
          rfl
        rw [List.dropWhile_cons, if_neg (by simp [h2 a hlast])]
  rw [d2, List.reverse_reverse]

theorem cleanText_simple_id {ts : List (List Char)} (hne : ts ≠ [])
    (h : ∀ t ∈ ts, simpleTok t = true) : cleanText (joinSp ts) = joinSp ts := by
  have hlen : ∀ t ∈ ts, 2 ≤ t.length := by
    intro t ht
    have := h t ht
    unfold simpleTok at this
    exact of_decide_eq_true (Bool.and_eq_true_iff.1 this).1
  have hch : ∀ t ∈ ts, ∀ x ∈ t, simpleChar x = true := by
    intro t ht x hx
    have := h t ht
    unfold simpleTok at this
    exact List.all_eq_true.1 (Bool.and_eq_true_iff.1 this).2 x hx
  have htne : ∀ t ∈ ts, t ≠ [] := by
    intro t ht hnil
    have := hlen t ht
    rw [hnil] at this
    simp at this
  have hword : ∀ t ∈ ts, ∀ x ∈ t, wordChar x = true :=
    fun t ht x hx => simpleChar_word (hch t ht x hx)
  have hnospace : ∀ t ∈ ts, ∀ x ∈ t, pySpace x = false :=
    fun t ht x hx => simpleChar_not_space (hch t ht x hx)
  have hmem : ∀ x ∈ joinSp ts, simpleChar x = true ∨ x = ' ' := joinSp_mem hch
  have hempty : (joinSp ts).isEmpty = false := by
    rcases ts with _ | ⟨t, ts'⟩
    · exact absurd rfl hne
    · have := joinSp_ne_nil ts' (htne t (by simp))
      simpa [List.isEmpty_iff] using this
  have hnl : ∀ x ∈ joinSp ts, (x = '\n') = False := by
    intro x hx
    rcases hmem x hx with h1 | h1
    · exact simpleChar_not_nl h1
    · rw [h1]
      simp
  have hsent : ∀ x ∈ joinSp ts, sentP x = false := by
    intro x hx
    rcases hmem x hx with h1 | h1
    · exact simpleChar_not_sentP h1
    · rw [h1]
      decide
  unfold cleanText
  rw [if_neg (by simp [hempty])]
  rw [show subWs (joinSp ts) = joinSp ts from
    subWsM_join (fun t ht => ⟨htne t ht, hnospace t ht⟩)]
  rw [show subAllow (joinSp ts) = joinSp ts from subAllow_id (by
    intro x hx
    rcases hmem x hx with h1 | h1
    · exact simpleChar_allow h1
    · rw [h1]
      decide)]
  rw [show subLone 'l' 'I' none (joinSp ts) = joinSp ts from
    subLone_join (by decide) (fun t ht => ⟨hword t ht, hlen t ht⟩) none]
  rw [show subLone '0' 'O' none (joinSp ts) = joinSp ts from
    subLone_join (by decide) (fun t ht => ⟨hword t ht, hlen t ht⟩) none]
  rw [show subPunct (joinSp ts) = joinSp ts from subPunctM_id (by
    intro x hx
    rcases hmem x hx with h1 | h1
    · exact simpleChar_not_punct5 h1
    · rw [h1]
      decide)]
  rw [show subParen (joinSp ts) = joinSp ts from subParM_id (by
    intro x hx
    rcases hmem x hx with h1 | h1
    · exact simpleChar_not_paren6 h1
    · rw [h1]
      decide)]
  rw [show fixLineBreaks (joinSp ts) = joinSp ts from by
    unfold fixLineBreaks
    rw [subFixNl_id hnl]
    exact subNlM_id hnl]
  rw [standardizeCasing_id hsent (pyIsUpper_false hmem)]
  rw [show removeArtifacts (joinSp ts) = joinSp ts from by
    unfold removeArtifacts
    rw [subCaps_id (by
      intro x hx
      rcases hmem x hx with h1 | h1
      · exact simpleChar_not_upAZ h1
      · rw [h1]
        decide) none]
    rw [subSlash_id (by
      intro x hx
      rcases hmem x hx with h1 | h1
      · exact simpleChar_not_slash h1
      · rw [h1]
        decide)]
    exact subSg_join (fun t ht => ⟨hword t ht, hlen t ht⟩) none]
  rw [show pySplit (joinSp ts) = ts from
    pySplit_join (fun t ht => ⟨htne t ht, hnospace t ht⟩)]
  refine pyStrip_id ?_ ?_
  · intro x hx
    rcases ts with _ | ⟨t, ts'⟩
    · exact absurd rfl hne
    · rw [joinSp_head ts' (htne t (by simp))] at hx
      exact simpleChar_not_ws (hch t (by simp) x (List.mem_of_mem_head? hx))
  · intro x hx
    rcases joinSp_getLast_mem htne x hx with ⟨t, ht, hxt⟩
    exact simpleChar_not_ws (hch t ht x hxt)

def basicChar (c : Char) : Bool :=
  c.isAlphanum ||
    [' ', '.', ',', ';', ':', '!', '?', '(', ')', '-'].contains c

/-- No window of eleven consecutive characters consists solely of
non-lowercase characters: every ALL-CAPS-style run (in the generous sense of
`str.isupper`, which ignores uncased characters) has length at most ten. -/
def noCapsRunGt10 (t : List Char) : Bool :=
  (List.range t.length).all (fun i =>
    decide (((t.drop i).take 11).length < 11) ||
      ((t.drop i).take 11).any (fun c => c.isLower))

/-- C6 counterexample: the input `"AB,l,CD,EF,L"` consists of alphanumeric
characters and basic punctuation and has no ALL-CAPS run longer than 10
characters (every window of 11 characters contains the lowercase `l`), yet
`clean_text` is not idempotent on it.  One application first rewrites the
isolated `l` to `I` (rule `\b l \b -> I`), after which the 12-character
sentence satisfies `str.isupper()` and the casing heuristic lowercases and
capitalizes it — so the output `"Ab, i, cd, ef, l"` again contains an
isolated lowercase `l` (from the final `L`), and the second application
rewrites it to `I`, giving `"Ab, i, cd, ef, I"`. -/
theorem C6_clean_not_idempotent_cex :
    "AB,l,CD,EF,L".data.all basicChar = true ∧
    noCapsRunGt10 "AB,l,CD,EF,L".data = true ∧
    cleanText "AB,l,CD,EF,L".data = "Ab, i, cd, ef, l".data ∧
    cleanText (cleanText "AB,l,CD,EF,L".data) = "Ab, i, cd, ef, I".data ∧
    cleanText (cleanText "AB,l,CD,EF,L".data) ≠ cleanText "AB,l,CD,EF,L".data :=
  ⟨by decide, by decide, by decide, by decide, by decide⟩

/-- C6 (amended): the cleaner is idempotent on simple-word texts — nonempty
lists of tokens of length at least two over lowercase ASCII letters and
digits, joined by single spaces.  On such texts every cleaning stage is the
identity, so `clean_text` fixes them and in particular is idempotent. -/
theorem C6_clean_idempotent_simple_words (ts : List (List Char))
    (hne : ts ≠ []) (h : ∀ t ∈ ts, simpleTok t = true) :
    cleanText (cleanText (joinSp ts)) = cleanText (joinSp ts) := by
  rw [cleanText_simple_id hne h, cleanText_simple_id hne h]

/-- C6 (amended) applied to the two-token text `"ok now"`. -/
theorem C6_clean_idempotent_simple_words_witness :
    cleanText (cleanText (joinSp [['o', 'k'], ['n', 'o', 'w']])) =
      cleanText (joinSp [['o', 'k'], ['n', 'o', 'w']]) :=
  C6_clean_idempotent_simple_words [['o', 'k'], ['n', 'o', 'w']]
    (by decide) (by decide)

/-! ### Standalone digit runs: the `cvv` registry pattern and survival of a
confidence-1.0 span through overlap deduplication. -/

def noDigitC (C : CC) : Bool := "0123456789".data.all (fun d => !ccMatch C d)

def allDigitC (C : CC) : Bool := "0123456789".data.all (fun d => ccMatch C d)

theorem digit_mem {ch : Char} (h : ch.isDigit = true) :
    ch ∈ "0123456789".data := by
  simp [Char.isDigit] at h
  obtain ⟨h1, h2⟩ := h
  have g1 : (48 : Nat) ≤ ch.toNat := h1
  have g2 : ch.toNat ≤ 57 := h2
  simp [String.data, charEqToNat]
  omega

theorem noDigitC_sound {C : CC} {ch : Char} (h : noDigitC C = true)
    (hm : ccMatch C ch = true) : ch.isDigit = false := by
  by_contra hd
  have hd' : ch.isDigit = true := by simpa using hd
  have := List.all_eq_true.1 h ch (digit_mem hd')
  rw [hm] at this
  simp at this

theorem allDigitC_sound {C : CC} {ch : Char} (h : allDigitC C = true)
    (hd : ch.isDigit = true) : ccMatch C ch = true :=
  List.all_eq_true.1 h ch (digit_mem hd)

theorem digit_word {ch : Char} (h : ch.isDigit = true) : wordChar ch = true := by
  simp [wordChar, Char.isAlphanum, h]

theorem digit_dC {ch : Char} (h : ch.isDigit = true) : ccMatch dC ch = true := by
  simp [Char.isDigit] at h
  simp [ccMatch, dC]
  exact ⟨h.1, h.2⟩

theorem runLen_sound {C : CC} :
    ∀ {l : List Char} {k : Nat}, k < runLen C l →
      ∃ ch, l[k]? = some ch ∧ ccMatch C ch = true := by
  intro l
  induction l with
  | nil => intro k hk; simp [runLen] at hk
  | cons a r ih =>
      intro k hk
      by_cases ha : ccMatch C a = true
      · cases k with
        | zero => exact ⟨a, by simp, ha⟩
        | succ k' =>
            rw [runLen, if_pos ha] at hk
            have hk' : k' < runLen C r := by omega
            rcases ih hk' with ⟨ch, h1, h2⟩
            exact ⟨ch, by simpa using h1, h2⟩
      · rw [runLen, if_neg ha] at hk
        omega

theorem runLen_eq {C : CC} :
    ∀ {l : List Char} {n : Nat},
      (∀ k, k < n → ∃ ch, l[k]? = some ch ∧ ccMatch C ch = true) →
      (l[n]? = none ∨ ∃ ch, l[n]? = some ch ∧ ccMatch C ch = false) →
      runLen C l = n := by
  intro l
  induction l with
  | nil =>
      intro n h1 h2
      cases n with
      | zero => rfl
      | succ n' =>
          rcases h1 0 (by omega) with ⟨ch, hch, _⟩
          simp at hch
  | cons a r ih =>
      intro n h1 h2
      cases n with
      | zero =>
          rcases h2 with h2 | ⟨ch, hch, hcm⟩
          · simp at h2
          · have hac : a = ch := by simpa using hch
            rw [runLen, if_neg (by rw [hac]; simp [hcm])]
      | succ n' =>
          rcases h1 0 (by omega) with ⟨ch, hch, hcm⟩
          have hac : a = ch := by simpa using hch
          rw [runLen, if_pos (by rw [hac]; exact hcm)]
          have hr : runLen C r = n' := by
            refine ih (fun k hk => ?_) ?_
            · rcases h1 (k + 1) (by omega) with ⟨ch2, hc2, hm2⟩
              exact ⟨ch2, by simpa using hc2, hm2⟩
            · rcases h2 with h2 | ⟨ch2, hc2, hm2⟩
              · exact Or.inl (by simpa using h2)
              · exact Or.inr ⟨ch2, by simpa using hc2, hm2⟩
          omega

theorem runLen_next {C : CC} :
    ∀ {l : List Char} {ch : Char}, l[runLen C l]? = some ch →
      ccMatch C ch = false := by
  intro l
  induction l with
  | nil => intro ch h; simp at h
  | cons a r ih =>
      intro ch h
      by_cases ha : ccMatch C a = true
      · rw [runLen, if_pos ha] at h
        exact ih (by simpa using h)
      · rw [runLen, if_neg ha] at h
        have hac : a = ch := by simpa using h
        rw [← hac]
        simpa using ha

def startsB : Rx → Bool
  | .bnd => true
  | .cat a _ => startsB a
  | .alt a b => startsB a && startsB b
  | .grp r => startsB r
  | _ => false

theorem startsB_sound {r : Rx} (h : startsB r = true) {t : List Char} :
    ∀ {i : Nat}, ∀ x ∈ mtch r t i, boundary t i = true := by
  induction r with
  | eps => simp [startsB] at h
  | cls C => simp [startsB] at h
  | bnd =>
      intro i x hx
      unfold mtch at hx
      split at hx
      · assumption
      · simp at hx
  | cat a b iha ihb =>
      intro i x hx
      unfold mtch at hx
      rcases List.mem_flatten.1 hx with ⟨sub, hsub, hxsub⟩
      rcases List.mem_map.1 hsub with ⟨ra, hra, hraeq⟩
      exact iha h ra hra
  | alt a b iha ihb =>
      intro i x hx
      unfold startsB at h
      rcases Bool.and_eq_true_iff.1 h with ⟨h1, h2⟩
      unfold mtch at hx
      rcases List.mem_append.1 hx with hx1 | hx1
      · exact iha h1 x hx1
      · exact ihb h2 x hx1
  | repc C lo hi => simp [startsB] at h
  | star r ihr => simp [startsB] at h
  | grp r ihr =>
      intro i x hx
      unfold mtch at hx
      rcases List.mem_map.1 hx with ⟨y, hy, hyeq⟩
      exact ihr h y hy

def endsB : Rx → Bool
  | .bnd => true
  | .cat _ b => endsB b
  | .alt a b => endsB a && endsB b
  | .grp r => endsB r
  | _ => false

theorem endsB_sound {r : Rx} (h : endsB r = true) {t : List Char} :
    ∀ {i : Nat}, ∀ x ∈ mtch r t i, boundary t x.1 = true := by
  induction r with
  | eps => simp [endsB] at h
  | cls C => simp [endsB] at h
  | bnd =>
      intro i x hx
      unfold mtch at hx
      split at hx
      · have : x = (i, none) := by simpa using hx
        subst this
        assumption
      · simp at hx
  | cat a b iha ihb =>
      intro i x hx
      unfold mtch at hx
      rcases List.mem_flatten.1 hx with ⟨sub, hsub, hxsub⟩
      rcases List.mem_map.1 hsub with ⟨ra, hra, hraeq⟩
      rw [← hraeq] at hxsub
      rcases List.mem_map.1 hxsub with ⟨sb, hsb, hsbeq⟩
      have := ihb h sb hsb
      rw [← hsbeq]
      exact this
  | alt a b iha ihb =>
      intro i x hx
      unfold endsB at h
      rcases Bool.and_eq_true_iff.1 h with ⟨h1, h2⟩
      unfold mtch at hx
      rcases List.mem_append.1 hx with hx1 | hx1
      · exact iha h1 x hx1
      · exact ihb h2 x hx1
  | repc C lo hi => simp [endsB] at h
  | star r ihr => simp [endsB] at h
  | grp r ihr =>
      intro i x hx
      unfold mtch at hx
      rcases List.mem_map.1 hx with ⟨y, hy, hyeq⟩
      have := ihr h y hy
      rw [← hyeq]
      exact this

def fstNoDigit : Rx → Bool
  | .eps => true
  | .bnd => true
  | .cls C => noDigitC C
  | .cat a b => fstNoDigit a && (nonNull a || fstNoDigit b)
  | .alt a b => fstNoDigit a && fstNoDigit b
  | .repc C _ _ => noDigitC C
  | .star r => fstNoDigit r
  | .grp r => fstNoDigit r

theorem fstNoDigit_sound {r : Rx} (h : fstNoDigit r = true) {t : List Char} :
    ∀ {i : Nat}, ∀ x ∈ mtch r t i, i < x.1 →
      ∃ ch, t[i]? = some ch ∧ ch.isDigit = false := by
  induction r with
  | eps =>
      intro i x hx hlt
      have : x = (i, none) := by simpa [mtch] using hx
      subst this
      omega
  | cls C =>
      intro i x hx hlt
      unfold mtch at hx
      cases ht : t[i]? with
      | none => rw [ht] at hx; simp at hx
      | some ch =>
          rw [ht] at hx
          by_cases hc : ccMatch C ch = true
          · exact ⟨ch, rfl, noDigitC_sound h hc⟩
          · simp [hc] at hx
  | bnd =>
      intro i x hx hlt
      unfold mtch at hx
      split at hx
      · have : x = (i, none) := by simpa using hx
        subst this
        omega
      · simp at hx
  | cat a b iha ihb =>
      intro i x hx hlt
      unfold fstNoDigit at h
      rcases Bool.and_eq_true_iff.1 h with ⟨ha, hab⟩
      unfold mtch at hx
      rcases List.mem_flatten.1 hx with ⟨sub, hsub, hxsub⟩
      rcases List.mem_map.1 hsub with ⟨ra, hra, hraeq⟩
      rw [← hraeq] at hxsub
      rcases List.mem_map.1 hxsub with ⟨sb, hsb, hsbeq⟩
      have hile := mem_mtch_ge ra hra
      by_cases hia : i < ra.1
      · exact iha ha ra hra hia
      · have hieq : ra.1 = i := by omega
        rcases Bool.or_eq_true_iff.1 hab with hnn | hfb
        · exact absurd (mem_mtch_gt hnn ra hra) (by omega)
        · have hxe : x.1 = sb.1 := by rw [← hsbeq]
          refine ihb hfb sb ?_ ?_
          · rw [hieq] at hsb
            exact hsb
          · omega
  | alt a b iha ihb =>
      intro i x hx hlt
      unfold fstNoDigit at h
      rcases Bool.and_eq_true_iff.1 h with ⟨h1, h2⟩
      unfold mtch at hx
      rcases List.mem_append.1 hx with hx1 | hx1
      · exact iha h1 x hx1 hlt
      · exact ihb h2 x hx1 hlt
  | repc C lo hi =>
      intro i x hx hlt
      rcases mtch_repc_elim hx with ⟨j, hj1, hj2, hj3⟩
      have hj0 : 0 < j := by
        subst hj3
        simp at hlt
        omega
      have hrl : 0 < runLen C (t.drop i) := by
        have := capOf_le (runLen C (t.drop i)) hi
        omega
      rcases runLen_sound hrl with ⟨ch, hch, hcm⟩
      rw [List.getElem?_drop] at hch
      exact ⟨ch, by simpa using hch, noDigitC_sound h hcm⟩
  | star r ihr =>
      intro i x hx hlt
      unfold mtch at hx
      rcases List.mem_map.1 hx with ⟨e, he, heeq⟩
      have hxe : x.1 = e := by rw [← heeq]
      rw [starEnds] at he
      rcases List.mem_append.1 he with h1 | h1
      · rcases List.mem_flatten.1 h1 with ⟨sub, hsub, hesub⟩
        rcases List.mem_map.1 hsub with ⟨y, hy, hyeq⟩
        have hyf := List.of_mem_filter y.2
        simp at hyf
        have hymem := List.mem_of_mem_filter y.2
        rcases List.mem_map.1 hymem with ⟨s1, hs1, hs1eq⟩
        refine ihr h s1 hs1 ?_
        omega
      · have : e = i := by simpa using h1
        omega
  | grp r ihr =>
      intro i x hx hlt
      unfold mtch at hx
      rcases List.mem_map.1 hx with ⟨y, hy, hyeq⟩
      have hxe : x.1 = y.1 := by rw [← hyeq]
      refine ihr h y hy (by omega)

def lastNoDigit : Rx → Bool
  | .eps => true
  | .bnd => true
  | .cls C => noDigitC C
  | .cat a b => lastNoDigit b && (nonNull b || lastNoDigit a)
  | .alt a b => lastNoDigit a && lastNoDigit b
  | .repc C _ _ => noDigitC C
  | .star r => lastNoDigit r
  | .grp r => lastNoDigit r

theorem starEnds_last {t : List Char} {tlen : Nat} {f : Nat → List Nat}
    (hf : ∀ j e, e ∈ f j → j < e →
      ∃ ch, t[e - 1]? = some ch ∧ ch.isDigit = false) :
    ∀ (n i : Nat), tlen + 1 - i ≤ n → ∀ e ∈ starEnds tlen f i,
      e = i ∨ ∃ ch, t[e - 1]? = some ch ∧ ch.isDigit = false := by
  intro n
  induction n with
  | zero =>
      intro i hn e he
      rw [starEnds] at he
      rcases List.mem_append.1 he with h1 | h1
      · rcases List.mem_flatten.1 h1 with ⟨sub, hsub, hesub⟩
        rcases List.mem_map.1 hsub with ⟨y, hy, hyeq⟩
        have hyf := List.of_mem_filter y.2
        simp at hyf
        omega
      · exact Or.inl (by simpa using h1)
  | succ n ih =>
      intro i hn e he
      rw [starEnds] at he
      rcases List.mem_append.1 he with h1 | h1
      · rcases List.mem_flatten.1 h1 with ⟨sub, hsub, hesub⟩
        rcases List.mem_map.1 hsub with ⟨y, hy, hyeq⟩
        have hyf := List.of_mem_filter y.2
        simp at hyf
        have hymem := List.mem_of_mem_filter y.2
        rw [← hyeq] at hesub
        rcases ih y.1 (by omega) e hesub with h2 | h2
        · subst h2
          exact Or.inr (hf i y.1 hymem (by omega))
        · exact Or.inr h2
      · exact Or.inl (by simpa using h1)

theorem lastNoDigit_sound {r : Rx} (h : lastNoDigit r = true) {t : List Char} :
    ∀ {i : Nat}, ∀ x ∈ mtch r t i, i < x.1 →
      ∃ ch, t[x.1 - 1]? = some ch ∧ ch.isDigit = false := by
  induction r with
  | eps =>
      intro i x hx hlt
      have : x = (i, none) := by simpa [mtch] using hx
      subst this
      omega
  | cls C =>
      intro i x hx hlt
      unfold mtch at hx
      cases ht : t[i]? with
      | none => rw [ht] at hx; simp at hx
      | some ch =>
          rw [ht] at hx
          by_cases hc : ccMatch C ch = true
          · have : x = (i + 1, none) := by simpa [hc] using hx
            subst this
            exact ⟨ch, by simpa using ht, noDigitC_sound h hc⟩
          · simp [hc] at hx
  | bnd =>
      intro i x hx hlt
      unfold mtch at hx
      split at hx
      · have : x = (i, none) := by simpa using hx
        subst this
        omega
      · simp at hx
  | cat a b iha ihb =>
      intro i x hx hlt
      unfold lastNoDigit at h
      rcases Bool.and_eq_true_iff.1 h with ⟨hb, hab⟩
      unfold mtch at hx
      rcases List.mem_flatten.1 hx with ⟨sub, hsub, hxsub⟩
      rcases List.mem_map.1 hsub with ⟨ra, hra, hraeq⟩
      rw [← hraeq] at hxsub
      rcases List.mem_map.1 hxsub with ⟨sb, hsb, hsbeq⟩
      have hxe : x.1 = sb.1 := by rw [← hsbeq]
      have hrb := mem_mtch_ge sb hsb
      by_cases hbs : ra.1 < sb.1
      · rcases ihb hb sb hsb hbs with ⟨ch, h1, h2⟩
        exact ⟨ch, by rw [hxe]; exact h1, h2⟩
      · have heq : sb.1 = ra.1 := by omega
        rcases Bool.or_eq_true_iff.1 hab with hnn | hfa
        · exact absurd (mem_mtch_gt hnn sb hsb) (by omega)
        · rcases iha hfa ra hra (by omega) with ⟨ch, h1, h2⟩
          exact ⟨ch, by rw [hxe, heq]; exact h1, h2⟩
  | alt a b iha ihb =>
      intro i x hx hlt
      unfold lastNoDigit at h
      rcases Bool.and_eq_true_iff.1 h with ⟨h1, h2⟩
      unfold mtch at hx
      rcases List.mem_append.1 hx with hx1 | hx1
      · exact iha h1 x hx1 hlt
      · exact ihb h2 x hx1 hlt
  | repc C lo hi =>
      intro i x hx hlt
      rcases mtch_repc_elim hx with ⟨j, hj1, hj2, hj3⟩
      have hj0 : 0 < j := by
        subst hj3
        simp at hlt
        omega
      have hlt2 : j - 1 < runLen C (t.drop i) := by
        have := capOf_le (runLen C (t.drop i)) hi
        omega
      rcases runLen_sound hlt2 with ⟨ch, hch, hcm⟩
      rw [List.getElem?_drop] at hch
      refine ⟨ch, ?_, noDigitC_sound h hcm⟩
      subst hj3
      simp only []
      have : i + j - 1 = i + (j - 1) := by omega
      rw [this]
      exact hch
  | star r ihr =>
      intro i x hx hlt
      unfold mtch at hx
      rcases List.mem_map.1 hx with ⟨e, he, heeq⟩
      have hxe : x.1 = e := by rw [← heeq]
      have hf : ∀ j e', e' ∈ (mtch r t j).map (fun s => s.1) → j < e' →
          ∃ ch, t[e' - 1]? = some ch ∧ ch.isDigit = false := by
        intro j e' he' hj
        rcases List.mem_map.1 he' with ⟨s1, hs1, hs1eq⟩
        rcases ihr h s1 hs1 (by omega) with ⟨ch, h1, h2⟩
        exact ⟨ch, by rw [← hs1eq]; exact h1, h2⟩
      rcases starEnds_last hf (t.length + 1 - i) i (Nat.le_refl _) e he with
        h1 | h1
      · omega
      · rw [hxe]
        exact h1
  | grp r ihr =>
      intro i x hx hlt
      unfold mtch at hx
      rcases List.mem_map.1 hx with ⟨y, hy, hyeq⟩
      have hxe : x.1 = y.1 := by rw [← hyeq]
      rcases ihr h y hy (by omega) with ⟨ch, h1, h2⟩
      exact ⟨ch, by rw [hxe]; exact h1, h2⟩

def tailCls : Rx → Option CC
  | .repc C _ none => some C
  | .cat _ b => tailCls b
  | .grp r => tailCls r
  | _ => none

theorem head_of_map_flatten {α β : Type _} {L : List α} {f : α → List β}
    {y : β} (h : ((L.map f).flatten).head? = some y) :
    ∃ x ∈ L, (f x).head? = some y := by
  induction L with
  | nil => simp at h
  | cons a L' ih =>
      rw [List.map_cons, List.flatten_cons, List.head?_append] at h
      cases hfa : (f a).head? with
      | some z =>
          rw [hfa] at h
          simp at h
          exact ⟨a, by simp, by rw [hfa, h]⟩
      | none =>
          rw [hfa] at h
          simp at h
          rcases ih h with ⟨x, hx1, hx2⟩
          exact ⟨x, by simp [hx1], hx2⟩

theorem head_cat {a b : Rx} {t : List Char} {i e : Nat}
    {g : Option (Nat × Nat)}
    (h : (mtch (.cat a b) t i).head? = some (e, g)) :
    ∃ j g', (mtch b t j).head? = some (e, g') := by
  unfold mtch at h
  rcases head_of_map_flatten h with ⟨ra, hra, hh⟩
  rw [List.head?_map] at hh
  cases hsb : (mtch b t ra.1).head? with
  | none => rw [hsb] at hh; simp at hh
  | some sb =>
      rcases sb with ⟨sb1, sb2⟩
      rw [hsb] at hh
      simp at hh
      rcases hh with ⟨hh1, hh2⟩
      subst hh1
      exact ⟨ra.1, sb2, hsb⟩

theorem head_grp {r : Rx} {t : List Char} {i e : Nat} {g : Option (Nat × Nat)}
    (h : (mtch (.grp r) t i).head? = some (e, g)) :
    ∃ g', (mtch r t i).head? = some (e, g') := by
  unfold mtch at h
  rw [List.head?_map] at h
  cases hy : (mtch r t i).head? with
  | none => rw [hy] at h; simp at h
  | some y =>
      rcases y with ⟨y1, y2⟩
      rw [hy] at h
      simp at h
      rcases h with ⟨h1, h2⟩
      subst h1
      exact ⟨y2, rfl⟩

theorem head_repc_none {C : CC} {lo : Nat} {t : List Char} {i e : Nat}
    {g : Option (Nat × Nat)}
    (h : (mtch (.repc C lo none) t i).head? = some (e, g)) :
    e = i + runLen C (t.drop i) := by
  unfold mtch at h
  split at h
  · rename_i hle
    rw [List.head?_map] at h
    unfold descRange at h
    rw [List.head?_map] at h
    have hcap : capOf (runLen C (t.drop i)) none = runLen C (t.drop i) := rfl
    rw [hcap] at h hle
    have hpos : 0 < runLen C (t.drop i) + 1 - lo := by omega
    have hr : (List.range (runLen C (t.drop i) + 1 - lo)).head? = some 0 := by
      cases hn : runLen C (t.drop i) + 1 - lo with
      | zero => omega
      | succ m => simp [List.range_succ_eq_map]
    rw [hr] at h
    simp at h
    omega
  · simp at h

theorem tailCls_sound {r : Rx} :
    ∀ {C : CC}, tailCls r = some C → ∀ {t : List Char} {i e : Nat}
      {g : Option (Nat × Nat)}, (mtch r t i).head? = some (e, g) →
      ∀ ch, t[e]? = some ch → ccMatch C ch = false := by
  induction r with
  | eps => intro C hC; simp [tailCls] at hC
  | cls C0 => intro C hC; simp [tailCls] at hC
  | bnd => intro C hC; simp [tailCls] at hC
  | alt a b iha ihb => intro C hC; simp [tailCls] at hC
  | star r ihr => intro C hC; simp [tailCls] at hC
  | repc C0 lo hi =>
      intro C hC t i e g hh ch hch
      cases hi with
      | some n => simp [tailCls] at hC
      | none =>
          have hC0 : C0 = C := by simpa [tailCls] using hC
          subst hC0
          have he := head_repc_none hh
          subst he
          rw [show t[i + runLen C0 (t.drop i)]? =
            (t.drop i)[runLen C0 (t.drop i)]? from
            (List.getElem?_drop t i (runLen C0 (t.drop i))).symm] at hch
          exact runLen_next hch
  | cat a b iha ihb =>
      intro C hC t i e g hh ch hch
      rcases head_cat hh with ⟨j, g', hh'⟩
      exact ihb (by simpa [tailCls] using hC) hh' ch hch
  | grp r ihr =>
      intro C hC t i e g hh ch hch
      rcases head_grp hh with ⟨g', hh'⟩
      exact ihr (by simpa [tailCls] using hC) hh' ch hch

def coveringOK (r : Rx) : Bool :=
  (startsB r || fstNoDigit r) &&
    (endsB r || lastNoDigit r ||
      (match tailCls r with
       | some C => allDigitC C
       | none => false))

theorem allPatternsCovering :
    detectorPatterns.all (fun p => coveringOK p.2) = true := by decide

theorem registry_elim {t : List Char} {m : Span} (hm : m ∈ registryCands t) :
    ∃ name r i e g, (name, r) ∈ detectorPatterns ∧
      (i, e, g) ∈ finditer r t 0 ∧ m = mkSpan name t i e 1 := by
  unfold registryCands at hm
  rcases mem_fm m hm with ⟨p, hp, hmp⟩
  rcases List.mem_map.1 hmp with ⟨x, hx, hxe⟩
  exact ⟨p.1, p.2, x.1, x.2.1, x.2.2, hp, by simpa using hx, hxe.symm⟩

theorem registry_conf {t : List Char} {m : Span} (hm : m ∈ registryCands t) :
    m.confidence = 1 := by
  rcases registry_elim hm with ⟨name, r, i, e, g, _, _, hmeq⟩
  subst hmeq
  rfl

theorem fuzzy_conf_lt {t : List Char} {m : Span} (hm : m ∈ fuzzyCands t) :
    m.confidence < 1 := by
  unfold fuzzyCands at hm
  rcases List.mem_append.1 hm with h1 | h1
  · rcases List.mem_append.1 h1 with h2 | h2
    · rcases mem_fm m h2 with ⟨p, _, hmp⟩
      rcases List.mem_map.1 hmp with ⟨x, _, hxe⟩
      rw [← hxe]
      norm_num [mkSpan]
    · rcases mem_fm m h2 with ⟨p, _, hmp⟩
      rcases List.mem_map.1 hmp with ⟨x, _, hxe⟩
      rw [← hxe]
      norm_num [mkSpan]
  · rcases mem_fm m h1 with ⟨x, _, hmx⟩
    rcases hg : x.2.2 with _ | g
    · rw [hg] at hmx
      simp at hmx
    · rw [hg] at hmx
      have hmx' : m ∈ (if (decide (1 < (pyStrip (slice t g.1 g.2)).length) &&
          !pyIsDigit (pyStrip (slice t g.1 g.2))) = true then
            [(⟨"suspected_name", String.mk (pyStrip (slice t g.1 g.2)),
              g.1, g.2, 3 / 5⟩ : Span)]
          else []) := hmx
      split at hmx'
      · have hme : m = ⟨"suspected_name", String.mk (pyStrip (slice t g.1 g.2)),
            g.1, g.2, 3 / 5⟩ := by simpa using hmx'
        subst hme
        norm_num
      · simp at hmx' 

theorem cands_conf_le {t : List Char} {m : Span}
    (hm : m ∈ registryCands t ++ fuzzyCands t) : m.confidence ≤ 1 := by
  rcases List.mem_append.1 hm with h1 | h1
  · rw [registry_conf h1]
  · exact le_of_lt (fuzzy_conf_lt h1)

theorem conf_one_registry {t : List Char} {m : Span}
    (hm : m ∈ registryCands t ++ fuzzyCands t) (hc : m.confidence = 1) :
    m ∈ registryCands t := by
  rcases List.mem_append.1 hm with h1 | h1
  · exact h1
  · have := fuzzy_conf_lt h1
    rw [hc] at this
    exact absurd this (by norm_num)

theorem registry_cover {t : List Char} {s u : Nat}
    (hdig : ∀ k, s ≤ k → k < u → ∃ ch, t[k]? = some ch ∧ ch.isDigit = true)
    {m : Span} (hm : m ∈ registryCands t)
    (hov1 : m.start < u) (hov2 : s < m.stop) :
    m.start ≤ s ∧ u ≤ m.stop := by
  rcases registry_elim hm with ⟨name, r, i, e, g, hp, hfind, hmeq⟩
  subst hmeq
  simp only [mkSpan] at hov1 hov2 ⊢
  have hcov : coveringOK r = true := by
    simpa using List.all_eq_true.1 allPatternsCovering (name, r) hp
  have hnn : nonNull r = true := by
    simpa using List.all_eq_true.1 allPatternsNonNull (name, r) hp
  have hh : (mtch r t i).head? = some (e, g) := finditer_mem (i, e, g) hfind
  have hmem : (e, g) ∈ mtch r t i :=
    List.mem_of_mem_head? (by rw [hh]; rfl)
  have hlt : i < e := by simpa using mem_mtch_gt hnn (e, g) hmem
  rcases Bool.and_eq_true_iff.1 hcov with ⟨hcs, hce⟩
  constructor
  · by_contra hgt
    push_neg at hgt
    rcases hdig (i - 1) (by omega) (by omega) with ⟨ch1, hch1, hd1⟩
    rcases hdig i (by omega) (by omega) with ⟨ch2, hch2, hd2⟩
    rcases Bool.or_eq_true_iff.1 hcs with hsB | hsF
    · have hb := startsB_sound hsB (e, g) hmem
      unfold boundary at hb
      rw [if_neg (by omega)] at hb
      have hw1 : wordAt t (i - 1) = true := by
        unfold wordAt
        rw [hch1]
        exact digit_word hd1
      have hw2 : wordAt t i = true := by
        unfold wordAt
        rw [hch2]
        exact digit_word hd2
      rw [hw1, hw2] at hb
      simp at hb
    · rcases fstNoDigit_sound hsF (e, g) hmem hlt with ⟨ch, hch, hnd⟩
      rw [hch2] at hch
      have : ch2 = ch := by simpa using hch
      rw [← this] at hnd
      rw [hd2] at hnd
      simp at hnd
  · by_contra hgt
    push_neg at hgt
    rcases hdig (e - 1) (by omega) (by omega) with ⟨ch1, hch1, hd1⟩
    rcases hdig e (by omega) (by omega) with ⟨ch2, hch2, hd2⟩
    rcases Bool.or_eq_true_iff.1 hce with hBL | hT
    · rcases Bool.or_eq_true_iff.1 hBL with hB | hL
      · have hb := endsB_sound hB (e, g) hmem
        simp only [] at hb
        unfold boundary at hb
        rw [if_neg (by omega)] at hb
        have hw1 : wordAt t (e - 1) = true := by
          unfold wordAt
          rw [hch1]
          exact digit_word hd1
        have hw2 : wordAt t e = true := by
          unfold wordAt
          rw [hch2]
          exact digit_word hd2
        rw [hw1, hw2] at hb
        simp at hb
      · rcases lastNoDigit_sound hL (e, g) hmem hlt with ⟨ch, hch, hnd⟩
        simp only [] at hch
        rw [hch1] at hch
        have : ch1 = ch := by simpa using hch
        rw [← this] at hnd
        rw [hd1] at hnd
        simp at hnd
    · rcases htc : tailCls r with _ | C
      · rw [htc] at hT
        simp at hT
      · rw [htc] at hT
        have hT' : allDigitC C = true := by simpa using hT
        have := tailCls_sound htc hh ch2 hch2
        rw [allDigitC_sound hT' hd2] at this
        simp at this

theorem mtch_cat_eq (A B : Rx) (t : List Char) (i : Nat) :
    mtch (.cat A B) t i =
      ((mtch A t i).map (fun ra =>
        (mtch B t ra.1).map (fun sb => (sb.1, orG ra.2 sb.2)))).flatten := rfl

theorem bnd_elim {t : List Char} {i : Nat} {x : Nat × Option (Nat × Nat)}
    (hx : x ∈ mtch .bnd t i) : x = (i, none) ∧ boundary t i = true := by
  unfold mtch at hx
  split at hx
  · exact ⟨by simpa using hx, by assumption⟩
  · simp at hx

theorem cvv_digits {t : List Char} {i : Nat} :
    ∀ x ∈ mtch p_cvv t i, ∀ k, i ≤ k → k < x.1 →
      ∃ ch, t[k]? = some ch ∧ ccMatch dC ch = true := by
  intro x hx k hk1 hk2
  have hx' : x ∈ mtch (.cat .bnd (.cat (.repc dC 3 (some 4)) .bnd)) t i := hx
  rw [mtch_cat_eq] at hx'
  rcases List.mem_flatten.1 hx' with ⟨sub, hsub, hxsub⟩
  rcases List.mem_map.1 hsub with ⟨ra, hra, hraeq⟩
  rcases bnd_elim hra with ⟨hra1, _⟩
  subst hra1
  rw [← hraeq] at hxsub
  rcases List.mem_map.1 hxsub with ⟨sb, hsb, hsbeq⟩
  rw [mtch_cat_eq] at hsb
  rcases List.mem_flatten.1 hsb with ⟨sub2, hsub2, hsbsub⟩
  rcases List.mem_map.1 hsub2 with ⟨rb, hrb, hrbeq⟩
  rw [← hrbeq] at hsbsub
  rcases List.mem_map.1 hsbsub with ⟨sc, hsc, hsceq⟩
  rcases bnd_elim hsc with ⟨hsc1, _⟩
  have hrb' : rb ∈ mtch (.repc dC 3 (some 4)) t i := hrb
  rcases mtch_repc_elim hrb' with ⟨j, hj1, hj2, hj3⟩
  have hxv : x.1 = rb.1 := by
    rw [← hsbeq, ← hsceq, hsc1]
  have hrb1 : rb.1 = i + j := by rw [hj3]
  have hcap := capOf_le (runLen dC (t.drop i)) (some 4)
  have hklt : k - i < runLen dC (t.drop i) := by omega
  rcases runLen_sound hklt with ⟨ch, hch, hcm⟩
  rw [List.getElem?_drop] at hch
  have hik : i + (k - i) = k := by omega
  rw [hik] at hch
  exact ⟨ch, hch, hcm⟩

theorem finditer_head_mem_at {r : Rx} {t : List Char} {i : Nat}
    (hle : i ≤ t.length) {s : Nat × Option (Nat × Nat)}
    (h : (mtch r t i).head? = some s) : (i, s.1, s.2) ∈ finditer r t i := by
  rw [finditer]
  rw [dif_neg (by omega)]
  rw [h]
  show (i, s.1, s.2) ∈
    if h : i < s.1 then (i, s.1, s.2) :: finditer r t s.1
    else (i, s.1, s.2) :: finditer r t (i + 1)
  split
  · exact List.mem_cons_self _ _
  · exact List.mem_cons_self _ _

theorem finditer_reach {r : Rx} {t : List Char} {s : Nat} (hs : s ≤ t.length)
    (hjump : ∀ i, i < s → ∀ e g, (mtch r t i).head? = some (e, g) → e ≤ s) :
    ∀ (n i : Nat), s - i ≤ n → i ≤ s →
      ∀ x ∈ finditer r t s, x ∈ finditer r t i := by
  intro n
  induction n with
  | zero =>
      intro i h1 h2 x hx
      have : i = s := by omega
      subst this
      exact hx
  | succ n ih =>
      intro i h1 h2 x hx
      by_cases his : i = s
      · subst his
        exact hx
      · have hi : i < s := by omega
        rw [finditer, dif_neg (by omega)]
        cases hh : (mtch r t i).head? with
        | none =>
            show x ∈ finditer r t (i + 1)
            exact ih (i + 1) (by omega) (by omega) x hx
        | some sm =>
            have hje : sm.1 ≤ s := hjump i hi sm.1 sm.2 (by rw [hh])
            show x ∈
              (if h : i < sm.1 then (i, sm.1, sm.2) :: finditer r t sm.1
               else (i, sm.1, sm.2) :: finditer r t (i + 1))
            split
            · exact List.mem_cons_of_mem _ (ih sm.1 (by omega) (by omega) x hx)
            · exact List.mem_cons_of_mem _ (ih (i + 1) (by omega) (by omega) x hx)

theorem ccMatch_dC_word {ch : Char} (h : ccMatch dC ch = true) :
    wordChar ch = true := by
  refine digit_word ?_
  simp [ccMatch, dC] at h
  simp [Char.isDigit]
  exact h

theorem cvv_head {t : List Char} {s u : Nat}
    (h3 : 3 ≤ u - s) (h4 : u - s ≤ 4) (hu : u ≤ t.length)
    (hdig : ∀ k, s ≤ k → k < u → ∃ ch, t[k]? = some ch ∧ ch.isDigit = true)
    (hleft : s = 0 ∨ ∃ ch, t[s - 1]? = some ch ∧ wordChar ch = false)
    (hright : u = t.length ∨ ∃ ch, t[u]? = some ch ∧ wordChar ch = false) :
    (mtch p_cvv t s).head? = some (u, none) := by
  have hsw : wordAt t s = true := by
    rcases hdig s (by omega) (by omega) with ⟨ch, hch, hd⟩
    unfold wordAt
    rw [hch]
    exact digit_word hd
  have huw : wordAt t (u - 1) = true := by
    rcases hdig (u - 1) (by omega) (by omega) with ⟨ch, hch, hd⟩
    unfold wordAt
    rw [hch]
    exact digit_word hd
  have hbs : boundary t s = true := by
    unfold boundary
    rw [hsw]
    by_cases h0 : s = 0
    · rw [if_pos h0]
      rfl
    · rw [if_neg h0]
      rcases hleft with h1 | ⟨ch, hch, hw⟩
      · exact absurd h1 h0
      · unfold wordAt
        rw [hch]
        show (wordChar ch != true) = true
        rw [hw]
        rfl
  have hbu : boundary t u = true := by
    unfold boundary
    rw [if_neg (by omega)]
    rw [huw]
    have hwu : wordAt t u = false := by
      rcases hright with h1 | ⟨ch, hch, hw⟩
      · unfold wordAt
        rw [List.getElem?_eq_none (by omega)]
      · unfold wordAt
        rw [hch]
        exact hw
    rw [hwu]
    rfl
  have hrl : runLen dC (t.drop s) = u - s := by
    refine runLen_eq ?_ ?_
    · intro k hk
      rcases hdig (s + k) (by omega) (by omega) with ⟨ch, hch, hd⟩
      refine ⟨ch, ?_, digit_dC hd⟩
      rw [List.getElem?_drop]
      exact hch
    · rw [List.getElem?_drop]
      have hsu : s + (u - s) = u := by omega
      rw [hsu]
      rcases hright with h1 | ⟨ch, hch, hw⟩
      · exact Or.inl (List.getElem?_eq_none (by omega))
      · refine Or.inr ⟨ch, hch, ?_⟩
        by_contra hcm
        have hcm' : ccMatch dC ch = true := by simpa using hcm
        rw [ccMatch_dC_word hcm'] at hw
        simp at hw
  have e1 : mtch .bnd t s = [(s, none)] := by
    unfold mtch
    rw [if_pos hbs]
  have e2 : mtch .bnd t u = [(u, none)] := by
    unfold mtch
    rw [if_pos hbu]
  have ecap : capOf (runLen dC (t.drop s)) (some 4) = u - s := by
    rw [hrl]
    simp [capOf]
    omega
  have e3 : mtch (.repc dC 3 (some 4)) t s =
      (descRange 3 (u - s)).map (fun j => (s + j, none)) := by
    show (if 3 ≤ capOf (runLen dC (t.drop s)) (some 4) then
        (descRange 3 (capOf (runLen dC (t.drop s)) (some 4))).map
          (fun j => (s + j, none))
      else []) = _
    rw [ecap, if_pos (by omega)]
  have e5 : descRange 3 (u - s) =
      (u - s) :: (List.range (u - s - 3)).map
        ((fun j => u - s - j) ∘ Nat.succ) := by
    unfold descRange
    rw [show u - s + 1 - 3 = (u - s - 3) + 1 from by omega,
      List.range_succ_eq_map, List.map_cons, List.map_map]
    simp
  have e6 : mtch (.repc dC 3 (some 4)) t s =
      (u, none) :: ((List.range (u - s - 3)).map
        ((fun j => u - s - j) ∘ Nat.succ)).map (fun j => (s + j, none)) := by
    rw [e3, e5, List.map_cons]
    rw [show s + (u - s) = u from by omega]
  have hB : (mtch (.cat (.repc dC 3 (some 4)) .bnd) t s).head? =
      some (u, none) := by
    rw [mtch_cat_eq, e6, List.map_cons, List.flatten_cons, List.head?_append]
    simp [e2, orG]
  show (mtch (.cat .bnd (.cat (.repc dC 3 (some 4)) .bnd)) t s).head? =
    some (u, none)
  rw [mtch_cat_eq, e1]
  simp only [List.map_cons, List.map_nil, List.flatten_cons, List.flatten_nil,
    List.append_nil, List.head?_map]
  rw [hB]
  simp [orG]

def goodSpan (s u : Nat) (m : Span) : Prop :=
  m.confidence = 1 ∧ m.start ≤ s ∧ u ≤ m.stop

theorem dedupStep_keeps {s u : Nat} {acc : List Span} {x : Span}
    (hm : ∃ m ∈ acc, goodSpan s u m) (hx : x.confidence ≤ 1) :
    ∃ m ∈ dedupStep acc x, goodSpan s u m := by
  rcases hm with ⟨m, hmacc, hmg⟩
  unfold dedupStep
  cases hf : acc.find? (fun ex => overlapB x ex) with
  | none => exact ⟨m, List.mem_append.2 (Or.inl hmacc), hmg⟩
  | some ex =>
      show ∃ m' ∈ (if ex.confidence < x.confidence then
          acc.erase ex ++ [x] else acc), goodSpan s u m'
      split
      · rename_i hlt
        have hne : m ≠ ex := by
          intro heq
          rw [← heq, hmg.1] at hlt
          exact absurd (lt_of_lt_of_le hlt hx) (lt_irrefl _)
        exact ⟨m,
          List.mem_append.2 (Or.inl ((List.mem_erase_of_ne hne).2 hmacc)), hmg⟩
      · exact ⟨m, hmacc, hmg⟩

theorem foldl_keeps {s u : Nat} :
    ∀ (L acc : List Span),
      (∃ m ∈ acc, goodSpan s u m) → (∀ x ∈ L, x.confidence ≤ 1) →
      ∃ m ∈ L.foldl dedupStep acc, goodSpan s u m := by
  intro L
  induction L with
  | nil => exact fun acc h _ => h
  | cons x L' ih =>
      intro acc h hL
      exact ih (dedupStep acc x) (dedupStep_keeps h (hL x (by simp)))
        (fun y hy => hL y (by simp [hy]))

theorem dedupStep_subset {acc : List Span} {x : Span} :
    ∀ y ∈ dedupStep acc x, y ∈ acc ∨ y = x := by
  intro y hy
  unfold dedupStep at hy
  cases hf : acc.find? (fun ex => overlapB x ex) with
  | none =>
      rw [hf] at hy
      rcases List.mem_append.1 hy with h1 | h1
      · exact Or.inl h1
      · exact Or.inr (by simpa using h1)
  | some ex =>
      rw [hf] at hy
      have hy' : y ∈ (if ex.confidence < x.confidence then
          acc.erase ex ++ [x] else acc) := hy
      split at hy'
      · rcases List.mem_append.1 hy' with h1 | h1
        · exact Or.inl (List.mem_of_mem_erase h1)
        · exact Or.inr (by simpa using h1)
      · exact Or.inl hy'

theorem foldl_subset :
    ∀ (L acc : List Span) (y : Span),
      y ∈ L.foldl dedupStep acc → y ∈ acc ∨ y ∈ L := by
  intro L
  induction L with
  | nil => intro acc y hy; exact Or.inl hy
  | cons x L' ih =>
      intro acc y hy
      rcases ih (dedupStep acc x) y hy with h1 | h1
      · rcases dedupStep_subset y h1 with h2 | h2
        · exact Or.inl h2
        · exact Or.inr (by simp [h2])
      · exact Or.inr (by simp [h1])

/-- C9: any standalone three- or four-digit sequence (digits exactly on
`[s, u)`, a word boundary on each side) makes `detect_in_text` return at
least one confidence-1.0 span covering the whole sequence: the registry's
generic `cvv` pattern `\b\d\x7b3,4\x7d\b` matches it, and overlap
deduplication can never discard the covering confidence-1.0 span in favour
of anything weaker, because no candidate has confidence above 1.0 and every
confidence-1.0 span overlapping the run covers it. -/
theorem C9_standalone_digits_flagged (t : List Char) (s u : Nat)
    (h3 : 3 ≤ u - s) (h4 : u - s ≤ 4) (hu : u ≤ t.length)
    (hdig : ∀ k, s ≤ k → k < u → ∃ ch, t[k]? = some ch ∧ ch.isDigit = true)
    (hleft : s = 0 ∨ ∃ ch, t[s - 1]? = some ch ∧ wordChar ch = false)
    (hright : u = t.length ∨ ∃ ch, t[u]? = some ch ∧ wordChar ch = false) :
    ∃ m ∈ detectInText t, m.confidence = 1 ∧ m.start ≤ s ∧ u ≤ m.stop := by
  have hh := cvv_head h3 h4 hu hdig hleft hright
  have hjump : ∀ i, i < s → ∀ e g,
      (mtch p_cvv t i).head? = some (e, g) → e ≤ s := by
    intro i hi e g hhead
    by_contra hgt
    push_neg at hgt
    have hmem : (e, g) ∈ mtch p_cvv t i :=
      List.mem_of_mem_head? (by rw [hhead]; rfl)
    rcases cvv_digits (e, g) hmem (s - 1) (by omega)
      (by show s - 1 < e; omega) with ⟨ch, hch, hcm⟩
    rcases hleft with h0 | ⟨ch2, hch2, hw2⟩
    · omega
    · rw [hch2] at hch
      have hce : ch2 = ch := by simpa using hch
      rw [← hce] at hcm
      rw [ccMatch_dC_word hcm] at hw2
      simp at hw2
  have hs_le : s ≤ t.length := by omega
  have hmem_s : (s, u, none) ∈ finditer p_cvv t s :=
    finditer_head_mem_at hs_le hh
  have hmem_0 : (s, u, none) ∈ finditer p_cvv t 0 :=
    finditer_reach hs_le hjump s 0 (by omega) (by omega) _ hmem_s
  have hcvvp : ("cvv", p_cvv) ∈ detectorPatterns :=
    List.getElem?_mem
      (show detectorPatterns[18]? = some ("cvv", p_cvv) from rfl)
  have hc0 : mkSpan "cvv" t s u 1 ∈ registryCands t :=
    mem_fm_of hcvvp (List.mem_map.2 ⟨(s, u, none), hmem_0, rfl⟩)
  have hc0c : mkSpan "cvv" t s u 1 ∈ registryCands t ++ fuzzyCands t :=
    List.mem_append.2 (Or.inl hc0)
  have hsort : mkSpan "cvv" t s u 1 ∈
      sortStartAsc (registryCands t ++ fuzzyCands t) :=
    (sortStartAsc_perm (registryCands t ++ fuzzyCands t)).mem_iff.2 hc0c
  rcases List.mem_iff_append.1 hsort with ⟨L1, L2, hL⟩
  have hsorted_sub : ∀ y, y ∈ L1 ∨ y ∈ L2 →
      y ∈ registryCands t ++ fuzzyCands t := by
    intro y hy
    refine (sortStartAsc_perm (registryCands t ++ fuzzyCands t)).mem_iff.1 ?_
    rw [hL]
    rcases hy with h1 | h1
    · exact List.mem_append.2 (Or.inl h1)
    · exact List.mem_append.2 (Or.inr (by simp [h1]))
  have hdet : detectInText t =
      (L1 ++ mkSpan "cvv" t s u 1 :: L2).foldl dedupStep [] := by
    show removeOverlappingMatches (registryCands t ++ fuzzyCands t) = _
    unfold removeOverlappingMatches
    rw [hL]
  have hstepA : ∀ A : List Span,
      (∀ y ∈ A, y ∈ registryCands t ++ fuzzyCands t) →
      ∃ m ∈ dedupStep A (mkSpan "cvv" t s u 1), goodSpan s u m := by
    intro A hAsub
    have hgc0 : goodSpan s u (mkSpan "cvv" t s u 1) :=
      ⟨rfl, Nat.le_refl s, Nat.le_refl u⟩
    unfold dedupStep
    cases hf : A.find? (fun ex => overlapB (mkSpan "cvv" t s u 1) ex) with
    | none =>
        exact ⟨mkSpan "cvv" t s u 1,
          List.mem_append.2 (Or.inr (by simp)), hgc0⟩
    | some ex =>
        have hexmem : ex ∈ A := List.mem_of_find?_eq_some hf
        have hexc : ex ∈ registryCands t ++ fuzzyCands t := hAsub ex hexmem
        have hov := List.find?_some hf
        have hov1 : ex.start < u := by
          have := (Bool.and_eq_true_iff.1 hov).2
          simpa [mkSpan] using this
        have hov2 : s < ex.stop := by
          have := (Bool.and_eq_true_iff.1 hov).1
          simpa [mkSpan] using this
        show ∃ m ∈ (if ex.confidence < (mkSpan "cvv" t s u 1).confidence then
            A.erase ex ++ [mkSpan "cvv" t s u 1]
          else A), goodSpan s u m
        split
        · exact ⟨mkSpan "cvv" t s u 1,
            List.mem_append.2 (Or.inr (by simp)), hgc0⟩
        · rename_i hnlt
          have hexle : ex.confidence ≤ 1 := cands_conf_le hexc
          have hexone : ex.confidence = 1 := by
            have hnlt' : ¬ ex.confidence < 1 := by
              simpa [mkSpan] using hnlt
            exact le_antisymm hexle (not_lt.1 hnlt')
          have hexreg : ex ∈ registryCands t := conf_one_registry hexc hexone
          have hcover := registry_cover hdig hexreg hov1 hov2
          exact ⟨ex, hexmem, hexone, hcover.1, hcover.2⟩
  have hstep := hstepA (L1.foldl dedupStep []) (by
    intro y hy
    rcases foldl_subset L1 [] y hy with h1 | h1
    · simp at h1
    · exact hsorted_sub y (Or.inl h1))
  rw [hdet, List.foldl_append, List.foldl_cons]
  rcases foldl_keeps L2 _ hstep
    (fun x hx => cands_conf_le (hsorted_sub x (Or.inr hx))) with ⟨m, hm1, hm2⟩
  exact ⟨m, hm1, hm2.1, hm2.2.1, hm2.2.2⟩

/-- C9 applied to the text `"no 707 x"`, whose characters 3–5 are a
standalone three-digit run. -/
theorem C9_standalone_digits_flagged_witness :
    ∃ m ∈ detectInText "no 707 x".data,
      m.confidence = 1 ∧ m.start ≤ 3 ∧ 6 ≤ m.stop :=
  C9_standalone_digits_flagged "no 707 x".data 3 6 (by decide) (by decide)
    (by decide) (by decide) (by decide) (by decide)

end Cleanser
